import Mathlib

/-!
# Verification of the poop interpreter (`poop.js` / `poop.hs`)

A shallow embedding of the lexer, recursive-descent parser, substitution
engine and single-step reduction engine of the poop esolang interpreter,
together with theorems settling the specification claims.

Strings are modelled as `List Char`.  The JavaScript implementation
(`src/poop.js`, v1.4.1) is the primary source of the embedding; the Haskell
reference (`src/poop.hs`) agrees on everything formalised here except where
noted in comments.
-/

namespace Poop

/-- Source / token text, modelled as a list of characters. -/
abbrev Str := List Char

/-- The five-variant AST of `poop.js` (`class Node`) / `poop.hs` (`data Node`). -/
inductive Node where
  | token (s : Str)
  | literal (s : Str)
  | func (param : Str) (body : List Node)
  | macroDef (name : Str) (body : List Node)
  | apply (fn : Node) (args : List Node)
deriving Repr

mutual
/-- Boolean equality on nodes (the nested inductive blocks automatic derivation). -/
def beqN : Node → Node → Bool
  | .token s, .token t => s == t
  | .literal s, .literal t => s == t
  | .func p b, .func q c => p == q && beqL b c
  | .macroDef p b, .macroDef q c => p == q && beqL b c
  | .apply f a, .apply g b => beqN f g && beqL a b
  | _, _ => false

/-- Boolean equality on node lists. -/
def beqL : List Node → List Node → Bool
  | [], [] => true
  | n :: ns, m :: ms => beqN n m && beqL ns ms
  | _, _ => false
end

mutual
/-- Size of a node, used as the termination measure of traversals. -/
def sizeN : Node → Nat
  | .token _ => 1
  | .literal _ => 1
  | .func _ b => 1 + sizeL b
  | .macroDef _ b => 1 + sizeL b
  | .apply f a => 1 + sizeN f + sizeL a

/-- Size of a node list. -/
def sizeL : List Node → Nat
  | [] => 0
  | n :: ns => sizeN n + sizeL ns
end

mutual
/-- Decidable equality on nodes, by structural recursion. -/
def decEqN : (a b : Node) → Decidable (a = b)
  | .token s, .token t =>
    if h : s = t then .isTrue (by rw [h]) else .isFalse (by simp [h])
  | .literal s, .literal t =>
    if h : s = t then .isTrue (by rw [h]) else .isFalse (by simp [h])
  | .func p b, .func q c =>
    if h : p = q then
      match decEqL b c with
      | .isTrue h2 => .isTrue (by rw [h, h2])
      | .isFalse h2 => .isFalse (by simp [h2])
    else .isFalse (by simp [h])
  | .macroDef p b, .macroDef q c =>
    if h : p = q then
      match decEqL b c with
      | .isTrue h2 => .isTrue (by rw [h, h2])
      | .isFalse h2 => .isFalse (by simp [h2])
    else .isFalse (by simp [h])
  | .apply f a, .apply g b =>
    match decEqN f g, decEqL a b with
    | .isTrue h1, .isTrue h2 => .isTrue (by rw [h1, h2])
    | .isFalse h1, _ => .isFalse (by simp [h1])
    | _, .isFalse h2 => .isFalse (by simp [h2])
  | .token _, .literal _ => .isFalse (by simp)
  | .token _, .func _ _ => .isFalse (by simp)
  | .token _, .macroDef _ _ => .isFalse (by simp)
  | .token _, .apply _ _ => .isFalse (by simp)
  | .literal _, .token _ => .isFalse (by simp)
  | .literal _, .func _ _ => .isFalse (by simp)
  | .literal _, .macroDef _ _ => .isFalse (by simp)
  | .literal _, .apply _ _ => .isFalse (by simp)
  | .func _ _, .token _ => .isFalse (by simp)
  | .func _ _, .literal _ => .isFalse (by simp)
  | .func _ _, .macroDef _ _ => .isFalse (by simp)
  | .func _ _, .apply _ _ => .isFalse (by simp)
  | .macroDef _ _, .token _ => .isFalse (by simp)
  | .macroDef _ _, .literal _ => .isFalse (by simp)
  | .macroDef _ _, .func _ _ => .isFalse (by simp)
  | .macroDef _ _, .apply _ _ => .isFalse (by simp)
  | .apply _ _, .token _ => .isFalse (by simp)
  | .apply _ _, .literal _ => .isFalse (by simp)
  | .apply _ _, .func _ _ => .isFalse (by simp)
  | .apply _ _, .macroDef _ _ => .isFalse (by simp)

/-- Decidable equality on node lists. -/
def decEqL : (l m : List Node) → Decidable (l = m)
  | [], [] => .isTrue rfl
  | [], _ :: _ => .isFalse (by simp)
  | _ :: _, [] => .isFalse (by simp)
  | n :: ns, m :: ms =>
    match decEqN n m, decEqL ns ms with
    | .isTrue h1, .isTrue h2 => .isTrue (by rw [h1, h2])
    | .isFalse h1, _ => .isFalse (by simp [h1])
    | _, .isFalse h2 => .isFalse (by simp [h2])
end

instance : DecidableEq Node := decEqN

/-! ## Lexer (`removeComments`, `unescapeStr`, `tokenize`, classification) -/

mutual
/-- `removeComments` of `poop.js`: deletes `//...` up to (excluding) the newline
and `/*...*/` spans; a terminated block comment leaves one space; an
unterminated one consumes to end of input. -/
def removeComments : List Char → List Char
  | [] => []
  | '/' :: '/' :: rest => skipLine rest
  | '/' :: '*' :: rest => removeBlock rest
  | c :: rest => c :: removeComments rest

/-- The `//` loop of `removeComments`: skip to the next newline, which is kept. -/
def skipLine : List Char → List Char
  | [] => []
  | '\n' :: rest => '\n' :: removeComments rest
  | _ :: rest => skipLine rest

/-- The `/* ... */` loop of `removeComments`: a `*/` closes the comment and
emits a single space; end of input closes it silently. -/
def removeBlock : List Char → List Char
  | [] => []
  | '*' :: '/' :: rest => ' ' :: removeComments rest
  | _ :: rest => removeBlock rest
end

/-- One escape character resolution (the `switch` of `unescapeStr`);
an unrecognized escape decodes to the bare following character. -/
def decodeEsc (c : Char) : Char :=
  if c = 'n' then '\n'
  else if c = 't' then '\t'
  else if c = 'r' then '\r'
  else if c = 's' then ' '
  else if c = '\\' then '\\'
  else c

/-- `unescapeStr` of `poop.js`: a backslash introduces an escape only when a
character follows it; a final lone backslash is copied unchanged. -/
def unescapeStr : List Char → List Char
  | [] => []
  | '\\' :: c :: rest => decodeEsc c :: unescapeStr rest
  | c :: rest => c :: unescapeStr rest

/-- Whitespace for tokenization (the `\s+` split of `poop.js` / `words` of
`poop.hs`): space, tab, newline, carriage return. -/
def isWs (c : Char) : Bool :=
  c = ' ' || c = '\t' || c = '\n' || c = '\r'

/-- Splitter worker: split on runs of whitespace, discarding empty fragments;
`acc` holds the current fragment reversed. -/
def splitWsAux : List Char → List Char → List (List Char)
  | [], acc => if acc = [] then [] else [acc.reverse]
  | c :: rest, acc =>
    if isWs c then
      if acc = [] then splitWsAux rest [] else acc.reverse :: splitWsAux rest []
    else splitWsAux rest (c :: acc)

/-- Split a string on whitespace runs, discarding empty fragments
(the `split(/\s+/).filter(t => t.length > 0)` of `poop.js`). -/
def splitWs (s : List Char) : List (List Char) :=
  splitWsAux s []

/-- `tokenize` of `poop.js`: strip comments, split on whitespace, unescape
each fragment. -/
def tokenize (s : List Char) : List Str :=
  (splitWs (removeComments s)).map unescapeStr

/-- `isVarName`: non-empty, all characters lowercase ASCII letters or `_`. -/
def isVarName (s : Str) : Bool :=
  !s.isEmpty && s.all (fun c => ('a' ≤ c && c ≤ 'z') || c = '_')

/-- The reserved keywords excluded by `isLiteral`. -/
def reservedWords : List Str :=
  [['p','o','o','p'], ['p','o','o','p','i','n','g'], ['q','o','o','q'],
   ['p','o','o','p','s'], ['p','o','o','p','y'], ['i','s']]

/-- `isLiteral`: not a reserved keyword, starts with `Po`, ends with `op`,
length at least 4. -/
def isLiteral (s : Str) : Bool :=
  if s ∈ reservedWords then false
  else List.isPrefixOf ['P','o'] s && List.isSuffixOf ['o','p'] s && s.length ≥ 4

/-! ## The three stringification traversals -/

mutual
/-- `Node.toCodeString` of `poop.js`: source-reconstructing rendering. -/
def toCodeString : Node → Str
  | .token s => s
  | .literal s => s
  | .func p body =>
    ['p','o','o','p',' '] ++ p ++ [' ','p','o','o','p','s',' ']
      ++ nodesToCodeString body ++ [' ','q','o','o','q']
  | .macroDef n body =>
    ['p','o','o','p',' '] ++ n ++ [' ','i','s',' ']
      ++ nodesToCodeString body ++ [' ','q','o','o','q']
  | .apply f args =>
    ['p','o','o','p','i','n','g',' '] ++ toCodeString f ++ [' ','p','o','o','p','y',' ']
      ++ nodesToCodeString args ++ [' ','q','o','o','q']

/-- `nodesToCodeString`: the space-join of the members' code strings. -/
def nodesToCodeString : List Node → Str
  | [] => []
  | [n] => toCodeString n
  | n :: ns => toCodeString n ++ ' ' :: nodesToCodeString ns
end

mutual
/-- `nodeToOutputString` of `poop.js`: output rendering; decodes literals
(strip the 2-character marker on both ends, empty for length ≤ 4). -/
def nodeToOutputString : Node → Str
  | .token s => s
  | .literal s => if s.length ≤ 4 then [] else (s.take (s.length - 2)).drop 2
  | .func p body =>
    ['p','o','o','p',' '] ++ p ++ [' ','p','o','o','p','s',' ']
      ++ nodesToOutputString body ++ [' ','q','o','o','q']
  | .macroDef n body =>
    ['p','o','o','p',' '] ++ n ++ [' ','i','s',' ']
      ++ nodesToOutputString body ++ [' ','q','o','o','q']
  | .apply f args =>
    ['p','o','o','p','i','n','g',' '] ++ nodeToOutputString f ++ [' ','p','o','o','p','y',' ']
      ++ nodesToOutputString args ++ [' ','q','o','o','q']

/-- `nodesToOutputString`: concatenation with no separator. -/
def nodesToOutputString : List Node → Str
  | [] => []
  | n :: ns => nodeToOutputString n ++ nodesToOutputString ns
end

/-! ## Parser

Recursive descent over the token sequence (`parseExprs`, `parsePoop`,
`parsePooping`, `parseProgram` of `poop.js`).  The auxiliary versions return
the remaining tokens bundled with a length bound, which justifies the
recursion; the public wrappers return plain pairs. -/

/-- The token `qooq`. -/
def qooqT : Str := ['q','o','o','q']
/-- The token `poopy`. -/
def poopyT : Str := ['p','o','o','p','y']
/-- The token `poop`. -/
def poopT : Str := ['p','o','o','p']
/-- The token `pooping`. -/
def poopingT : Str := ['p','o','o','p','i','n','g']
/-- The token `is`. -/
def isT : Str := ['i','s']
/-- The token `poops`. -/
def poopsT : Str := ['p','o','o','p','s']

/-- The single-character control tokens which are illegal macro names. -/
def escapeNames : List Str := [['\n'], ['\r'], ['\t'], ['\\']]

mutual
/-- `parseExprs` of `poop.js`: consume sibling nodes until end of tokens or a
`qooq`/`poopy` terminator (left unconsumed).  The remaining tokens are
returned together with the invariant that they are a suffix of the input,
which both justifies the recursion and is itself the parser's
rest-is-a-suffix property. -/
def parseExprsAux (ts0 : List Str) :
    Except String (List Node × {r : List Str // r <:+ ts0}) :=
  match ts0 with
  | [] => .ok ([], ⟨[], List.nil_suffix⟩)
  | t :: ts =>
    if t = qooqT || t = poopyT then
      .ok ([], ⟨t :: ts, List.suffix_refl _⟩)
    else if t = poopT then
      match parsePoopAux ts with
      | .error e => .error e
      | .ok (node, ⟨rest, hr⟩) =>
        match parseExprsAux rest with
        | .error e => .error e
        | .ok (siblings, ⟨finalRest, hf⟩) =>
          .ok (node :: siblings,
            ⟨finalRest, ((hf.trans hr).trans (List.suffix_cons t ts))⟩)
    else if t = poopingT then
      match parsePoopingAux ts with
      | .error e => .error e
      | .ok (node, ⟨rest, hr⟩) =>
        match parseExprsAux rest with
        | .error e => .error e
        | .ok (siblings, ⟨finalRest, hf⟩) =>
          .ok (node :: siblings,
            ⟨finalRest, ((hf.trans hr).trans (List.suffix_cons t ts))⟩)
    else
      let node := if isLiteral t then Node.literal t else Node.token t
      match parseExprsAux ts with
      | .error e => .error e
      | .ok (siblings, ⟨rest, hr⟩) =>
        .ok (node :: siblings, ⟨rest, hr.trans (List.suffix_cons t ts)⟩)
termination_by 2 * ts0.length
decreasing_by
  all_goals (try (have hL1 := hr.length_le))
  all_goals (try simp only [List.length_cons] at *)
  all_goals omega

/-- `parsePoop` of `poop.js`: tokens begin right after `poop`; dispatch on
`is` (macro definition) versus `poops` (function). -/
def parsePoopAux (ts0 : List Str) :
    Except String (Node × {r : List Str // r <:+ ts0}) :=
  match ts0 with
  | [] => .error "Unexpected end of file after 'poop'"
  | name :: ts =>
    match ts with
    | t0 :: rest =>
      if t0 = isT then
        if isVarName name || name ∈ escapeNames then
          .error "Illegal macro name (cannot be variable format or escape char)"
        else
          match parseExprsAux rest with
          | .error e => .error e
          | .ok (body, ⟨afterBody, hb⟩) =>
            match afterBody, hb with
            | q :: remTokens, hb =>
              if q = qooqT then
                .ok (.macroDef name body,
                  ⟨remTokens, (((List.suffix_cons q remTokens).trans hb).trans
                    (List.suffix_cons t0 rest)).trans (List.suffix_cons name (t0 :: rest))⟩)
              else .error "Missing 'qooq' for macro definition"
            | [], _ => .error "Missing 'qooq' for macro definition"
      else if t0 = poopsT then
        if !isVarName name then
          .error "Invalid parameter name (must be [a-z_]+)"
        else
          match parseExprsAux rest with
          | .error e => .error e
          | .ok (body, ⟨afterBody, hb⟩) =>
            match afterBody, hb with
            | q :: remTokens, hb =>
              if q = qooqT then
                .ok (.func name body,
                  ⟨remTokens, (((List.suffix_cons q remTokens).trans hb).trans
                    (List.suffix_cons t0 rest)).trans (List.suffix_cons name (t0 :: rest))⟩)
              else .error "Missing 'qooq' for function"
            | [], _ => .error "Missing 'qooq' for function"
      else .error "Expected 'is' or 'poops' after 'poop'"
    | [] => .error "Expected 'is' or 'poops' after 'poop'"
termination_by 2 * ts0.length
decreasing_by
  all_goals (try simp only [List.length_cons] at *)
  all_goals omega

/-- `parsePooping` of `poop.js`: callee sequence, `poopy`, argument sequence,
`qooq`; a non-singleton callee sequence collapses into a synthetic token whose
name is the space-joined code rendering. -/
def parsePoopingAux (ts0 : List Str) :
    Except String (Node × {r : List Str // r <:+ ts0}) :=
  match parseExprsAux ts0 with
  | .error e => .error e
  | .ok (funcNodes, ⟨afterFunc, h1⟩) =>
    match afterFunc, h1 with
    | p :: rest, h1 =>
      if p = poopyT then
        match parseExprsAux rest with
        | .error e => .error e
        | .ok (argNodes, ⟨afterArg, h2⟩) =>
          match afterArg, h2 with
          | q :: remTokens, h2 =>
            if q = qooqT then
              let funcNode := match funcNodes with
                | [x] => x
                | _ => Node.token (nodesToCodeString funcNodes)
              .ok (.apply funcNode argNodes,
                ⟨remTokens, (((List.suffix_cons q remTokens).trans h2).trans
                  (List.suffix_cons p rest)).trans h1⟩)
            else .error "Expected 'poopy' in 'pooping' structure"
          | [], _ => .error "Expected 'poopy' in 'pooping' structure"
      else .error "Expected 'poopy' in 'pooping' structure"
    | [], _ => .error "Expected 'poopy' in 'pooping' structure"
termination_by 2 * ts0.length + 1
decreasing_by
  all_goals (try (have hL1 := h1.length_le))
  all_goals (try (have hL2 := h2.length_le))
  all_goals (try simp only [List.length_cons] at *)
  all_goals omega
end

/-- Public `parseExprs`: plain-pair version. -/
def parseExprs (ts : List Str) : Except String (List Node × List Str) :=
  (parseExprsAux ts).map fun p => (p.1, p.2.val)

/-- Public `parsePoop`: plain-pair version. -/
def parsePoop (ts : List Str) : Except String (Node × List Str) :=
  (parsePoopAux ts).map fun p => (p.1, p.2.val)

/-- Public `parsePooping`: plain-pair version. -/
def parsePooping (ts : List Str) : Except String (Node × List Str) :=
  (parsePoopingAux ts).map fun p => (p.1, p.2.val)

/-- `parseProgram` of `poop.js`: tokenize, parse a sequence, fail on leftover
tokens. -/
def parseProgram (code : Str) : Except String (List Node) :=
  match parseExprs (tokenize code) with
  | .error e => .error e
  | .ok (nodes, rest) =>
    if rest = [] then .ok nodes else .error "Unexpected tokens at end"

/-! ## Evaluator state and helpers -/

/-- The macro table (`this.macros` / `macros st`): an insert-once map from
names to body node sequences, modelled as an association list. -/
abbrev Env := List (Str × List Node)

/-- `macros.has(name)`. -/
def envHas (env : Env) (k : Str) : Bool :=
  env.any (fun p => p.1 = k)

/-- `macros.get(name)`. -/
def envGet (env : Env) (k : Str) : Option (List Node) :=
  (env.find? (fun p => p.1 = k)).map (·.2)

/-- `macros.set(name, body)` (names are never redefined, so prepending is
an accurate model of the map update). -/
def envSet (env : Env) (k : Str) (v : List Node) : Env :=
  (k, v) :: env

/-- The token `Input`. -/
def inputT : Str := ['I','n','p','u','t']
/-- The token `Print`. -/
def printT : Str := ['P','r','i','n','t']
/-- The synthetic token `ERROR` produced when a reduced callee is not a
single node. -/
def errorT : Str := ['E','R','R','O','R']
/-- The synthetic token `ERROR_MACRO_SINGLE` of the macro-callee branch. -/
def errorMacroT : Str :=
  ['E','R','R','O','R','_','M','A','C','R','O','_','S','I','N','G','L','E']

/-- `isPrintable` of `poop.js`: only literals and tokens that are neither
`Input` nor a known macro name are printable. -/
def isPrintable (env : Env) : Node → Bool
  | .token v => !(v = inputT) && !(envHas env v)
  | .literal _ => true
  | _ => false

mutual
/-- `containsPrint` of `poop.js` (single node). -/
def containsPrint : Node → Bool
  | .apply f args =>
    (match f with | .token t => t = printT | _ => false)
      || containsPrint f || containsPrintL args
  | .func _ body => containsPrintL body
  | .macroDef _ body => containsPrintL body
  | _ => false

/-- `body.some(containsPrint)`. -/
def containsPrintL : List Node → Bool
  | [] => false
  | n :: ns => containsPrint n || containsPrintL ns
end

instance : Inhabited Node := ⟨.token []⟩

mutual
/-- The per-node part of `substitute`: the list of nodes a single node is
replaced by.  In the `Apply` case both sources take the head of the
substitution of the singleton callee list (`substitute(...)[0]` in JS,
`head (substitute ...)` in Haskell); that head is undefined only when the
callee is exactly the parameter token and the argument list is empty, where
JS yields `undefined` and Haskell crashes — `headI`'s default stands in for
that unspecified value. -/
def substituteN (param : Str) (argNodes : List Node) : Node → List Node
  | .token t => if t = param then argNodes else [.token t]
  | .literal l => [.literal l]
  | .func p b =>
    if p = param then [.func p b]
    else [.func p (substitute param argNodes b)]
  | .macroDef n b => [.macroDef n (substitute param argNodes b)]
  | .apply f a =>
    [.apply (substituteN param argNodes f).headI (substitute param argNodes a)]

/-- `substitute` of `poop.js` / `poop.hs`: replace free occurrences of
`Token(param)` by (a copy of) `argNodes`, splicing lists in place. -/
def substitute (param : Str) (argNodes : List Node) : List Node → List Node
  | [] => []
  | n :: ns => substituteN param argNodes n ++ substitute param argNodes ns
end

mutual
/-- The singleton-list expansion of one node inside `expandOnceNodes`
(the result of `expandOnceNodes([n])` with an empty tail). -/
def expandOnceN (env : Env) : Node → (List Node × Bool)
  | .token t =>
    match envGet env t with
    | some body => (body, true)
    | none => ([.token t], false)
  | .literal l => ([.literal l], false)
  | .func p b =>
    let r := expandOnceNodes env b
    ([.func p r.1], r.2)
  | .macroDef n b =>
    let r := expandOnceNodes env b
    ([.macroDef n r.1], r.2)
  | .apply f a =>
    let fr := expandOnceN env f
    let newF := match fr.1 with
      | [x] => x
      | _ => Node.token (nodesToCodeString fr.1)
    let ar := expandOnceNodes env a
    ([.apply newF ar.1], fr.2 || ar.2)

/-- `expandOnceNodes` of `poop.js`: one simultaneous macro-expansion pass
over a node sequence. -/
def expandOnceNodes (env : Env) : List Node → (List Node × Bool)
  | [] => ([], false)
  | n :: ns =>
    let hr := expandOnceN env n
    let rr := expandOnceNodes env ns
    (hr.1 ++ rr.1, hr.2 || rr.2)
end

/-- `expandMacrosDeep` of `poop.js`: iterate `expandOnceNodes` to a fixed
point; the `fuel` bound makes the (possibly diverging) loop total, `none`
standing for a run that would still be looping. -/
def expandMacrosDeep : Nat → Env → List Node → Option (List Node × Bool)
  | 0, _, _ => none
  | fuel + 1, env, nodes =>
    let r := expandOnceNodes env nodes
    if r.2 then
      match expandMacrosDeep fuel env r.1 with
      | none => none
      | some (final, _) => some (final, true)
    else some (r.1, false)

/-! ## One reduction step (`reduceFirst`)

The result of a step: the list of strings passed to the write sink during
the step, and the outcome.  `fatal` models a thrown error
(`throw new Error(...)` / `error`), `needInput` the suspension awaiting a
line for `Input`, `fuelOut` exhaustion of the termination fuel (only the
`expandMacrosDeep` loop and the driver can actually diverge; the structural
fuel also bounds recursion depth, so theorems quantify over sufficient
fuel).  The interpreter's side effects (macro table, consumed input, emitted
output) are threaded explicitly. -/

/-- Outcome of one reduction step. -/
inductive StepTail where
  | ok (env : Env) (stdin : List Str) (nodes : List Node) (changed : Bool)
  | fatal (msg : String)
  | needInput
  | fuelOut
deriving Repr, DecidableEq

/-- A step result: emitted output plus outcome. -/
abbrev StepRes := List Str × StepTail

/-- `reduceFirst` of `poop.js`: one leftmost-outermost rewrite attempt.
`lazy` is `this.lazyMode`; `stdin` supplies the lines `inputFn` would
return. -/
def reduceFirst : Nat → Bool → Env → List Str → List Node → StepRes
  | _, _, env, stdin, [] => ([], .ok env stdin [] false)
  | 0, _, _, _, _ :: _ => ([], .fuelOut)
  | fuel + 1, lazy, env, stdin, n :: rest =>
    match n with
    | .token t =>
      -- PRIORITY 1: Input
      if t = inputT then
        match stdin with
        | [] => ([], .needInput)
        | line :: stdin' =>
          match parseProgram line with
          | .error e => ([], .fatal ("Error parsing: " ++ e))
          | .ok inputNodes => ([], .ok env stdin' (inputNodes ++ rest) true)
      else
        -- PRIORITY 3: macro expansion, else reduce the tail
        match envGet env t with
        | some body => ([], .ok env stdin (body ++ rest) true)
        | none =>
          match reduceFirst fuel lazy env stdin rest with
          | (o, .ok e s r c) => (o, .ok e s (.token t :: r) c)
          | other => other
    | .macroDef name body =>
      -- PRIORITY 2: macro definition
      if envHas env name then
        ([], .fatal ("Macro redefinition error: " ++ String.mk name))
      else
        ([], .ok (envSet env name body) stdin rest true)
    | .apply f a =>
      -- PRIORITY 4: application; 4a. reduce the callee alone first
      match reduceFirst fuel lazy env stdin [f] with
      | (o, .ok e s newFunc true) =>
        let funcPrime := match newFunc with
          | [x] => x
          | _ => Node.token errorT
        (o, .ok e s (.apply funcPrime a :: rest) true)
      | (o, .ok e s _ false) =>
        match f with
        | .func param body =>
          if lazy then
            -- STRATEGY: LAZY
            (o, .ok e s (substitute param a body ++ rest) true)
          else
            -- STRATEGY: LEGACY / STRICT
            match expandMacrosDeep fuel e body with
            | none => (o, .fuelOut)
            | some (expandedBody, true) =>
              (o, .ok e s (.apply (.func param expandedBody) a :: rest) true)
            | some (_, false) =>
              if containsPrintL body then
                (o, .ok e s (substitute param a body ++ rest) true)
              else
                match reduceFirst fuel lazy e s a with
                | (o2, .ok e2 s2 newArgs true) =>
                  (o ++ o2, .ok e2 s2 (.apply (.func param body) newArgs :: rest) true)
                | (o2, .ok e2 s2 _ false) =>
                  (o ++ o2, .ok e2 s2 (substitute param a body ++ rest) true)
                | (o2, tail) => (o ++ o2, tail)
        | .token t =>
          if t = printT then
            if a.all (isPrintable e) then
              (o ++ [nodesToOutputString a], .ok e s (a ++ rest) true)
            else
              match reduceFirst fuel lazy e s a with
              | (o2, .ok e2 s2 newArgs true) =>
                (o ++ o2, .ok e2 s2 (.apply (.token printT) newArgs :: rest) true)
              | (o2, .ok e2 s2 _ false) =>
                match reduceFirst fuel lazy e2 s2 rest with
                | (o3, .ok e3 s3 newRest c) =>
                  (o ++ o2 ++ o3, .ok e3 s3 (.apply (.token printT) a :: newRest) c)
                | (o3, tail) => (o ++ o2 ++ o3, tail)
              | (o2, tail) => (o ++ o2, tail)
          else
            match envGet e t with
            | some body =>
              let newFunc := match body with
                | [x] => x
                | _ => Node.token errorMacroT
              (o, .ok e s (.apply newFunc a :: rest) true)
            | none =>
              match reduceFirst fuel lazy e s a with
              | (o2, .ok e2 s2 newArgs true) =>
                (o ++ o2, .ok e2 s2 (.apply (.token t) newArgs :: rest) true)
              | (o2, .ok e2 s2 _ false) =>
                match reduceFirst fuel lazy e2 s2 rest with
                | (o3, .ok e3 s3 newRest c) =>
                  (o ++ o2 ++ o3, .ok e3 s3 (.apply (.token t) a :: newRest) c)
                | (o3, tail) => (o ++ o2 ++ o3, tail)
              | (o2, tail) => (o ++ o2, tail)
        | .apply f2 a2 =>
          match reduceFirst fuel lazy e s [.apply f2 a2] with
          | (o2, .ok e2 s2 newInner ch) =>
            match ch, newInner with
            | true, ni :: _ =>
              (o ++ o2, .ok e2 s2 (.apply ni a :: rest) true)
            | _, _ =>
              -- inner application stuck: try the arguments, then the tail
              match reduceFirst fuel lazy e2 s2 a with
              | (o3, .ok e3 s3 newArgs true) =>
                (o ++ o2 ++ o3, .ok e3 s3 (.apply (.apply f2 a2) newArgs :: rest) true)
              | (o3, .ok e3 s3 _ false) =>
                match reduceFirst fuel lazy e3 s3 rest with
                | (o4, .ok e4 s4 newRest c) =>
                  (o ++ o2 ++ o3 ++ o4,
                    .ok e4 s4 (.apply (.apply f2 a2) a :: newRest) c)
                | (o4, tail) => (o ++ o2 ++ o3 ++ o4, tail)
              | (o3, tail) => (o ++ o2 ++ o3, tail)
          | (o2, tail) => (o ++ o2, tail)
        | _ =>
          -- fallback (callee a literal or macro definition)
          match reduceFirst fuel lazy e s a with
          | (o2, .ok e2 s2 newArgs true) =>
            (o ++ o2, .ok e2 s2 (.apply f newArgs :: rest) true)
          | (o2, .ok e2 s2 _ false) =>
            match reduceFirst fuel lazy e2 s2 rest with
            | (o3, .ok e3 s3 newRest c) =>
              (o ++ o2 ++ o3, .ok e3 s3 (.apply f a :: newRest) c)
            | (o3, tail) => (o ++ o2 ++ o3, tail)
          | (o2, tail) => (o ++ o2, tail)
      | (o, tail) => (o, tail)
    | .func p body =>
      -- PRIORITY LOW: macro-expand inside a standalone function body
      match expandMacrosDeep fuel env body with
      | none => ([], .fuelOut)
      | some (newBody, true) => ([], .ok env stdin (.func p newBody :: rest) true)
      | some (_, false) =>
        match reduceFirst fuel lazy env stdin rest with
        | (o, .ok e s r c) => (o, .ok e s (.func p body :: r) c)
        | other => other
    | .literal l =>
      match reduceFirst fuel lazy env stdin rest with
      | (o, .ok e s r c) => (o, .ok e s (.literal l :: r) c)
      | other => other

/-- Outcome of a full run. -/
inductive RunTail where
  | done (env : Env) (stdin : List Str) (nodes : List Node)
  | fatal (msg : String)
  | needInput
  | fuelOut
  | stepsOut
deriving Repr, DecidableEq

/-- `runEval` of `poop.js`: drive `step` (= `reduceFirst`) to a fixed point,
accumulating all output; `steps` bounds the number of driver iterations. -/
def runEval : Nat → Nat → Bool → Env → List Str → List Node → List Str × RunTail
  | 0, _, _, _, _, _ => ([], .stepsOut)
  | steps + 1, fuel, lazy, env, stdin, nodes =>
    match reduceFirst fuel lazy env stdin nodes with
    | (o, .ok e s newNodes true) =>
      let r := runEval steps fuel lazy e s newNodes
      (o ++ r.1, r.2)
    | (o, .ok e s newNodes false) => (o, .done e s newNodes)
    | (o, .fatal m) => (o, .fatal m)
    | (o, .needInput) => (o, .needInput)
    | (o, .fuelOut) => (o, .fuelOut)

/-- `run` of `poop.js`: clear the macro table, parse, evaluate. -/
def run (steps fuel : Nat) (lazy : Bool) (stdin : List Str) (source : Str) :
    List Str × RunTail :=
  match parseProgram source with
  | .error e => ([], .fatal ("Error parsing: " ++ e))
  | .ok ast => runEval steps fuel lazy [] stdin ast

/-- Decidable equality for `Except` results (needed to `decide` concrete
parser evaluations). -/
instance {ε α : Type} [DecidableEq ε] [DecidableEq α] : DecidableEq (Except ε α) :=
  fun a b =>
    match a, b with
    | .error e, .error f =>
      if h : e = f then .isTrue (by rw [h]) else .isFalse (by simp [h])
    | .ok x, .ok y =>
      if h : x = y then .isTrue (by rw [h]) else .isFalse (by simp [h])
    | .error _, .ok _ => .isFalse (by simp)
    | .ok _, .error _ => .isFalse (by simp)

mutual
/-- Whether `Token(param)` occurs free in a node, mirroring the traversal of
`substitute` (an inner `Func` binding the same name shadows the outer
parameter).  Spec-side notion used to state claim C4. -/
def freeOccursN (param : Str) : Node → Bool
  | .token t => t = param
  | .literal _ => false
  | .func p b => if p = param then false else freeOccurs param b
  | .macroDef _ b => freeOccurs param b
  | .apply f a => freeOccursN param f || freeOccurs param a

/-- Whether `Token(param)` occurs free in a node list. -/
def freeOccurs (param : Str) : List Node → Bool
  | [] => false
  | n :: ns => freeOccursN param n || freeOccurs param ns
end

mutual
/-- No occurrence of the bare token `Input` anywhere in a node.  Spec-side
notion used to state claim C8 ("program with no `Input` occurrence"). -/
def noInputN : Node → Bool
  | .token s => !(s = inputT)
  | .literal _ => true
  | .func _ b => noInputL b
  | .macroDef _ b => noInputL b
  | .apply f a => noInputN f && noInputL a

/-- No occurrence of the token `Input` in a node list. -/
def noInputL : List Node → Bool
  | [] => true
  | n :: ns => noInputN n && noInputL ns
end

/-- No occurrence of the token `Input` in any macro body of the table. -/
def noInputEnv (env : Env) : Bool :=
  env.all (fun p => noInputL p.2)

/-- Replace the unconsumed-stdin component of a step result (used to state
that a step of an `Input`-free program is oblivious to the input stream). -/
def patchStdin (stdin : List Str) : StepRes → StepRes
  | (o, .ok e _ ns c) => (o, .ok e stdin ns c)
  | r => r

/-! ## Round-trip infrastructure (claim C2)

Predicates describing the token streams and ASTs for which the source
stringification re-lexes and re-parses faithfully. -/

/-- No two adjacent characters start a comment (`//` or `/*`).  The output of
`removeComments` always satisfies this, and it makes `removeComments` the
identity. -/
def noCommentStart : List Char → Bool
  | [] => true
  | [_] => true
  | a :: b :: rest =>
    !(a = '/' && (b = '/' || b = '*')) && noCommentStart (b :: rest)

/-- A lexically inert token: non-empty, holds no whitespace and no backslash,
and starts no comment.  Re-tokenizing such a token returns it unchanged. -/
def cleanTok (s : Str) : Bool :=
  !s.isEmpty && s.all (fun c => !isWs c && !(c = '\\')) && noCommentStart s

mutual
/-- The token stream produced by re-lexing the code rendering of a node
(a token's rendering re-splits on its embedded whitespace, which is how the
synthetic collapse token of `parsePooping` round-trips). -/
def nodeToks : Node → List Str
  | .token s => splitWs s
  | .literal s => [s]
  | .func p b => poopT :: p :: poopsT :: (listToks b ++ [qooqT])
  | .macroDef n b => poopT :: n :: isT :: (listToks b ++ [qooqT])
  | .apply f a => poopingT :: (nodeToks f ++ poopyT :: (listToks a ++ [qooqT]))

/-- Token stream of the rendering of a node list. -/
def listToks : List Node → List Str
  | [] => []
  | n :: ns => nodeToks n ++ listToks ns
end

mutual
/-- Well-formed parser output in expression position: exactly the shapes
`parseExprs` can produce from a clean token stream. -/
inductive WFN : Node → Prop where
  | token : ∀ s, cleanTok s = true → isLiteral s = false →
      ¬ s = qooqT → ¬ s = poopyT → ¬ s = poopT → ¬ s = poopingT →
      WFN (.token s)
  | literal : ∀ s, cleanTok s = true → isLiteral s = true → WFN (.literal s)
  | func : ∀ p b, isVarName p = true → WFL b → WFN (.func p b)
  | macroDef : ∀ n b, cleanTok n = true → isVarName n = false →
      ¬ n ∈ escapeNames → WFL b → WFN (.macroDef n b)
  | apply : ∀ f a, WFC f → WFL a → WFN (.apply f a)

/-- Well-formed callee: either a single well-formed node, or the synthetic
collapse token spelling the rendering of a non-singleton well-formed list. -/
inductive WFC : Node → Prop where
  | single : ∀ f, WFN f → WFC f
  | collapse : ∀ ns, WFL ns → ¬ ns.length = 1 →
      WFC (.token (nodesToCodeString ns))

/-- Well-formed node list: every member is well-formed. -/
inductive WFL : List Node → Prop where
  | nil : WFL []
  | cons : ∀ n ns, WFN n → WFL ns → WFL (n :: ns)
end

/-- An admissible continuation for `parseExprsAux`: empty, or starting with
one of the two terminators it leaves unconsumed. -/
def termOK (ts : List Str) : Prop :=
  ts = [] ∨ ∃ t ts2, ts = t :: ts2 ∧ (t = qooqT ∨ t = poopyT)

/-! ## General lemmas -/

/-- Every node has positive size. -/
theorem sizeN_pos (n : Node) : 1 ≤ sizeN n := by
  cases n <;> (simp [sizeN]; try omega)

/-- Mutual structural induction over nodes and node lists (the nested
inductive makes this worth proving once, by strong induction on size). -/
theorem node_mutual_induction (PN : Node → Prop) (PL : List Node → Prop)
    (h1 : ∀ s, PN (.token s)) (h2 : ∀ s, PN (.literal s))
    (h3 : ∀ p b, PL b → PN (.func p b))
    (h4 : ∀ nm b, PL b → PN (.macroDef nm b))
    (h5 : ∀ f a, PN f → PL a → PN (.apply f a))
    (h6 : PL []) (h7 : ∀ n ns, PN n → PL ns → PL (n :: ns)) :
    (∀ n, PN n) ∧ (∀ ns, PL ns) := by
  have key : ∀ k, (∀ n, sizeN n ≤ k → PN n) ∧ (∀ ns, sizeL ns ≤ k → PL ns) := by
    intro k
    induction k with
    | zero =>
      constructor
      · intro n hn
        have := sizeN_pos n
        omega
      · intro ns hns
        cases ns with
        | nil => exact h6
        | cons n ns' =>
          exfalso
          have := sizeN_pos n
          simp [sizeL] at hns
          omega
    | succ k ih =>
      have hPN : ∀ n, sizeN n ≤ k + 1 → PN n := by
        intro n hn
        cases n with
        | token s => exact h1 s
        | literal s => exact h2 s
        | func p b =>
          exact h3 p b (ih.2 b (by simp [sizeN] at hn; omega))
        | macroDef nm b =>
          exact h4 nm b (ih.2 b (by simp [sizeN] at hn; omega))
        | apply f a =>
          exact h5 f a (ih.1 f (by simp [sizeN] at hn; omega))
            (ih.2 a (by simp [sizeN] at hn; omega))
      refine ⟨hPN, ?_⟩
      intro ns hns
      cases ns with
      | nil => exact h6
      | cons n ns' =>
        have h1' : sizeN n ≤ k + 1 := by simp [sizeL] at hns; omega
        have h2' : sizeL ns' ≤ k := by
          have := sizeN_pos n
          simp [sizeL] at hns
          omega
        exact h7 n ns' (hPN n h1') (ih.2 ns' h2')
  exact ⟨fun n => (key (sizeN n)).1 n le_rfl, fun ns => (key (sizeL ns)).2 ns le_rfl⟩

/-- A key absent from the macro table is not found. -/
theorem envGet_eq_none (env : Env) (k : Str) (h : envHas env k = false) :
    envGet env k = none := by
  unfold envHas at h
  unfold envGet
  rw [List.find?_eq_none.mpr (List.any_eq_false.mp h)]
  rfl

/-- An unchanged single-node expansion pass returns the node itself, and an
unchanged list pass returns the list itself. -/
theorem expandOnce_unchanged (env : Env) :
    (∀ n, (expandOnceN env n).2 = false → (expandOnceN env n).1 = [n])
    ∧ (∀ ns, (expandOnceNodes env ns).2 = false → (expandOnceNodes env ns).1 = ns) := by
  refine node_mutual_induction _ _ ?_ ?_ ?_ ?_ ?_ ?_ ?_
  · intro s h
    cases hg : envGet env s with
    | none => simp [expandOnceN, hg]
    | some body => simp [expandOnceN, hg] at h
  · intro s _
    rfl
  · intro p b ih h
    simp only [expandOnceN] at h ⊢
    rw [ih h]
  · intro nm b ih h
    simp only [expandOnceN] at h ⊢
    rw [ih h]
  · intro f a ihf iha h
    simp only [expandOnceN, Bool.or_eq_false_iff] at h ⊢
    rw [ihf h.1, iha h.2]
  · intro _
    rfl
  · intro n ns ihn ihns h
    simp only [expandOnceNodes, Bool.or_eq_false_iff] at h ⊢
    rw [ihn h.1, ihns h.2]
    rfl

/-- A first unchanged pass makes `expandMacrosDeep` a fixed point at once. -/
theorem expandMacrosDeep_unchanged (fuel : Nat) (env : Env) (ns : List Node)
    (h : (expandOnceNodes env ns).2 = false) :
    expandMacrosDeep (fuel + 1) env ns = some (ns, false) := by
  simp [expandMacrosDeep, h, (expandOnce_unchanged env).2 ns h]

/-! ## Claim C6: macro redefinition -/

/-- **C6.** Reducing a `MacroDef` whose name is already in the macro table is
a fatal error (whatever the bodies are, identical or not); with a fresh name
the definition is inserted, the node dropped, and the step reports changed. -/
theorem macro_redefinition (env : Env) (name : Str) (body rest : List Node)
    (stdin : List Str) (fuel : Nat) (lazy : Bool) :
    (envHas env name = true →
      reduceFirst (fuel + 1) lazy env stdin (Node.macroDef name body :: rest)
        = ([], .fatal ("Macro redefinition error: " ++ String.mk name)))
    ∧ (envHas env name = false →
      reduceFirst (fuel + 1) lazy env stdin (Node.macroDef name body :: rest)
        = ([], .ok (envSet env name body) stdin rest true)) := by
  constructor <;> intro h <;> simp [reduceFirst, h]

/-- Witness for C6: redefining `M` with a node-for-node identical body is
fatal; defining fresh `M` inserts it and reports changed. -/
theorem macro_redefinition_witness :
    (envHas [(['M'], [Node.token ['a']])] ['M'] = true)
    ∧ reduceFirst 1 true [(['M'], [Node.token ['a']])] []
        (Node.macroDef ['M'] [Node.token ['a']] :: [])
      = ([], .fatal ("Macro redefinition error: " ++ String.mk ['M']))
    ∧ (envHas ([] : Env) ['M'] = false)
    ∧ reduceFirst 1 true [] [] (Node.macroDef ['M'] [Node.token ['a']] :: [])
      = ([], .ok (envSet [] ['M'] [Node.token ['a']]) [] [] true) :=
  ⟨by decide,
   (macro_redefinition [(['M'], [Node.token ['a']])] ['M'] [Node.token ['a']] [] [] 0 true).1
     (by decide),
   by decide,
   (macro_redefinition [] ['M'] [Node.token ['a']] [] [] 0 true).2 (by decide)⟩

/-! ## Claim C5: literal decoding -/

/-- **C5.** For every literal whose raw text is `Po` ++ mid ++ `op`
(so length ≥ 4 with the required marker), the output stringification yields
exactly the characters strictly between the two-character prefix and suffix;
in particular a length-4 literal (`mid = []`) decodes to the empty string,
which is this version's empty/space sentinel. -/
theorem literal_decodes_between (mid : List Char) :
    nodeToOutputString (.literal (['P','o'] ++ mid ++ ['o','p'])) = mid := by
  cases mid with
  | nil => rfl
  | cons c ms =>
    show nodeToOutputString (.literal ('P' :: 'o' :: c :: (ms ++ ['o','p']))) = c :: ms
    simp only [nodeToOutputString]
    have hlen : ('P' :: 'o' :: c :: (ms ++ ['o','p'])).length = ms.length + 5 := by
      simp only [List.length_cons, List.length_append, List.length_nil]
      try omega
    rw [hlen, if_neg (by omega), show ms.length + 5 - 2 = ms.length + 3 from by omega,
      show 'P' :: 'o' :: c :: (ms ++ ['o','p']) = ('P' :: 'o' :: c :: ms) ++ ['o','p'] from
        by simp,
      List.take_left' (by simp only [List.length_cons]; try omega)]
    rfl

/-! ## Claim C7: substitution shadowing -/

/-- **C7.** `substitute` copies a `Func` whose parameter equals the
substituted parameter verbatim (no substitution inside its body: the inner
binder shadows), recurses into the body of a `Func` with a different
parameter, and always recurses into a `MacroDef` body. -/
theorem substitute_shadowing (p q : Str) (argNodes b ns : List Node) :
    substitute p argNodes (Node.func p b :: ns)
      = Node.func p b :: substitute p argNodes ns
    ∧ (q ≠ p → substitute p argNodes (Node.func q b :: ns)
      = Node.func q (substitute p argNodes b) :: substitute p argNodes ns)
    ∧ substitute p argNodes (Node.macroDef q b :: ns)
      = Node.macroDef q (substitute p argNodes b) :: substitute p argNodes ns := by
  refine ⟨?_, fun h => ?_, ?_⟩
  · simp [substitute, substituteN]
  · simp [substitute, substituteN, h]
  · simp [substitute, substituteN]

/-- Witness for C7 at concrete inputs: substituting `x` leaves a
`Func x [Token x]` untouched, while a `Func y` body is rewritten. -/
theorem substitute_shadowing_witness :
    (substitute ['x'] [.token ['z']] (Node.func ['x'] [.token ['x']] :: [])
      = Node.func ['x'] [.token ['x']] :: substitute ['x'] [.token ['z']] [])
    ∧ (substitute ['x'] [.token ['z']] (Node.func ['y'] [.token ['x']] :: [])
      = Node.func ['y'] (substitute ['x'] [.token ['z']] [.token ['x']])
          :: substitute ['x'] [.token ['z']] [])
    ∧ (substitute ['x'] [.token ['z']] (Node.macroDef ['M'] [.token ['x']] :: [])
      = Node.macroDef ['M'] (substitute ['x'] [.token ['z']] [.token ['x']])
          :: substitute ['x'] [.token ['z']] []) :=
  ⟨(substitute_shadowing ['x'] ['y'] [.token ['z']] [.token ['x']] []).1,
   (substitute_shadowing ['x'] ['y'] [.token ['z']] [.token ['x']] []).2.1 (by decide),
   (substitute_shadowing ['x'] ['M'] [.token ['z']] [.token ['x']] []).2.2⟩

/-! ## Claim C10: trailing backslash in escape resolution -/

/-- `unescapeStr` maps non-empty strings to non-empty strings. -/
theorem unescapeStr_ne_nil (s : List Char) (h : s ≠ []) : unescapeStr s ≠ [] := by
  rw [unescapeStr.eq_def]
  split
  · exact absurd rfl h
  · simp
  · simp

/-- **C10.** A backslash that is the final character of the input is not
treated as an escape introducer: the unescaped result still ends in a
backslash (it is neither dropped nor an error — `unescapeStr` is total). -/
theorem unescape_trailing_backslash (s : List Char) (h : s.getLast? = some '\\') :
    (unescapeStr s).getLast? = some '\\' := by
  induction s using unescapeStr.induct with
  | case1 => simp at h
  | case2 c rest ih =>
    cases rest with
    | nil =>
      have hc : c = '\\' := by simpa using h
      subst hc
      decide
    | cons r rs =>
      have h' : (r :: rs).getLast? = some '\\' := by
        simpa only [List.getLast?_cons_cons] using h
      have ih' := ih h'
      obtain ⟨y, ys, hys⟩ := List.exists_cons_of_ne_nil
        (unescapeStr_ne_nil (r :: rs) (by simp))
      rw [show unescapeStr ('\\' :: c :: r :: rs)
            = decodeEsc c :: unescapeStr (r :: rs) from rfl,
        hys, List.getLast?_cons_cons, ← hys]
      exact ih'
  | case3 c rest hover ih =>
    cases rest with
    | nil =>
      have hc : c = '\\' := by simpa using h
      subst hc
      decide
    | cons r rs =>
      have hc : ¬ c = '\\' := fun hceq => hover r rs hceq rfl
      have h' : (r :: rs).getLast? = some '\\' := by
        simpa only [List.getLast?_cons_cons] using h
      have ih' := ih h'
      obtain ⟨y, ys, hys⟩ := List.exists_cons_of_ne_nil
        (unescapeStr_ne_nil (r :: rs) (by simp))
      have hstep : unescapeStr (c :: r :: rs) = c :: unescapeStr (r :: rs) := by
        simp [unescapeStr, hc]
      rw [hstep, hys, List.getLast?_cons_cons, ← hys]
      exact ih'

/-- Witness for C10 at `"ab\\"`. -/
theorem unescape_trailing_backslash_witness :
    (['a','b','\\'] : List Char).getLast? = some '\\'
    ∧ (unescapeStr ['a','b','\\']).getLast? = some '\\' :=
  ⟨by decide, unescape_trailing_backslash ['a','b','\\'] (by decide)⟩

/-! ## Claim C9: empty callee position in an application form -/

/-- **C9.** When the callee position of an application form parses to zero
nodes (the next token is already `poopy`) and the argument sequence parses
followed by `qooq`, the application parser succeeds, producing
`Apply(Token "",_args)` — a synthetic token with the empty-string name
(`join` / `unwords` of an empty list). -/
theorem parsePooping_empty_callee (ts rest rem : List Str) (argNodes : List Node)
    (h1 : parseExprs ts = .ok ([], poopyT :: rest))
    (h2 : parseExprs rest = .ok (argNodes, qooqT :: rem)) :
    parsePooping ts = .ok (.apply (.token []) argNodes, rem) := by
  unfold parseExprs at h1 h2
  rcases haux : parseExprsAux ts with e | ⟨ns, r, hr⟩
  · rw [haux] at h1
    simp [Except.map] at h1
  · rw [haux] at h1
    simp only [Except.map, Except.ok.injEq, Prod.mk.injEq] at h1
    obtain ⟨hns, hrv⟩ := h1
    subst hns
    rcases haux2 : parseExprsAux rest with e2 | ⟨ns2, r2, hr2⟩
    · rw [haux2] at h2
      simp [Except.map] at h2
    · rw [haux2] at h2
      simp only [Except.map, Except.ok.injEq, Prod.mk.injEq] at h2
      obtain ⟨hns2, hrv2⟩ := h2
      subst hns2
      subst hrv
      subst hrv2
      simp [parsePooping, parsePoopingAux, haux, haux2, Except.map,
        nodesToCodeString]

/-- Witness for C9: `pooping poopy X qooq` (callee tokens after `pooping`
are `poopy X qooq`). -/
theorem parsePooping_empty_callee_witness :
    parsePooping [poopyT, ['X'], qooqT]
      = .ok (.apply (.token []) [.token ['X']], []) :=
  parsePooping_empty_callee [poopyT, ['X'], qooqT] [['X'], qooqT] [] [.token ['X']]
    (by simp +decide [parseExprs, parseExprsAux, Except.map, qooqT, poopyT])
    (by simp +decide [parseExprs, parseExprsAux, Except.map, qooqT, poopyT, poopT,
      poopingT, isLiteral, reservedWords])

/-! ## Claim C1: macro used as callee with a multi-node body -/

/-- **C1, counterexample.** With `M` bound to the two-node body `a b`, one
step on `Apply(Token M, [x])` does *not* abort with a fatal reduction error:
the callee is expanded on the callee-reduction path, the non-singleton
result collapses to the synthetic token `ERROR`, and the step reports
changed — reduction continues. -/
theorem macro_callee_multinode_counterexample :
    reduceFirst 2 true [(['M'], [Node.token ['a'], Node.token ['b']])] []
      [Node.apply (.token ['M']) [Node.token ['x']]]
    = ([], .ok [(['M'], [Node.token ['a'], Node.token ['b']])] []
        [Node.apply (.token errorT) [Node.token ['x']]] true) := by
  decide

/-- **C1, amended.** When the head is `Apply(Token m, args)` with `m` bound
in the macro table to a body that is not exactly one node, the step does not
fail: the macro expands in callee position, the callee becomes the synthetic
token `ERROR`, and the step reports changed with no output and no error. -/
theorem macro_callee_multinode (fuel : Nat) (lazy : Bool) (env : Env)
    (stdin : List Str) (m : Str) (body args rest : List Node)
    (hm : m ≠ inputT) (hget : envGet env m = some body)
    (hlen : body.length ≠ 1) :
    reduceFirst (fuel + 2) lazy env stdin (Node.apply (.token m) args :: rest)
      = ([], .ok env stdin (Node.apply (.token errorT) args :: rest) true) := by
  rcases body with - | ⟨b, - | ⟨b2, bs⟩⟩
  · rw [show fuel + 2 = (fuel + 1) + 1 from rfl]
    simp [reduceFirst, hm, hget]
  · simp at hlen
  · rw [show fuel + 2 = (fuel + 1) + 1 from rfl]
    simp [reduceFirst, hm, hget]

/-- Witness for the amended C1 at a concrete macro table. -/
theorem macro_callee_multinode_witness :
    reduceFirst 3 true [(['N'], [Node.token ['c'], Node.token ['d']])] []
      (Node.apply (.token ['N']) [Node.token ['y']] :: [Node.token ['z']])
    = ([], .ok [(['N'], [Node.token ['c'], Node.token ['d']])] []
        (Node.apply (.token errorT) [Node.token ['y']] :: [Node.token ['z']]) true) :=
  macro_callee_multinode 1 true [(['N'], [Node.token ['c'], Node.token ['d']])]
    [] ['N'] [Node.token ['c'], Node.token ['d']] [Node.token ['y']]
    [Node.token ['z']] (by decide) (by decide) (by decide)

/-! ## Claim C3: the Print built-in -/

/-- **C3, amended (positive part).** When `Print` is not itself a macro-table
key and the head is `Apply(Token Print, args)` with every argument printable
(a literal, or a token that is neither `Input` nor a macro name), one step
emits exactly the output rendering of `args` once and replaces the whole
application by `args`, reporting changed. -/
theorem print_step_printable (fuel : Nat) (lazy : Bool) (env : Env)
    (stdin : List Str) (args rest : List Node)
    (hp : envHas env printT = false)
    (hargs : args.all (isPrintable env) = true) :
    reduceFirst (fuel + 2) lazy env stdin (Node.apply (.token printT) args :: rest)
      = ([nodesToOutputString args], .ok env stdin (args ++ rest) true) := by
  have hget := envGet_eq_none env printT hp
  have hpi : ¬ printT = inputT := by decide
  have hargs' : ∀ x ∈ args, isPrintable env x = true := by
    simpa [List.all_eq_true] using hargs
  rw [show fuel + 2 = (fuel + 1) + 1 from rfl]
  simp [reduceFirst, hget, hpi, hargs']
  intro x hx hfalse
  exact absurd (hargs' x hx) (by simp [hfalse])

/-- **C3, counterexample (negative part of the claim).** With an empty macro
table, one step on `Apply(Token Print, [Apply(Token Print, [PoHiop])])` —
whose argument is *not* printable — still emits `Hi`: the step reduces the
arguments, and the nested `Print` fires.  The claim's "no output is emitted
on that step" is false. -/
theorem print_step_unprintable_counterexample :
    reduceFirst 4 true [] []
      [Node.apply (.token printT) [Node.apply (.token printT) [Node.literal ['P','o','H','i','o','p']]]]
    = ([['H','i']],
        .ok [] [] [Node.apply (.token printT) [Node.literal ['P','o','H','i','o','p']]] true) := by
  decide

/-- Witness for the amended C3 at concrete printable arguments. -/
theorem print_step_printable_witness :
    reduceFirst 2 true [] []
      (Node.apply (.token printT) [Node.literal ['P','o','H','i','o','p'], Node.token ['w']] :: [])
    = ([nodesToOutputString [Node.literal ['P','o','H','i','o','p'], Node.token ['w']]],
        .ok [] [] ([Node.literal ['P','o','H','i','o','p'], Node.token ['w']] ++ []) true) :=
  print_step_printable 0 true [] []
    [Node.literal ['P','o','H','i','o','p'], Node.token ['w']] []
    (by decide) (by decide)

/-! ## Claim C4: lazy application -/

/-- If the parameter does not occur free, substitution is the identity. -/
theorem substitute_no_free (p : Str) (args : List Node) :
    (∀ n, freeOccursN p n = false → substituteN p args n = [n])
    ∧ (∀ ns, freeOccurs p ns = false → substitute p args ns = ns) := by
  refine node_mutual_induction _ _ ?_ ?_ ?_ ?_ ?_ ?_ ?_
  · intro s h
    simp only [freeOccursN, decide_eq_false_iff_not] at h
    simp [substituteN, h]
  · intro s _
    rfl
  · intro q b ih h
    by_cases hq : q = p
    · simp [substituteN, hq]
    · simp only [freeOccursN, if_neg hq] at h
      simp [substituteN, hq, ih h]
  · intro nm b ih h
    simp only [freeOccursN] at h
    simp [substituteN, ih h]
  · intro f a ihf iha h
    simp only [freeOccursN, Bool.or_eq_false_iff] at h
    simp [substituteN, ihf h.1, iha h.2]
  · intro _
    rfl
  · intro n ns ihn ihns h
    simp only [freeOccurs, Bool.or_eq_false_iff] at h
    simp [substitute, ihn h.1, ihns h.2]

/-- **C4.** Under the lazy strategy, a step on `Apply(Func(p, body), args)`
whose callee does not itself reduce (no macro expands inside `body`)
substitutes `args` into `body` immediately — no reduction of `args` happens
first and no output is emitted; when `body` has no free occurrence of
`Token p`, the application reduces to `body` itself, so the result does not
depend on `args` at all (`args` is never evaluated, even if reducing it
would diverge or error). -/
theorem lazy_apply_substitutes_immediately (fuel : Nat) (env : Env)
    (stdin : List Str) (p : Str) (body args rest : List Node)
    (hexp : (expandOnceNodes env body).2 = false) :
    reduceFirst (fuel + 3) true env stdin (Node.apply (.func p body) args :: rest)
      = ([], .ok env stdin (substitute p args body ++ rest) true)
    ∧ (freeOccurs p body = false →
        reduceFirst (fuel + 3) true env stdin (Node.apply (.func p body) args :: rest)
          = ([], .ok env stdin (body ++ rest) true)) := by
  have hmain : reduceFirst (fuel + 3) true env stdin
      (Node.apply (.func p body) args :: rest)
      = ([], .ok env stdin (substitute p args body ++ rest) true) := by
    rw [show fuel + 3 = (fuel + 1) + 1 + 1 from rfl]
    simp [reduceFirst, expandMacrosDeep_unchanged fuel env body hexp]
  refine ⟨hmain, fun hfree => ?_⟩
  rw [hmain, (substitute_no_free p args).2 body hfree]

/-- Witness for C4: a constant function applied to an argument that is a
stuck self-application; the argument is discarded unevaluated. -/
theorem lazy_apply_substitutes_immediately_witness :
    reduceFirst 3 true [] []
      (Node.apply (.func ['x'] [Node.token ['k']])
        [Node.apply (.token ['w']) [Node.token ['w']]] :: [])
      = ([], .ok [] [] (substitute ['x'] [Node.apply (.token ['w']) [Node.token ['w']]]
          [Node.token ['k']] ++ []) true)
    ∧ reduceFirst 3 true [] []
      (Node.apply (.func ['x'] [Node.token ['k']])
        [Node.apply (.token ['w']) [Node.token ['w']]] :: [])
      = ([], .ok [] [] ([Node.token ['k']] ++ []) true) :=
  ⟨(lazy_apply_substitutes_immediately 0 [] [] ['x'] [Node.token ['k']]
      [Node.apply (.token ['w']) [Node.token ['w']]] [] (by decide)).1,
   (lazy_apply_substitutes_immediately 0 [] [] ['x'] [Node.token ['k']]
      [Node.apply (.token ['w']) [Node.token ['w']]] [] (by decide)).2 (by decide)⟩

/-! ## Claim C8: determinism for `Input`-free programs — infrastructure -/

/-- `noInputL` distributes over append. -/
theorem noInputL_append (a b : List Node) :
    noInputL (a ++ b) = (noInputL a && noInputL b) := by
  induction a with
  | nil => simp [noInputL]
  | cons n ns ih => simp [noInputL, ih, Bool.and_assoc]

/-- The head (with default) of an `Input`-free list is `Input`-free. -/
theorem noInputN_headI (l : List Node) (h : noInputL l = true) :
    noInputN l.headI = true := by
  cases l with
  | nil => decide
  | cons n ns =>
    simp only [noInputL, Bool.and_eq_true] at h
    simpa [List.headI] using h.1

/-- Looking up an `Input`-free macro table yields `Input`-free bodies. -/
theorem envGet_noInput (env : Env) (k : Str) (body : List Node)
    (henv : noInputEnv env = true) (h : envGet env k = some body) :
    noInputL body = true := by
  unfold envGet at h
  cases hf : env.find? (fun p => p.1 = k) with
  | none => rw [hf] at h; simp at h
  | some pr =>
    rw [hf] at h
    simp only [Option.map_some', Option.some.injEq] at h
    have hmem := List.mem_of_find?_eq_some hf
    have hall := List.all_eq_true.mp henv pr hmem
    rw [← h]
    simpa using hall

/-- Extending an `Input`-free table with an `Input`-free body stays
`Input`-free. -/
theorem noInputEnv_envSet (env : Env) (k : Str) (v : List Node)
    (henv : noInputEnv env = true) (hv : noInputL v = true) :
    noInputEnv (envSet env k v) = true := by
  simp [noInputEnv, envSet, List.all_cons, hv]
  intro a b hab
  exact List.all_eq_true.mp henv (a, b) hab

/-- Substitution of `Input`-free arguments into an `Input`-free body is
`Input`-free. -/
theorem substitute_noInput (p : Str) (args : List Node)
    (hargs : noInputL args = true) :
    (∀ n, noInputN n = true → noInputL (substituteN p args n) = true)
    ∧ (∀ ns, noInputL ns = true → noInputL (substitute p args ns) = true) := by
  refine node_mutual_induction _ _ ?_ ?_ ?_ ?_ ?_ ?_ ?_
  · intro s h
    by_cases hs : s = p
    · simpa [substituteN, hs] using hargs
    · simpa [substituteN, hs, noInputL] using h
  · intro s _
    simp [substituteN, noInputL, noInputN]
  · intro q b ih h
    simp only [noInputN] at h
    by_cases hq : q = p
    · simpa [substituteN, hq, noInputL, noInputN] using h
    · simpa [substituteN, hq, noInputL, noInputN] using ih h
  · intro nm b ih h
    simp only [noInputN] at h
    simpa [substituteN, noInputL, noInputN] using ih h
  · intro f a ihf iha h
    simp only [noInputN, Bool.and_eq_true] at h
    have h1 := noInputN_headI _ (ihf h.1)
    simp [substituteN, noInputL, noInputN, h1, iha h.2]
  · intro _
    rfl
  · intro n ns ihn ihns h
    simp only [noInputL, Bool.and_eq_true] at h
    simp [substitute, noInputL_append, ihn h.1, ihns h.2]

/-- The code rendering of a sequence of at least two nodes contains a space,
so the synthetic collapse token is never the bare name `Input`. -/
theorem codeStr_two_ne_input (x y : Node) (zs : List Node) :
    ¬ nodesToCodeString (x :: y :: zs) = inputT := by
  intro heq
  have hsp : ' ' ∈ nodesToCodeString (x :: y :: zs) := by
    rw [show nodesToCodeString (x :: y :: zs)
        = toCodeString x ++ ' ' :: nodesToCodeString (y :: zs) from rfl]
    simp
  rw [heq] at hsp
  simp [inputT] at hsp

/-- One macro-expansion pass of an `Input`-free sequence over an `Input`-free
table is `Input`-free. -/
theorem expandOnce_noInput (env : Env) (henv : noInputEnv env = true) :
    (∀ n, noInputN n = true → noInputL (expandOnceN env n).1 = true)
    ∧ (∀ ns, noInputL ns = true → noInputL (expandOnceNodes env ns).1 = true) := by
  refine node_mutual_induction _ _ ?_ ?_ ?_ ?_ ?_ ?_ ?_
  · intro s h
    cases hg : envGet env s with
    | none => simpa [expandOnceN, hg, noInputL] using h
    | some body => simpa [expandOnceN, hg] using envGet_noInput env s body henv hg
  · intro s _
    simp [expandOnceN, noInputL, noInputN]
  · intro p b ih h
    simp only [noInputN] at h
    simpa [expandOnceN, noInputL, noInputN] using ih h
  · intro nm b ih h
    simp only [noInputN] at h
    simpa [expandOnceN, noInputL, noInputN] using ih h
  · intro f a ihf iha h
    simp only [noInputN, Bool.and_eq_true] at h
    have h1 := ihf h.1
    have h2 := iha h.2
    simp only [expandOnceN, noInputL, noInputN, Bool.and_eq_true]
    refine ⟨⟨?_, h2⟩, trivial⟩
    cases hfr : (expandOnceN env f).1 with
    | nil => decide
    | cons n0 ns0 =>
      cases ns0 with
      | nil =>
        rw [hfr] at h1
        simpa [noInputL] using (by simpa [noInputL] using h1 : noInputN n0 = true)
      | cons n1 ns1 =>
        simpa [noInputN] using codeStr_two_ne_input n0 n1 ns1
  · intro _
    rfl
  · intro n ns ihn ihns h
    simp only [noInputL, Bool.and_eq_true] at h
    simp [expandOnceNodes, noInputL_append, ihn h.1, ihns h.2]

/-- Deep macro expansion preserves `Input`-freeness. -/
theorem expandMacrosDeep_noInput (fuel : Nat) (env : Env)
    (henv : noInputEnv env = true) :
    ∀ ns r ch, noInputL ns = true → expandMacrosDeep fuel env ns = some (r, ch) →
      noInputL r = true := by
  induction fuel with
  | zero =>
    intro ns r ch _ he
    simp [expandMacrosDeep] at he
  | succ fuel ih =>
    intro ns r ch h he
    simp only [expandMacrosDeep] at he
    cases hc : (expandOnceNodes env ns).2 with
    | false =>
      rw [hc] at he
      simp only [Bool.false_eq_true, if_false, Option.some.injEq, Prod.mk.injEq] at he
      rw [← he.1, (expandOnce_unchanged env).2 ns hc]
      exact h
    | true =>
      rw [hc] at he
      simp only [if_true] at he
      cases hd : expandMacrosDeep fuel env (expandOnceNodes env ns).1 with
      | none => rw [hd] at he; simp at he
      | some pr =>
        rw [hd] at he
        simp only [Option.some.injEq, Prod.mk.injEq] at he
        have hexp := (expandOnce_noInput env henv).2 ns h
        have := ih (expandOnceNodes env ns).1 pr.1 pr.2 hexp (by rw [hd])
        rw [← he.1]
        exact this

/-- Main invariant for C8: on an `Input`-free state, one step (i) never
consults or consumes the input stream — the result is the result of the same
step run with an empty stream, with the untouched stream put back — and
(ii) preserves `Input`-freeness of the node sequence and macro table. -/
theorem reduceFirst_noInput (fuel : Nat) : ∀ (lazy : Bool) (env : Env)
    (stdin : List Str) (nodes : List Node),
    noInputEnv env = true → noInputL nodes = true →
    reduceFirst fuel lazy env stdin nodes
      = patchStdin stdin (reduceFirst fuel lazy env [] nodes)
    ∧ (∀ o e s ns c, reduceFirst fuel lazy env stdin nodes = (o, .ok e s ns c) →
        noInputEnv e = true ∧ noInputL ns = true ∧ s = stdin) := by
  induction fuel with
  | zero =>
    intro lazy env stdin nodes henv hns
    cases nodes with
    | nil =>
      constructor
      · simp [reduceFirst, patchStdin]
      · intro o e s ns c hres
        simp only [reduceFirst, Prod.mk.injEq, StepTail.ok.injEq] at hres
        obtain ⟨-, he, hs, hn, -⟩ := hres
        subst he; subst hs; subst hn
        exact ⟨henv, rfl, rfl⟩
    | cons n rest =>
      constructor
      · simp [reduceFirst, patchStdin]
      · intro o e s ns c hres
        simp [reduceFirst] at hres
  | succ fuel ih =>
    intro lazy env stdin nodes henv hns
    cases nodes with
    | nil =>
      constructor
      · simp [reduceFirst, patchStdin]
      · intro o e s ns c hres
        simp only [reduceFirst, Prod.mk.injEq, StepTail.ok.injEq] at hres
        obtain ⟨-, he, hs, hn, -⟩ := hres
        subst he; subst hs; subst hn
        exact ⟨henv, rfl, rfl⟩
    | cons n rest =>
      have hns2 : noInputN n = true ∧ noInputL rest = true := by
        simpa [noInputL] using hns
      obtain ⟨hn1, hrest⟩ := hns2
      cases n with
      | token t =>
        have ht : ¬ (t = inputT) := by simpa [noInputN] using hn1
        cases hg : envGet env t with
        | some body =>
          have key : ∀ σ : List Str,
              reduceFirst (fuel+1) lazy env σ (Node.token t :: rest)
                = ([], .ok env σ (body ++ rest) true) := by
            intro σ
            simp [reduceFirst, ht, hg]
          constructor
          · rw [key stdin, key []]
            rfl
          · intro o e s ns c hres
            rw [key stdin] at hres
            simp only [Prod.mk.injEq, StepTail.ok.injEq] at hres
            obtain ⟨-, he, hs, hn, -⟩ := hres
            subst he; subst hs; subst hn
            refine ⟨henv, ?_, rfl⟩
            rw [noInputL_append]
            simp [envGet_noInput env t body henv hg, hrest]
        | none =>
          obtain ⟨ihA, ihB⟩ := ih lazy env stdin rest henv hrest
          rcases hbase : reduceFirst fuel lazy env [] rest with ⟨o2, t2⟩
          have hS : reduceFirst fuel lazy env stdin rest = patchStdin stdin (o2, t2) := by
            rw [ihA, hbase]
          cases t2 with
          | ok e2 s2 r2 c2 =>
            have hS' : reduceFirst fuel lazy env stdin rest = (o2, .ok e2 stdin r2 c2) := by
              rw [hS]; rfl
            obtain ⟨hB2e, hB2n, -⟩ := ihB o2 e2 stdin r2 c2 hS'
            have key : reduceFirst (fuel+1) lazy env stdin (Node.token t :: rest)
                = (o2, .ok e2 stdin (Node.token t :: r2) c2) := by
              simp [reduceFirst, ht, hg, hS']
            have key0 : reduceFirst (fuel+1) lazy env [] (Node.token t :: rest)
                = (o2, .ok e2 s2 (Node.token t :: r2) c2) := by
              simp [reduceFirst, ht, hg, hbase]
            constructor
            · rw [key, key0]; rfl
            · intro o e s ns c hres
              rw [key] at hres
              simp only [Prod.mk.injEq, StepTail.ok.injEq] at hres
              obtain ⟨-, he, hs, hn, -⟩ := hres
              subst he; subst hs; subst hn
              exact ⟨hB2e, by simp [noInputL, hn1, hB2n], rfl⟩
          | fatal m =>
            have hS' : reduceFirst fuel lazy env stdin rest = (o2, .fatal m) := by
              rw [hS]; rfl
            have key : reduceFirst (fuel+1) lazy env stdin (Node.token t :: rest)
                = (o2, .fatal m) := by
              simp [reduceFirst, ht, hg, hS']
            have key0 : reduceFirst (fuel+1) lazy env [] (Node.token t :: rest)
                = (o2, .fatal m) := by
              simp [reduceFirst, ht, hg, hbase]
            constructor
            · rw [key, key0]; rfl
            · intro o e s ns c hres
              rw [key] at hres
              simp at hres
          | needInput =>
            have hS' : reduceFirst fuel lazy env stdin rest = (o2, .needInput) := by
              rw [hS]; rfl
            have key : reduceFirst (fuel+1) lazy env stdin (Node.token t :: rest)
                = (o2, .needInput) := by
              simp [reduceFirst, ht, hg, hS']
            have key0 : reduceFirst (fuel+1) lazy env [] (Node.token t :: rest)
                = (o2, .needInput) := by
              simp [reduceFirst, ht, hg, hbase]
            constructor
            · rw [key, key0]; rfl
            · intro o e s ns c hres
              rw [key] at hres
              simp at hres
          | fuelOut =>
            have hS' : reduceFirst fuel lazy env stdin rest = (o2, .fuelOut) := by
              rw [hS]; rfl
            have key : reduceFirst (fuel+1) lazy env stdin (Node.token t :: rest)
                = (o2, .fuelOut) := by
              simp [reduceFirst, ht, hg, hS']
            have key0 : reduceFirst (fuel+1) lazy env [] (Node.token t :: rest)
                = (o2, .fuelOut) := by
              simp [reduceFirst, ht, hg, hbase]
            constructor
            · rw [key, key0]; rfl
            · intro o e s ns c hres
              rw [key] at hres
              simp at hres
      | macroDef name body =>
        cases hh : envHas env name with
        | true =>
          have key : ∀ σ : List Str,
              reduceFirst (fuel+1) lazy env σ (Node.macroDef name body :: rest)
                = ([], .fatal ("Macro redefinition error: " ++ String.mk name)) := by
            intro σ
            simp [reduceFirst, hh]
          constructor
          · rw [key stdin, key []]; rfl
          · intro o e s ns c hres
            rw [key stdin] at hres
            simp at hres
        | false =>
          have key : ∀ σ : List Str,
              reduceFirst (fuel+1) lazy env σ (Node.macroDef name body :: rest)
                = ([], .ok (envSet env name body) σ rest true) := by
            intro σ
            simp [reduceFirst, hh]
          constructor
          · rw [key stdin, key []]; rfl
          · intro o e s ns c hres
            rw [key stdin] at hres
            simp only [Prod.mk.injEq, StepTail.ok.injEq] at hres
            obtain ⟨-, he, hs, hn, -⟩ := hres
            subst he; subst hs; subst hn
            exact ⟨noInputEnv_envSet env name body henv (by simpa [noInputN] using hn1),
              hrest, rfl⟩
      | literal l =>
        obtain ⟨ihA, ihB⟩ := ih lazy env stdin rest henv hrest
        rcases hbase : reduceFirst fuel lazy env [] rest with ⟨o2, t2⟩
        have hS : reduceFirst fuel lazy env stdin rest = patchStdin stdin (o2, t2) := by
          rw [ihA, hbase]
        cases t2 with
        | ok e2 s2 r2 c2 =>
          have hS' : reduceFirst fuel lazy env stdin rest = (o2, .ok e2 stdin r2 c2) := by
            rw [hS]; rfl
          obtain ⟨hB2e, hB2n, -⟩ := ihB o2 e2 stdin r2 c2 hS'
          have key : reduceFirst (fuel+1) lazy env stdin (Node.literal l :: rest)
              = (o2, .ok e2 stdin (Node.literal l :: r2) c2) := by
            simp [reduceFirst, hS']
          have key0 : reduceFirst (fuel+1) lazy env [] (Node.literal l :: rest)
              = (o2, .ok e2 s2 (Node.literal l :: r2) c2) := by
            simp [reduceFirst, hbase]
          constructor
          · rw [key, key0]; rfl
          · intro o e s ns c hres
            rw [key] at hres
            simp only [Prod.mk.injEq, StepTail.ok.injEq] at hres
            obtain ⟨-, he, hs, hn, -⟩ := hres
            subst he; subst hs; subst hn
            exact ⟨hB2e, by simp [noInputL, noInputN, hB2n], rfl⟩
        | fatal m =>
          have hS' : reduceFirst fuel lazy env stdin rest = (o2, .fatal m) := by
            rw [hS]; rfl
          have key : reduceFirst (fuel+1) lazy env stdin (Node.literal l :: rest)
              = (o2, .fatal m) := by
            simp [reduceFirst, hS']
          have key0 : reduceFirst (fuel+1) lazy env [] (Node.literal l :: rest)
              = (o2, .fatal m) := by
            simp [reduceFirst, hbase]
          constructor
          · rw [key, key0]; rfl
          · intro o e s ns c hres
            rw [key] at hres
            simp at hres
        | needInput =>
          have hS' : reduceFirst fuel lazy env stdin rest = (o2, .needInput) := by
            rw [hS]; rfl
          have key : reduceFirst (fuel+1) lazy env stdin (Node.literal l :: rest)
              = (o2, .needInput) := by
            simp [reduceFirst, hS']
          have key0 : reduceFirst (fuel+1) lazy env [] (Node.literal l :: rest)
              = (o2, .needInput) := by
            simp [reduceFirst, hbase]
          constructor
          · rw [key, key0]; rfl
          · intro o e s ns c hres
            rw [key] at hres
            simp at hres
        | fuelOut =>
          have hS' : reduceFirst fuel lazy env stdin rest = (o2, .fuelOut) := by
            rw [hS]; rfl
          have key : reduceFirst (fuel+1) lazy env stdin (Node.literal l :: rest)
              = (o2, .fuelOut) := by
            simp [reduceFirst, hS']
          have key0 : reduceFirst (fuel+1) lazy env [] (Node.literal l :: rest)
              = (o2, .fuelOut) := by
            simp [reduceFirst, hbase]
          constructor
          · rw [key, key0]; rfl
          · intro o e s ns c hres
            rw [key] at hres
            simp at hres
      | func p body =>
        have hbody : noInputL body = true := by simpa [noInputN] using hn1
        cases hd : expandMacrosDeep fuel env body with
        | none =>
          have key : ∀ σ : List Str,
              reduceFirst (fuel+1) lazy env σ (Node.func p body :: rest)
                = ([], .fuelOut) := by
            intro σ
            simp [reduceFirst, hd]
          constructor
          · rw [key stdin, key []]; rfl
          · intro o e s ns c hres
            rw [key stdin] at hres
            simp at hres
        | some pr =>
          rcases pr with ⟨newBody, ch⟩
          cases ch with
          | true =>
            have key : ∀ σ : List Str,
                reduceFirst (fuel+1) lazy env σ (Node.func p body :: rest)
                  = ([], .ok env σ (Node.func p newBody :: rest) true) := by
              intro σ
              simp [reduceFirst, hd]
            constructor
            · rw [key stdin, key []]; rfl
            · intro o e s ns c hres
              rw [key stdin] at hres
              simp only [Prod.mk.injEq, StepTail.ok.injEq] at hres
              obtain ⟨-, he, hs, hn, -⟩ := hres
              subst he; subst hs; subst hn
              have hnb := expandMacrosDeep_noInput fuel env henv body newBody true hbody hd
              exact ⟨henv, by simp [noInputL, noInputN, hnb, hrest], rfl⟩
          | false =>
            obtain ⟨ihA, ihB⟩ := ih lazy env stdin rest henv hrest
            rcases hbase : reduceFirst fuel lazy env [] rest with ⟨o2, t2⟩
            have hS : reduceFirst fuel lazy env stdin rest = patchStdin stdin (o2, t2) := by
              rw [ihA, hbase]
            cases t2 with
            | ok e2 s2 r2 c2 =>
              have hS' : reduceFirst fuel lazy env stdin rest = (o2, .ok e2 stdin r2 c2) := by
                rw [hS]; rfl
              obtain ⟨hB2e, hB2n, -⟩ := ihB o2 e2 stdin r2 c2 hS'
              have key : reduceFirst (fuel+1) lazy env stdin (Node.func p body :: rest)
                  = (o2, .ok e2 stdin (Node.func p body :: r2) c2) := by
                simp [reduceFirst, hd, hS']
              have key0 : reduceFirst (fuel+1) lazy env [] (Node.func p body :: rest)
                  = (o2, .ok e2 s2 (Node.func p body :: r2) c2) := by
                simp [reduceFirst, hd, hbase]
              constructor
              · rw [key, key0]; rfl
              · intro o e s ns c hres
                rw [key] at hres
                simp only [Prod.mk.injEq, StepTail.ok.injEq] at hres
                obtain ⟨-, he, hs, hn, -⟩ := hres
                subst he; subst hs; subst hn
                exact ⟨hB2e, by simp [noInputL, noInputN, hbody, hB2n], rfl⟩
            | fatal m =>
              have hS' : reduceFirst fuel lazy env stdin rest = (o2, .fatal m) := by
                rw [hS]; rfl
              have key : reduceFirst (fuel+1) lazy env stdin (Node.func p body :: rest)
                  = (o2, .fatal m) := by
                simp [reduceFirst, hd, hS']
              have key0 : reduceFirst (fuel+1) lazy env [] (Node.func p body :: rest)
                  = (o2, .fatal m) := by
                simp [reduceFirst, hd, hbase]
              constructor
              · rw [key, key0]; rfl
              · intro o e s ns c hres
                rw [key] at hres
                simp at hres
            | needInput =>
              have hS' : reduceFirst fuel lazy env stdin rest = (o2, .needInput) := by
                rw [hS]; rfl
              have key : reduceFirst (fuel+1) lazy env stdin (Node.func p body :: rest)
                  = (o2, .needInput) := by
                simp [reduceFirst, hd, hS']
              have key0 : reduceFirst (fuel+1) lazy env [] (Node.func p body :: rest)
                  = (o2, .needInput) := by
                simp [reduceFirst, hd, hbase]
              constructor
              · rw [key, key0]; rfl
              · intro o e s ns c hres
                rw [key] at hres
                simp at hres
            | fuelOut =>
              have hS' : reduceFirst fuel lazy env stdin rest = (o2, .fuelOut) := by
                rw [hS]; rfl
              have key : reduceFirst (fuel+1) lazy env stdin (Node.func p body :: rest)
                  = (o2, .fuelOut) := by
                simp [reduceFirst, hd, hS']
              have key0 : reduceFirst (fuel+1) lazy env [] (Node.func p body :: rest)
                  = (o2, .fuelOut) := by
                simp [reduceFirst, hd, hbase]
              constructor
              · rw [key, key0]; rfl
              · intro o e s ns c hres
                rw [key] at hres
                simp at hres
      | apply f a =>
        have hfa : noInputN f = true ∧ noInputL a = true := by
          simpa [noInputN] using hn1
        have hf1 : noInputL [f] = true := by simp [noInputL, hfa.1]
        obtain ⟨ihA1, ihB1⟩ := ih lazy env stdin [f] henv hf1
        obtain ⟨-, ihB1z⟩ := ih lazy env [] [f] henv hf1
        rcases hbase1 : reduceFirst fuel lazy env [] [f] with ⟨o1, t1⟩
        have hS1 : reduceFirst fuel lazy env stdin [f] = patchStdin stdin (o1, t1) := by
          rw [ihA1, hbase1]
        cases t1 with
        | fatal m =>
          have hS1' : reduceFirst fuel lazy env stdin [f] = (o1, .fatal m) := by
            rw [hS1]; rfl
          have key : reduceFirst (fuel+1) lazy env stdin (Node.apply f a :: rest)
              = (o1, .fatal m) := by
            simp [reduceFirst, hS1']
          have key0 : reduceFirst (fuel+1) lazy env [] (Node.apply f a :: rest)
              = (o1, .fatal m) := by
            simp [reduceFirst, hbase1]
          constructor
          · rw [key, key0]; rfl
          · intro o e s ns c hres
            rw [key] at hres
            simp at hres
        | needInput =>
          have hS1' : reduceFirst fuel lazy env stdin [f] = (o1, .needInput) := by
            rw [hS1]; rfl
          have key : reduceFirst (fuel+1) lazy env stdin (Node.apply f a :: rest)
              = (o1, .needInput) := by
            simp [reduceFirst, hS1']
          have key0 : reduceFirst (fuel+1) lazy env [] (Node.apply f a :: rest)
              = (o1, .needInput) := by
            simp [reduceFirst, hbase1]
          constructor
          · rw [key, key0]; rfl
          · intro o e s ns c hres
            rw [key] at hres
            simp at hres
        | fuelOut =>
          have hS1' : reduceFirst fuel lazy env stdin [f] = (o1, .fuelOut) := by
            rw [hS1]; rfl
          have key : reduceFirst (fuel+1) lazy env stdin (Node.apply f a :: rest)
              = (o1, .fuelOut) := by
            simp [reduceFirst, hS1']
          have key0 : reduceFirst (fuel+1) lazy env [] (Node.apply f a :: rest)
              = (o1, .fuelOut) := by
            simp [reduceFirst, hbase1]
          constructor
          · rw [key, key0]; rfl
          · intro o e s ns c hres
            rw [key] at hres
            simp at hres
        | ok e1 s1 nf c1 =>
          have hS1' : reduceFirst fuel lazy env stdin [f] = (o1, .ok e1 stdin nf c1) := by
            rw [hS1]; rfl
          obtain ⟨hB1e, hB1n, -⟩ := ihB1 o1 e1 stdin nf c1 hS1'
          obtain ⟨-, -, hs1z⟩ := ihB1z o1 e1 s1 nf c1 hbase1
          subst hs1z
          cases c1 with
          | true =>
            rcases nf with - | ⟨x, - | ⟨y, zs⟩⟩
            · have key : ∀ σ (hs : reduceFirst fuel lazy env σ [f] = (o1, .ok e1 σ [] true)),
                  reduceFirst (fuel+1) lazy env σ (Node.apply f a :: rest)
                    = (o1, .ok e1 σ (Node.apply (.token errorT) a :: rest) true) := by
                intro σ hs
                simp [reduceFirst, hs]
              constructor
              · rw [key stdin hS1', key [] hbase1]; rfl
              · intro o e s ns c hres
                rw [key stdin hS1'] at hres
                simp only [Prod.mk.injEq, StepTail.ok.injEq] at hres
                obtain ⟨-, he, hs, hn, -⟩ := hres
                subst he; subst hs; subst hn
                refine ⟨hB1e, ?_, rfl⟩
                simp [noInputL, noInputN, hfa.2, hrest]
                decide
            · have key : ∀ σ (hs : reduceFirst fuel lazy env σ [f] = (o1, .ok e1 σ [x] true)),
                  reduceFirst (fuel+1) lazy env σ (Node.apply f a :: rest)
                    = (o1, .ok e1 σ (Node.apply x a :: rest) true) := by
                intro σ hs
                simp [reduceFirst, hs]
              constructor
              · rw [key stdin hS1', key [] hbase1]; rfl
              · intro o e s ns c hres
                rw [key stdin hS1'] at hres
                simp only [Prod.mk.injEq, StepTail.ok.injEq] at hres
                obtain ⟨-, he, hs, hn, -⟩ := hres
                subst he; subst hs; subst hn
                refine ⟨hB1e, ?_, rfl⟩
                have hx : noInputN x = true := by simpa [noInputL] using hB1n
                simp [noInputL, noInputN, hx, hfa.2, hrest]
            · have key : ∀ σ (hs : reduceFirst fuel lazy env σ [f]
                    = (o1, .ok e1 σ (x :: y :: zs) true)),
                  reduceFirst (fuel+1) lazy env σ (Node.apply f a :: rest)
                    = (o1, .ok e1 σ (Node.apply (.token errorT) a :: rest) true) := by
                intro σ hs
                simp [reduceFirst, hs]
              constructor
              · rw [key stdin hS1', key [] hbase1]; rfl
              · intro o e s ns c hres
                rw [key stdin hS1'] at hres
                simp only [Prod.mk.injEq, StepTail.ok.injEq] at hres
                obtain ⟨-, he, hs, hn, -⟩ := hres
                subst he; subst hs; subst hn
                refine ⟨hB1e, ?_, rfl⟩
                simp [noInputL, noInputN, hfa.2, hrest]
                decide
          | false =>
            cases f with
            | func param body =>
              have hbody : noInputL body = true := by simpa [noInputN] using hfa.1
              have hsubok : noInputL (substitute param a body ++ rest) = true := by
                rw [noInputL_append]
                simp [(substitute_noInput param a hfa.2).2 body hbody, hrest]
              cases lazy with
              | true =>
                have key : ∀ σ (hs : reduceFirst fuel true env σ [Node.func param body]
                      = (o1, .ok e1 σ nf false)),
                    reduceFirst (fuel+1) true env σ (Node.apply (.func param body) a :: rest)
                      = (o1, .ok e1 σ (substitute param a body ++ rest) true) := by
                  intro σ hs
                  simp [reduceFirst, hs]
                constructor
                · rw [key stdin hS1', key [] hbase1]; rfl
                · intro o e s ns c hres
                  rw [key stdin hS1'] at hres
                  simp only [Prod.mk.injEq, StepTail.ok.injEq] at hres
                  obtain ⟨-, he, hs, hn, -⟩ := hres
                  subst he; subst hs; subst hn
                  exact ⟨hB1e, hsubok, rfl⟩
              | false =>
                cases hd : expandMacrosDeep fuel e1 body with
                | none =>
                  have key : ∀ σ (hs : reduceFirst fuel false env σ [Node.func param body]
                        = (o1, .ok e1 σ nf false)),
                      reduceFirst (fuel+1) false env σ (Node.apply (.func param body) a :: rest)
                        = (o1, .fuelOut) := by
                    intro σ hs
                    simp [reduceFirst, hs, hd]
                  constructor
                  · rw [key stdin hS1', key [] hbase1]; rfl
                  · intro o e s ns c hres
                    rw [key stdin hS1'] at hres
                    simp at hres
                | some pr =>
                  rcases pr with ⟨eb, ch⟩
                  cases ch with
                  | true =>
                    have key : ∀ σ (hs : reduceFirst fuel false env σ [Node.func param body]
                          = (o1, .ok e1 σ nf false)),
                        reduceFirst (fuel+1) false env σ (Node.apply (.func param body) a :: rest)
                          = (o1, .ok e1 σ
                              (Node.apply (.func param eb) a :: rest) true) := by
                      intro σ hs
                      simp [reduceFirst, hs, hd]
                    constructor
                    · rw [key stdin hS1', key [] hbase1]; rfl
                    · intro o e s ns c hres
                      rw [key stdin hS1'] at hres
                      simp only [Prod.mk.injEq, StepTail.ok.injEq] at hres
                      obtain ⟨-, he, hs, hn, -⟩ := hres
                      subst he; subst hs; subst hn
                      have heb := expandMacrosDeep_noInput fuel e1 hB1e body eb true hbody hd
                      exact ⟨hB1e, by simp [noInputL, noInputN, heb, hfa.2, hrest], rfl⟩
                  | false =>
                    cases hcp : containsPrintL body with
                    | true =>
                      have key : ∀ σ (hs : reduceFirst fuel false env σ [Node.func param body]
                            = (o1, .ok e1 σ nf false)),
                          reduceFirst (fuel+1) false env σ
                              (Node.apply (.func param body) a :: rest)
                            = (o1, .ok e1 σ (substitute param a body ++ rest) true) := by
                        intro σ hs
                        simp [reduceFirst, hs, hd, hcp]
                      constructor
                      · rw [key stdin hS1', key [] hbase1]; rfl
                      · intro o e s ns c hres
                        rw [key stdin hS1'] at hres
                        simp only [Prod.mk.injEq, StepTail.ok.injEq] at hres
                        obtain ⟨-, he, hs, hn, -⟩ := hres
                        subst he; subst hs; subst hn
                        exact ⟨hB1e, hsubok, rfl⟩
                    | false =>
                      obtain ⟨ihA2, ihB2⟩ := ih false e1 stdin a hB1e hfa.2
                      obtain ⟨-, ihB2z⟩ := ih false e1 [] a hB1e hfa.2
                      rcases hbase2 : reduceFirst fuel false e1 [] a with ⟨o2, t2⟩
                      have hS2 : reduceFirst fuel false e1 stdin a
                          = patchStdin stdin (o2, t2) := by
                        rw [ihA2, hbase2]
                      cases t2 with
                      | ok e2 s2 na c2 =>
                        have hS2' : reduceFirst fuel false e1 stdin a
                            = (o2, .ok e2 stdin na c2) := by
                          rw [hS2]; rfl
                        obtain ⟨hB2e, hB2n, -⟩ := ihB2 o2 e2 stdin na c2 hS2'
                        obtain ⟨-, -, hs2z⟩ := ihB2z o2 e2 s2 na c2 hbase2
                        subst hs2z
                        cases c2 with
                        | true =>
                          have key : ∀ σ
                              (hs : reduceFirst fuel false env σ [Node.func param body]
                                = (o1, .ok e1 σ nf false))
                              (hsa : reduceFirst fuel false e1 σ a
                                = (o2, .ok e2 σ na true)),
                              reduceFirst (fuel+1) false env σ
                                  (Node.apply (.func param body) a :: rest)
                                = (o1 ++ o2, .ok e2 σ
                                    (Node.apply (.func param body) na :: rest) true) := by
                            intro σ hs hsa
                            simp [reduceFirst, hs, hd, hcp, hsa]
                          constructor
                          · rw [key stdin hS1' hS2', key [] hbase1 hbase2]; rfl
                          · intro o e s ns c hres
                            rw [key stdin hS1' hS2'] at hres
                            simp only [Prod.mk.injEq, StepTail.ok.injEq] at hres
                            obtain ⟨-, he, hs, hn, -⟩ := hres
                            subst he; subst hs; subst hn
                            exact ⟨hB2e,
                              by simp [noInputL, noInputN, hbody, hB2n, hrest], rfl⟩
                        | false =>
                          have key : ∀ σ
                              (hs : reduceFirst fuel false env σ [Node.func param body]
                                = (o1, .ok e1 σ nf false))
                              (hsa : reduceFirst fuel false e1 σ a
                                = (o2, .ok e2 σ na false)),
                              reduceFirst (fuel+1) false env σ
                                  (Node.apply (.func param body) a :: rest)
                                = (o1 ++ o2, .ok e2 σ
                                    (substitute param a body ++ rest) true) := by
                            intro σ hs hsa
                            simp [reduceFirst, hs, hd, hcp, hsa]
                          constructor
                          · rw [key stdin hS1' hS2', key [] hbase1 hbase2]; rfl
                          · intro o e s ns c hres
                            rw [key stdin hS1' hS2'] at hres
                            simp only [Prod.mk.injEq, StepTail.ok.injEq] at hres
                            obtain ⟨-, he, hs, hn, -⟩ := hres
                            subst he; subst hs; subst hn
                            exact ⟨hB2e, hsubok, rfl⟩
                      | fatal m =>
                        have hS2' : reduceFirst fuel false e1 stdin a = (o2, .fatal m) := by
                          rw [hS2]; rfl
                        have key : ∀ σ
                            (hs : reduceFirst fuel false env σ [Node.func param body]
                              = (o1, .ok e1 σ nf false))
                            (hsa : reduceFirst fuel false e1 σ a = (o2, .fatal m)),
                            reduceFirst (fuel+1) false env σ
                                (Node.apply (.func param body) a :: rest)
                              = (o1 ++ o2, .fatal m) := by
                          intro σ hs hsa
                          simp [reduceFirst, hs, hd, hcp, hsa]
                        constructor
                        · rw [key stdin hS1' hS2', key [] hbase1 hbase2]; rfl
                        · intro o e s ns c hres
                          rw [key stdin hS1' hS2'] at hres
                          simp at hres
                      | needInput =>
                        have hS2' : reduceFirst fuel false e1 stdin a = (o2, .needInput) := by
                          rw [hS2]; rfl
                        have key : ∀ σ
                            (hs : reduceFirst fuel false env σ [Node.func param body]
                              = (o1, .ok e1 σ nf false))
                            (hsa : reduceFirst fuel false e1 σ a = (o2, .needInput)),
                            reduceFirst (fuel+1) false env σ
                                (Node.apply (.func param body) a :: rest)
                              = (o1 ++ o2, .needInput) := by
                          intro σ hs hsa
                          simp [reduceFirst, hs, hd, hcp, hsa]
                        constructor
                        · rw [key stdin hS1' hS2', key [] hbase1 hbase2]; rfl
                        · intro o e s ns c hres
                          rw [key stdin hS1' hS2'] at hres
                          simp at hres
                      | fuelOut =>
                        have hS2' : reduceFirst fuel false e1 stdin a = (o2, .fuelOut) := by
                          rw [hS2]; rfl
                        have key : ∀ σ
                            (hs : reduceFirst fuel false env σ [Node.func param body]
                              = (o1, .ok e1 σ nf false))
                            (hsa : reduceFirst fuel false e1 σ a = (o2, .fuelOut)),
                            reduceFirst (fuel+1) false env σ
                                (Node.apply (.func param body) a :: rest)
                              = (o1 ++ o2, .fuelOut) := by
                          intro σ hs hsa
                          simp [reduceFirst, hs, hd, hcp, hsa]
                        constructor
                        · rw [key stdin hS1' hS2', key [] hbase1 hbase2]; rfl
                        · intro o e s ns c hres
                          rw [key stdin hS1' hS2'] at hres
                          simp at hres
            | token t' =>
              by_cases hpt : t' = printT
              · subst hpt
                cases hall : a.all (isPrintable e1) with
                | true =>
                  have key : ∀ σ (hs : reduceFirst fuel lazy env σ [Node.token printT]
                        = (o1, .ok e1 σ nf false)),
                      reduceFirst (fuel+1) lazy env σ (Node.apply (.token printT) a :: rest)
                        = (o1 ++ [nodesToOutputString a], .ok e1 σ (a ++ rest) true) := by
                    intro σ hs
                    simp [reduceFirst, hs, hall]
                  constructor
                  · rw [key stdin hS1', key [] hbase1]; rfl
                  · intro o e s ns c hres
                    rw [key stdin hS1'] at hres
                    simp only [Prod.mk.injEq, StepTail.ok.injEq] at hres
                    obtain ⟨-, he, hs, hn, -⟩ := hres
                    subst he; subst hs; subst hn
                    exact ⟨hB1e, by simp [noInputL_append, hfa.2, hrest], rfl⟩
                | false =>
                  obtain ⟨ihA2, ihB2⟩ := ih lazy e1 stdin a hB1e hfa.2
                  obtain ⟨-, ihB2z⟩ := ih lazy e1 [] a hB1e hfa.2
                  rcases hbase2 : reduceFirst fuel lazy e1 [] a with ⟨o2, t2⟩
                  have hS2 : reduceFirst fuel lazy e1 stdin a
                      = patchStdin stdin (o2, t2) := by
                    rw [ihA2, hbase2]
                  cases t2 with
                  | ok e2 s2 na c2 =>
                    have hS2' : reduceFirst fuel lazy e1 stdin a
                        = (o2, .ok e2 stdin na c2) := by
                      rw [hS2]; rfl
                    obtain ⟨hB2e, hB2n, -⟩ := ihB2 o2 e2 stdin na c2 hS2'
                    obtain ⟨-, -, hs2z⟩ := ihB2z o2 e2 s2 na c2 hbase2
                    subst hs2z
                    cases c2 with
                    | true =>
                      have key : ∀ σ
                          (hs : reduceFirst fuel lazy env σ [Node.token printT]
                            = (o1, .ok e1 σ nf false))
                          (hsa : reduceFirst fuel lazy e1 σ a = (o2, .ok e2 σ na true)),
                          reduceFirst (fuel+1) lazy env σ
                              (Node.apply (.token printT) a :: rest)
                            = (o1 ++ o2, .ok e2 σ
                                (Node.apply (.token printT) na :: rest) true) := by
                        intro σ hs hsa
                        simp [reduceFirst, hs, hall, hsa]
                      constructor
                      · rw [key stdin hS1' hS2', key [] hbase1 hbase2]; rfl
                      · intro o e s ns c hres
                        rw [key stdin hS1' hS2'] at hres
                        simp only [Prod.mk.injEq, StepTail.ok.injEq] at hres
                        obtain ⟨-, he, hs, hn, -⟩ := hres
                        subst he; subst hs; subst hn
                        refine ⟨hB2e, ?_, rfl⟩
                        simp [noInputL, noInputN, hB2n, hrest]
                        decide
                    | false =>
                      obtain ⟨ihA3, ihB3⟩ := ih lazy e2 stdin rest hB2e hrest
                      rcases hbase3 : reduceFirst fuel lazy e2 [] rest with ⟨o3, t3⟩
                      have hS3 : reduceFirst fuel lazy e2 stdin rest
                          = patchStdin stdin (o3, t3) := by
                        rw [ihA3, hbase3]
                      cases t3 with
                      | ok e3 s3 nr c3 =>
                        have hS3' : reduceFirst fuel lazy e2 stdin rest
                            = (o3, .ok e3 stdin nr c3) := by
                          rw [hS3]; rfl
                        obtain ⟨hB3e, hB3n, -⟩ := ihB3 o3 e3 stdin nr c3 hS3'
                        obtain ⟨-, ihB3z⟩ := ih lazy e2 [] rest hB2e hrest
                        obtain ⟨-, -, hs3z⟩ := ihB3z o3 e3 s3 nr c3 hbase3
                        subst hs3z
                        have key : ∀ σ
                            (hs : reduceFirst fuel lazy env σ [Node.token printT]
                              = (o1, .ok e1 σ nf false))
                            (hsa : reduceFirst fuel lazy e1 σ a = (o2, .ok e2 σ na false))
                            (hsr : reduceFirst fuel lazy e2 σ rest = (o3, .ok e3 σ nr c3)),
                            reduceFirst (fuel+1) lazy env σ
                                (Node.apply (.token printT) a :: rest)
                              = (o1 ++ o2 ++ o3, .ok e3 σ
                                  (Node.apply (.token printT) a :: nr) c3) := by
                          intro σ hs hsa hsr
                          simp [reduceFirst, hs, hall, hsa, hsr]
                        constructor
                        · rw [key stdin hS1' hS2' hS3', key [] hbase1 hbase2 hbase3]; rfl
                        · intro o e s ns c hres
                          rw [key stdin hS1' hS2' hS3'] at hres
                          simp only [Prod.mk.injEq, StepTail.ok.injEq] at hres
                          obtain ⟨-, he, hs, hn, -⟩ := hres
                          subst he; subst hs; subst hn
                          refine ⟨hB3e, ?_, rfl⟩
                          simp [noInputL, noInputN, hfa.2, hB3n]
                          decide
                      | fatal m =>
                        have hS3' : reduceFirst fuel lazy e2 stdin rest
                            = (o3, .fatal m) := by
                          rw [hS3]; rfl
                        have key : ∀ σ
                            (hs : reduceFirst fuel lazy env σ [Node.token printT]
                              = (o1, .ok e1 σ nf false))
                            (hsa : reduceFirst fuel lazy e1 σ a = (o2, .ok e2 σ na false))
                            (hsr : reduceFirst fuel lazy e2 σ rest = (o3, .fatal m)),
                            reduceFirst (fuel+1) lazy env σ
                                (Node.apply (.token printT) a :: rest)
                              = (o1 ++ o2 ++ o3, .fatal m) := by
                          intro σ hs hsa hsr
                          simp [reduceFirst, hs, hall, hsa, hsr]
                        constructor
                        · rw [key stdin hS1' hS2' hS3', key [] hbase1 hbase2 hbase3]; rfl
                        · intro o e s ns c hres
                          rw [key stdin hS1' hS2' hS3'] at hres
                          simp at hres
                      | needInput =>
                        have hS3' : reduceFirst fuel lazy e2 stdin rest
                            = (o3, .needInput) := by
                          rw [hS3]; rfl
                        have key : ∀ σ
                            (hs : reduceFirst fuel lazy env σ [Node.token printT]
                              = (o1, .ok e1 σ nf false))
                            (hsa : reduceFirst fuel lazy e1 σ a = (o2, .ok e2 σ na false))
                            (hsr : reduceFirst fuel lazy e2 σ rest = (o3, .needInput)),
                            reduceFirst (fuel+1) lazy env σ
                                (Node.apply (.token printT) a :: rest)
                              = (o1 ++ o2 ++ o3, .needInput) := by
                          intro σ hs hsa hsr
                          simp [reduceFirst, hs, hall, hsa, hsr]
                        constructor
                        · rw [key stdin hS1' hS2' hS3', key [] hbase1 hbase2 hbase3]; rfl
                        · intro o e s ns c hres
                          rw [key stdin hS1' hS2' hS3'] at hres
                          simp at hres
                      | fuelOut =>
                        have hS3' : reduceFirst fuel lazy e2 stdin rest
                            = (o3, .fuelOut) := by
                          rw [hS3]; rfl
                        have key : ∀ σ
                            (hs : reduceFirst fuel lazy env σ [Node.token printT]
                              = (o1, .ok e1 σ nf false))
                            (hsa : reduceFirst fuel lazy e1 σ a = (o2, .ok e2 σ na false))
                            (hsr : reduceFirst fuel lazy e2 σ rest = (o3, .fuelOut)),
                            reduceFirst (fuel+1) lazy env σ
                                (Node.apply (.token printT) a :: rest)
                              = (o1 ++ o2 ++ o3, .fuelOut) := by
                          intro σ hs hsa hsr
                          simp [reduceFirst, hs, hall, hsa, hsr]
                        constructor
                        · rw [key stdin hS1' hS2' hS3', key [] hbase1 hbase2 hbase3]; rfl
                        · intro o e s ns c hres
                          rw [key stdin hS1' hS2' hS3'] at hres
                          simp at hres
                  | fatal m =>
                    have hS2' : reduceFirst fuel lazy e1 stdin a = (o2, .fatal m) := by
                      rw [hS2]; rfl
                    have key : ∀ σ
                        (hs : reduceFirst fuel lazy env σ [Node.token printT]
                          = (o1, .ok e1 σ nf false))
                        (hsa : reduceFirst fuel lazy e1 σ a = (o2, .fatal m)),
                        reduceFirst (fuel+1) lazy env σ
                            (Node.apply (.token printT) a :: rest)
                          = (o1 ++ o2, .fatal m) := by
                      intro σ hs hsa
                      simp [reduceFirst, hs, hall, hsa]
                    constructor
                    · rw [key stdin hS1' hS2', key [] hbase1 hbase2]; rfl
                    · intro o e s ns c hres
                      rw [key stdin hS1' hS2'] at hres
                      simp at hres
                  | needInput =>
                    have hS2' : reduceFirst fuel lazy e1 stdin a = (o2, .needInput) := by
                      rw [hS2]; rfl
                    have key : ∀ σ
                        (hs : reduceFirst fuel lazy env σ [Node.token printT]
                          = (o1, .ok e1 σ nf false))
                        (hsa : reduceFirst fuel lazy e1 σ a = (o2, .needInput)),
                        reduceFirst (fuel+1) lazy env σ
                            (Node.apply (.token printT) a :: rest)
                          = (o1 ++ o2, .needInput) := by
                      intro σ hs hsa
                      simp [reduceFirst, hs, hall, hsa]
                    constructor
                    · rw [key stdin hS1' hS2', key [] hbase1 hbase2]; rfl
                    · intro o e s ns c hres
                      rw [key stdin hS1' hS2'] at hres
                      simp at hres
                  | fuelOut =>
                    have hS2' : reduceFirst fuel lazy e1 stdin a = (o2, .fuelOut) := by
                      rw [hS2]; rfl
                    have key : ∀ σ
                        (hs : reduceFirst fuel lazy env σ [Node.token printT]
                          = (o1, .ok e1 σ nf false))
                        (hsa : reduceFirst fuel lazy e1 σ a = (o2, .fuelOut)),
                        reduceFirst (fuel+1) lazy env σ
                            (Node.apply (.token printT) a :: rest)
                          = (o1 ++ o2, .fuelOut) := by
                      intro σ hs hsa
                      simp [reduceFirst, hs, hall, hsa]
                    constructor
                    · rw [key stdin hS1' hS2', key [] hbase1 hbase2]; rfl
                    · intro o e s ns c hres
                      rw [key stdin hS1' hS2'] at hres
                      simp at hres
              · cases hg2 : envGet e1 t' with
                | some body2 =>
                  have hb2 := envGet_noInput e1 t' body2 hB1e hg2
                  rcases body2 with - | ⟨x, - | ⟨y, zs⟩⟩
                  · have key : ∀ σ (hs : reduceFirst fuel lazy env σ [Node.token t']
                          = (o1, .ok e1 σ nf false)),
                        reduceFirst (fuel+1) lazy env σ (Node.apply (.token t') a :: rest)
                          = (o1, .ok e1 σ
                              (Node.apply (.token errorMacroT) a :: rest) true) := by
                      intro σ hs
                      simp [reduceFirst, hs, hpt, hg2]
                    constructor
                    · rw [key stdin hS1', key [] hbase1]; rfl
                    · intro o e s ns c hres
                      rw [key stdin hS1'] at hres
                      simp only [Prod.mk.injEq, StepTail.ok.injEq] at hres
                      obtain ⟨-, he, hs, hn, -⟩ := hres
                      subst he; subst hs; subst hn
                      refine ⟨hB1e, ?_, rfl⟩
                      simp [noInputL, noInputN, hfa.2, hrest]
                      decide
                  · have key : ∀ σ (hs : reduceFirst fuel lazy env σ [Node.token t']
                          = (o1, .ok e1 σ nf false)),
                        reduceFirst (fuel+1) lazy env σ (Node.apply (.token t') a :: rest)
                          = (o1, .ok e1 σ (Node.apply x a :: rest) true) := by
                      intro σ hs
                      simp [reduceFirst, hs, hpt, hg2]
                    constructor
                    · rw [key stdin hS1', key [] hbase1]; rfl
                    · intro o e s ns c hres
                      rw [key stdin hS1'] at hres
                      simp only [Prod.mk.injEq, StepTail.ok.injEq] at hres
                      obtain ⟨-, he, hs, hn, -⟩ := hres
                      subst he; subst hs; subst hn
                      have hx : noInputN x = true := by simpa [noInputL] using hb2
                      exact ⟨hB1e, by simp [noInputL, noInputN, hx, hfa.2, hrest], rfl⟩
                  · have key : ∀ σ (hs : reduceFirst fuel lazy env σ [Node.token t']
                          = (o1, .ok e1 σ nf false)),
                        reduceFirst (fuel+1) lazy env σ (Node.apply (.token t') a :: rest)
                          = (o1, .ok e1 σ
                              (Node.apply (.token errorMacroT) a :: rest) true) := by
                      intro σ hs
                      simp [reduceFirst, hs, hpt, hg2]
                    constructor
                    · rw [key stdin hS1', key [] hbase1]; rfl
                    · intro o e s ns c hres
                      rw [key stdin hS1'] at hres
                      simp only [Prod.mk.injEq, StepTail.ok.injEq] at hres
                      obtain ⟨-, he, hs, hn, -⟩ := hres
                      subst he; subst hs; subst hn
                      refine ⟨hB1e, ?_, rfl⟩
                      simp [noInputL, noInputN, hfa.2, hrest]
                      decide
                | none =>
                  have htok : noInputN (Node.token t') = true := hfa.1
                  obtain ⟨ihA2, ihB2⟩ := ih lazy e1 stdin a hB1e hfa.2
                  obtain ⟨-, ihB2z⟩ := ih lazy e1 [] a hB1e hfa.2
                  rcases hbase2 : reduceFirst fuel lazy e1 [] a with ⟨o2, t2⟩
                  have hS2 : reduceFirst fuel lazy e1 stdin a
                      = patchStdin stdin (o2, t2) := by
                    rw [ihA2, hbase2]
                  cases t2 with
                  | ok e2 s2 na c2 =>
                    have hS2' : reduceFirst fuel lazy e1 stdin a
                        = (o2, .ok e2 stdin na c2) := by
                      rw [hS2]; rfl
                    obtain ⟨hB2e, hB2n, -⟩ := ihB2 o2 e2 stdin na c2 hS2'
                    obtain ⟨-, -, hs2z⟩ := ihB2z o2 e2 s2 na c2 hbase2
                    subst hs2z
                    cases c2 with
                    | true =>
                      have key : ∀ σ
                          (hs : reduceFirst fuel lazy env σ [Node.token t']
                            = (o1, .ok e1 σ nf false))
                          (hsa : reduceFirst fuel lazy e1 σ a = (o2, .ok e2 σ na true)),
                          reduceFirst (fuel+1) lazy env σ
                              (Node.apply (.token t') a :: rest)
                            = (o1 ++ o2, .ok e2 σ
                                (Node.apply (.token t') na :: rest) true) := by
                        intro σ hs hsa
                        simp [reduceFirst, hs, hpt, hg2, hsa]
                      constructor
                      · rw [key stdin hS1' hS2', key [] hbase1 hbase2]; rfl
                      · intro o e s ns c hres
                        rw [key stdin hS1' hS2'] at hres
                        simp only [Prod.mk.injEq, StepTail.ok.injEq] at hres
                        obtain ⟨-, he, hs, hn, -⟩ := hres
                        subst he; subst hs; subst hn
                        exact ⟨hB2e,
                          by simp [noInputL, noInputN, htok, hB2n, hrest]
                             simpa [noInputN] using htok,
                          rfl⟩
                    | false =>
                      obtain ⟨ihA3, ihB3⟩ := ih lazy e2 stdin rest hB2e hrest
                      rcases hbase3 : reduceFirst fuel lazy e2 [] rest with ⟨o3, t3⟩
                      have hS3 : reduceFirst fuel lazy e2 stdin rest
                          = patchStdin stdin (o3, t3) := by
                        rw [ihA3, hbase3]
                      cases t3 with
                      | ok e3 s3 nr c3 =>
                        have hS3' : reduceFirst fuel lazy e2 stdin rest
                            = (o3, .ok e3 stdin nr c3) := by
                          rw [hS3]; rfl
                        obtain ⟨hB3e, hB3n, -⟩ := ihB3 o3 e3 stdin nr c3 hS3'
                        obtain ⟨-, ihB3z⟩ := ih lazy e2 [] rest hB2e hrest
                        obtain ⟨-, -, hs3z⟩ := ihB3z o3 e3 s3 nr c3 hbase3
                        subst hs3z
                        have key : ∀ σ
                            (hs : reduceFirst fuel lazy env σ [Node.token t']
                              = (o1, .ok e1 σ nf false))
                            (hsa : reduceFirst fuel lazy e1 σ a = (o2, .ok e2 σ na false))
                            (hsr : reduceFirst fuel lazy e2 σ rest = (o3, .ok e3 σ nr c3)),
                            reduceFirst (fuel+1) lazy env σ
                                (Node.apply (.token t') a :: rest)
                              = (o1 ++ o2 ++ o3, .ok e3 σ
                                  (Node.apply (.token t') a :: nr) c3) := by
                          intro σ hs hsa hsr
                          simp [reduceFirst, hs, hpt, hg2, hsa, hsr]
                        constructor
                        · rw [key stdin hS1' hS2' hS3', key [] hbase1 hbase2 hbase3]; rfl
                        · intro o e s ns c hres
                          rw [key stdin hS1' hS2' hS3'] at hres
                          simp only [Prod.mk.injEq, StepTail.ok.injEq] at hres
                          obtain ⟨-, he, hs, hn, -⟩ := hres
                          subst he; subst hs; subst hn
                          refine ⟨hB3e, ?_, rfl⟩
                          simp [noInputL, noInputN, hfa.2, hB3n]
                          simpa [noInputN] using htok
                      | fatal m =>
                        have hS3' : reduceFirst fuel lazy e2 stdin rest
                            = (o3, .fatal m) := by
                          rw [hS3]; rfl
                        have key : ∀ σ
                            (hs : reduceFirst fuel lazy env σ [Node.token t']
                              = (o1, .ok e1 σ nf false))
                            (hsa : reduceFirst fuel lazy e1 σ a = (o2, .ok e2 σ na false))
                            (hsr : reduceFirst fuel lazy e2 σ rest = (o3, .fatal m)),
                            reduceFirst (fuel+1) lazy env σ
                                (Node.apply (.token t') a :: rest)
                              = (o1 ++ o2 ++ o3, .fatal m) := by
                          intro σ hs hsa hsr
                          simp [reduceFirst, hs, hpt, hg2, hsa, hsr]
                        constructor
                        · rw [key stdin hS1' hS2' hS3', key [] hbase1 hbase2 hbase3]; rfl
                        · intro o e s ns c hres
                          rw [key stdin hS1' hS2' hS3'] at hres
                          simp at hres
                      | needInput =>
                        have hS3' : reduceFirst fuel lazy e2 stdin rest
                            = (o3, .needInput) := by
                          rw [hS3]; rfl
                        have key : ∀ σ
                            (hs : reduceFirst fuel lazy env σ [Node.token t']
                              = (o1, .ok e1 σ nf false))
                            (hsa : reduceFirst fuel lazy e1 σ a = (o2, .ok e2 σ na false))
                            (hsr : reduceFirst fuel lazy e2 σ rest = (o3, .needInput)),
                            reduceFirst (fuel+1) lazy env σ
                                (Node.apply (.token t') a :: rest)
                              = (o1 ++ o2 ++ o3, .needInput) := by
                          intro σ hs hsa hsr
                          simp [reduceFirst, hs, hpt, hg2, hsa, hsr]
                        constructor
                        · rw [key stdin hS1' hS2' hS3', key [] hbase1 hbase2 hbase3]; rfl
                        · intro o e s ns c hres
                          rw [key stdin hS1' hS2' hS3'] at hres
                          simp at hres
                      | fuelOut =>
                        have hS3' : reduceFirst fuel lazy e2 stdin rest
                            = (o3, .fuelOut) := by
                          rw [hS3]; rfl
                        have key : ∀ σ
                            (hs : reduceFirst fuel lazy env σ [Node.token t']
                              = (o1, .ok e1 σ nf false))
                            (hsa : reduceFirst fuel lazy e1 σ a = (o2, .ok e2 σ na false))
                            (hsr : reduceFirst fuel lazy e2 σ rest = (o3, .fuelOut)),
                            reduceFirst (fuel+1) lazy env σ
                                (Node.apply (.token t') a :: rest)
                              = (o1 ++ o2 ++ o3, .fuelOut) := by
                          intro σ hs hsa hsr
                          simp [reduceFirst, hs, hpt, hg2, hsa, hsr]
                        constructor
                        · rw [key stdin hS1' hS2' hS3', key [] hbase1 hbase2 hbase3]; rfl
                        · intro o e s ns c hres
                          rw [key stdin hS1' hS2' hS3'] at hres
                          simp at hres
                  | fatal m =>
                    have hS2' : reduceFirst fuel lazy e1 stdin a = (o2, .fatal m) := by
                      rw [hS2]; rfl
                    have key : ∀ σ
                        (hs : reduceFirst fuel lazy env σ [Node.token t']
                          = (o1, .ok e1 σ nf false))
                        (hsa : reduceFirst fuel lazy e1 σ a = (o2, .fatal m)),
                        reduceFirst (fuel+1) lazy env σ
                            (Node.apply (.token t') a :: rest)
                          = (o1 ++ o2, .fatal m) := by
                      intro σ hs hsa
                      simp [reduceFirst, hs, hpt, hg2, hsa]
                    constructor
                    · rw [key stdin hS1' hS2', key [] hbase1 hbase2]; rfl
                    · intro o e s ns c hres
                      rw [key stdin hS1' hS2'] at hres
                      simp at hres
                  | needInput =>
                    have hS2' : reduceFirst fuel lazy e1 stdin a = (o2, .needInput) := by
                      rw [hS2]; rfl
                    have key : ∀ σ
                        (hs : reduceFirst fuel lazy env σ [Node.token t']
                          = (o1, .ok e1 σ nf false))
                        (hsa : reduceFirst fuel lazy e1 σ a = (o2, .needInput)),
                        reduceFirst (fuel+1) lazy env σ
                            (Node.apply (.token t') a :: rest)
                          = (o1 ++ o2, .needInput) := by
                      intro σ hs hsa
                      simp [reduceFirst, hs, hpt, hg2, hsa]
                    constructor
                    · rw [key stdin hS1' hS2', key [] hbase1 hbase2]; rfl
                    · intro o e s ns c hres
                      rw [key stdin hS1' hS2'] at hres
                      simp at hres
                  | fuelOut =>
                    have hS2' : reduceFirst fuel lazy e1 stdin a = (o2, .fuelOut) := by
                      rw [hS2]; rfl
                    have key : ∀ σ
                        (hs : reduceFirst fuel lazy env σ [Node.token t']
                          = (o1, .ok e1 σ nf false))
                        (hsa : reduceFirst fuel lazy e1 σ a = (o2, .fuelOut)),
                        reduceFirst (fuel+1) lazy env σ
                            (Node.apply (.token t') a :: rest)
                          = (o1 ++ o2, .fuelOut) := by
                      intro σ hs hsa
                      simp [reduceFirst, hs, hpt, hg2, hsa]
                    constructor
                    · rw [key stdin hS1' hS2', key [] hbase1 hbase2]; rfl
                    · intro o e s ns c hres
                      rw [key stdin hS1' hS2'] at hres
                      simp at hres
            | apply f2 a2 =>
              have hinner : noInputL [Node.apply f2 a2] = true := by
                simp [noInputL, hfa.1]
              obtain ⟨ihA2, ihB2⟩ := ih lazy e1 stdin [Node.apply f2 a2] hB1e hinner
              obtain ⟨-, ihB2z⟩ := ih lazy e1 [] [Node.apply f2 a2] hB1e hinner
              rcases hbase2 : reduceFirst fuel lazy e1 [] [Node.apply f2 a2] with ⟨o2, t2⟩
              have hS2 : reduceFirst fuel lazy e1 stdin [Node.apply f2 a2]
                  = patchStdin stdin (o2, t2) := by
                rw [ihA2, hbase2]
              cases t2 with
              | fatal m =>
                have hS2' : reduceFirst fuel lazy e1 stdin [Node.apply f2 a2] = (o2, .fatal m) := by
                  rw [hS2]; rfl
                have key : ∀ σ
                    (hs : reduceFirst fuel lazy env σ [Node.apply f2 a2]
                      = (o1, .ok e1 σ nf false))
                    (hsi : reduceFirst fuel lazy e1 σ [Node.apply f2 a2] = (o2, .fatal m)),
                    reduceFirst (fuel+1) lazy env σ (Node.apply (.apply f2 a2) a :: rest)
                      = (o1 ++ o2, .fatal m) := by
                  intro σ hs hsi
                  simp [reduceFirst, hs, hsi]
                constructor
                · rw [key stdin hS1' hS2', key [] hbase1 hbase2]; rfl
                · intro o e s ns c hres
                  rw [key stdin hS1' hS2'] at hres
                  simp at hres
              | needInput =>
                have hS2' : reduceFirst fuel lazy e1 stdin [Node.apply f2 a2] = (o2, .needInput) := by
                  rw [hS2]; rfl
                have key : ∀ σ
                    (hs : reduceFirst fuel lazy env σ [Node.apply f2 a2]
                      = (o1, .ok e1 σ nf false))
                    (hsi : reduceFirst fuel lazy e1 σ [Node.apply f2 a2] = (o2, .needInput)),
                    reduceFirst (fuel+1) lazy env σ (Node.apply (.apply f2 a2) a :: rest)
                      = (o1 ++ o2, .needInput) := by
                  intro σ hs hsi
                  simp [reduceFirst, hs, hsi]
                constructor
                · rw [key stdin hS1' hS2', key [] hbase1 hbase2]; rfl
                · intro o e s ns c hres
                  rw [key stdin hS1' hS2'] at hres
                  simp at hres
              | fuelOut =>
                have hS2' : reduceFirst fuel lazy e1 stdin [Node.apply f2 a2] = (o2, .fuelOut) := by
                  rw [hS2]; rfl
                have key : ∀ σ
                    (hs : reduceFirst fuel lazy env σ [Node.apply f2 a2]
                      = (o1, .ok e1 σ nf false))
                    (hsi : reduceFirst fuel lazy e1 σ [Node.apply f2 a2] = (o2, .fuelOut)),
                    reduceFirst (fuel+1) lazy env σ (Node.apply (.apply f2 a2) a :: rest)
                      = (o1 ++ o2, .fuelOut) := by
                  intro σ hs hsi
                  simp [reduceFirst, hs, hsi]
                constructor
                · rw [key stdin hS1' hS2', key [] hbase1 hbase2]; rfl
                · intro o e s ns c hres
                  rw [key stdin hS1' hS2'] at hres
                  simp at hres
              | ok e2 s2 ni c2 =>
                have hS2' : reduceFirst fuel lazy e1 stdin [Node.apply f2 a2]
                    = (o2, .ok e2 stdin ni c2) := by
                  rw [hS2]; rfl
                obtain ⟨hB2e, hB2n, -⟩ := ihB2 o2 e2 stdin ni c2 hS2'
                obtain ⟨-, -, hs2z⟩ := ihB2z o2 e2 s2 ni c2 hbase2
                subst hs2z
                cases c2 with
                | true =>
                  cases ni with
                  | cons ni0 nit =>
                    have key : ∀ σ
                        (hs : reduceFirst fuel lazy env σ [Node.apply f2 a2]
                          = (o1, .ok e1 σ nf false))
                        (hsi : reduceFirst fuel lazy e1 σ [Node.apply f2 a2]
                          = (o2, .ok e2 σ (ni0 :: nit) true)),
                        reduceFirst (fuel+1) lazy env σ (Node.apply (.apply f2 a2) a :: rest)
                          = (o1 ++ o2, .ok e2 σ (Node.apply ni0 a :: rest) true) := by
                      intro σ hs hsi
                      simp [reduceFirst, hs, hsi]
                    constructor
                    · rw [key stdin hS1' hS2', key [] hbase1 hbase2]; rfl
                    · intro o e s ns c hres
                      rw [key stdin hS1' hS2'] at hres
                      simp only [Prod.mk.injEq, StepTail.ok.injEq] at hres
                      obtain ⟨-, he, hs, hn, -⟩ := hres
                      subst he; subst hs; subst hn
                      have h2s := hB2n
                      simp only [noInputL, Bool.and_eq_true] at h2s
                      exact ⟨hB2e, by simp [noInputL, noInputN, h2s.1, hfa.2, hrest], rfl⟩
                  | nil =>
                    obtain ⟨ihA3, ihB3⟩ := ih lazy e2 stdin a hB2e hfa.2
                    obtain ⟨-, ihB3z⟩ := ih lazy e2 [] a hB2e hfa.2
                    rcases hbase3 : reduceFirst fuel lazy e2 [] a with ⟨o3, t3⟩
                    have hS3 : reduceFirst fuel lazy e2 stdin a = patchStdin stdin (o3, t3) := by
                      rw [ihA3, hbase3]
                    cases t3 with
                    | fatal m3 =>
                      have hS3' : reduceFirst fuel lazy e2 stdin a = (o3, .fatal m3) := by
                        rw [hS3]; rfl
                      have key : ∀ σ
                          (hs : reduceFirst fuel lazy env σ [Node.apply f2 a2]
                            = (o1, .ok e1 σ nf false))
                          (hsi : reduceFirst fuel lazy e1 σ [Node.apply f2 a2] = (o2, .ok e2 σ [] true))
                          (hsa : reduceFirst fuel lazy e2 σ a = (o3, .fatal m3)),
                          reduceFirst (fuel+1) lazy env σ (Node.apply (.apply f2 a2) a :: rest)
                            = (o1 ++ o2 ++ o3, .fatal m3) := by
                        intro σ hs hsi hsa
                        simp [reduceFirst, hs, hsi, hsa]
                      constructor
                      · rw [key stdin hS1' hS2' hS3', key [] hbase1 hbase2 hbase3]; rfl
                      · intro o e s ns c hres
                        rw [key stdin hS1' hS2' hS3'] at hres
                        simp at hres
                    | needInput =>
                      have hS3' : reduceFirst fuel lazy e2 stdin a = (o3, .needInput) := by
                        rw [hS3]; rfl
                      have key : ∀ σ
                          (hs : reduceFirst fuel lazy env σ [Node.apply f2 a2]
                            = (o1, .ok e1 σ nf false))
                          (hsi : reduceFirst fuel lazy e1 σ [Node.apply f2 a2] = (o2, .ok e2 σ [] true))
                          (hsa : reduceFirst fuel lazy e2 σ a = (o3, .needInput)),
                          reduceFirst (fuel+1) lazy env σ (Node.apply (.apply f2 a2) a :: rest)
                            = (o1 ++ o2 ++ o3, .needInput) := by
                        intro σ hs hsi hsa
                        simp [reduceFirst, hs, hsi, hsa]
                      constructor
                      · rw [key stdin hS1' hS2' hS3', key [] hbase1 hbase2 hbase3]; rfl
                      · intro o e s ns c hres
                        rw [key stdin hS1' hS2' hS3'] at hres
                        simp at hres
                    | fuelOut =>
                      have hS3' : reduceFirst fuel lazy e2 stdin a = (o3, .fuelOut) := by
                        rw [hS3]; rfl
                      have key : ∀ σ
                          (hs : reduceFirst fuel lazy env σ [Node.apply f2 a2]
                            = (o1, .ok e1 σ nf false))
                          (hsi : reduceFirst fuel lazy e1 σ [Node.apply f2 a2] = (o2, .ok e2 σ [] true))
                          (hsa : reduceFirst fuel lazy e2 σ a = (o3, .fuelOut)),
                          reduceFirst (fuel+1) lazy env σ (Node.apply (.apply f2 a2) a :: rest)
                            = (o1 ++ o2 ++ o3, .fuelOut) := by
                        intro σ hs hsi hsa
                        simp [reduceFirst, hs, hsi, hsa]
                      constructor
                      · rw [key stdin hS1' hS2' hS3', key [] hbase1 hbase2 hbase3]; rfl
                      · intro o e s ns c hres
                        rw [key stdin hS1' hS2' hS3'] at hres
                        simp at hres
                    | ok e3 s3 na c3 =>
                      have hS3' : reduceFirst fuel lazy e2 stdin a = (o3, .ok e3 stdin na c3) := by
                        rw [hS3]; rfl
                      obtain ⟨hB3e, hB3n, -⟩ := ihB3 o3 e3 stdin na c3 hS3'
                      obtain ⟨-, -, hs3z⟩ := ihB3z o3 e3 s3 na c3 hbase3
                      subst hs3z
                      cases c3 with
                      | true =>
                        have key : ∀ σ
                            (hs : reduceFirst fuel lazy env σ [Node.apply f2 a2]
                              = (o1, .ok e1 σ nf false))
                            (hsi : reduceFirst fuel lazy e1 σ [Node.apply f2 a2] = (o2, .ok e2 σ [] true))
                            (hsa : reduceFirst fuel lazy e2 σ a = (o3, .ok e3 σ na true)),
                            reduceFirst (fuel+1) lazy env σ (Node.apply (.apply f2 a2) a :: rest)
                              = (o1 ++ o2 ++ o3, .ok e3 σ
                                  (Node.apply (.apply f2 a2) na :: rest) true) := by
                          intro σ hs hsi hsa
                          simp [reduceFirst, hs, hsi, hsa]
                        constructor
                        · rw [key stdin hS1' hS2' hS3', key [] hbase1 hbase2 hbase3]; rfl
                        · intro o e s ns c hres
                          rw [key stdin hS1' hS2' hS3'] at hres
                          simp only [Prod.mk.injEq, StepTail.ok.injEq] at hres
                          obtain ⟨-, he, hs, hn, -⟩ := hres
                          subst he; subst hs; subst hn
                          have hf2 : noInputN f2 = true ∧ noInputL a2 = true := by
                            simpa [noInputN, Bool.and_eq_true] using hfa.1
                          exact ⟨hB3e, by simp [noInputL, noInputN, hf2.1, hf2.2, hB3n, hrest], rfl⟩
                      | false =>
                        obtain ⟨ihA4, ihB4⟩ := ih lazy e3 stdin rest hB3e hrest
                        obtain ⟨-, ihB4z⟩ := ih lazy e3 [] rest hB3e hrest
                        rcases hbase4 : reduceFirst fuel lazy e3 [] rest with ⟨o4, t4⟩
                        have hS4 : reduceFirst fuel lazy e3 stdin rest = patchStdin stdin (o4, t4) := by
                          rw [ihA4, hbase4]
                        cases t4 with
                        | fatal m4 =>
                          have hS4' : reduceFirst fuel lazy e3 stdin rest = (o4, .fatal m4) := by
                            rw [hS4]; rfl
                          have key : ∀ σ
                              (hs : reduceFirst fuel lazy env σ [Node.apply f2 a2]
                                = (o1, .ok e1 σ nf false))
                              (hsi : reduceFirst fuel lazy e1 σ [Node.apply f2 a2] = (o2, .ok e2 σ [] true))
                              (hsa : reduceFirst fuel lazy e2 σ a = (o3, .ok e3 σ na false))
                              (hsr : reduceFirst fuel lazy e3 σ rest = (o4, .fatal m4)),
                              reduceFirst (fuel+1) lazy env σ (Node.apply (.apply f2 a2) a :: rest)
                                = (o1 ++ o2 ++ o3 ++ o4, .fatal m4) := by
                            intro σ hs hsi hsa hsr
                            simp [reduceFirst, hs, hsi, hsa, hsr]
                          constructor
                          · rw [key stdin hS1' hS2' hS3' hS4', key [] hbase1 hbase2 hbase3 hbase4]; rfl
                          · intro o e s ns c hres
                            rw [key stdin hS1' hS2' hS3' hS4'] at hres
                            simp at hres
                        | needInput =>
                          have hS4' : reduceFirst fuel lazy e3 stdin rest = (o4, .needInput) := by
                            rw [hS4]; rfl
                          have key : ∀ σ
                              (hs : reduceFirst fuel lazy env σ [Node.apply f2 a2]
                                = (o1, .ok e1 σ nf false))
                              (hsi : reduceFirst fuel lazy e1 σ [Node.apply f2 a2] = (o2, .ok e2 σ [] true))
                              (hsa : reduceFirst fuel lazy e2 σ a = (o3, .ok e3 σ na false))
                              (hsr : reduceFirst fuel lazy e3 σ rest = (o4, .needInput)),
                              reduceFirst (fuel+1) lazy env σ (Node.apply (.apply f2 a2) a :: rest)
                                = (o1 ++ o2 ++ o3 ++ o4, .needInput) := by
                            intro σ hs hsi hsa hsr
                            simp [reduceFirst, hs, hsi, hsa, hsr]
                          constructor
                          · rw [key stdin hS1' hS2' hS3' hS4', key [] hbase1 hbase2 hbase3 hbase4]; rfl
                          · intro o e s ns c hres
                            rw [key stdin hS1' hS2' hS3' hS4'] at hres
                            simp at hres
                        | fuelOut =>
                          have hS4' : reduceFirst fuel lazy e3 stdin rest = (o4, .fuelOut) := by
                            rw [hS4]; rfl
                          have key : ∀ σ
                              (hs : reduceFirst fuel lazy env σ [Node.apply f2 a2]
                                = (o1, .ok e1 σ nf false))
                              (hsi : reduceFirst fuel lazy e1 σ [Node.apply f2 a2] = (o2, .ok e2 σ [] true))
                              (hsa : reduceFirst fuel lazy e2 σ a = (o3, .ok e3 σ na false))
                              (hsr : reduceFirst fuel lazy e3 σ rest = (o4, .fuelOut)),
                              reduceFirst (fuel+1) lazy env σ (Node.apply (.apply f2 a2) a :: rest)
                                = (o1 ++ o2 ++ o3 ++ o4, .fuelOut) := by
                            intro σ hs hsi hsa hsr
                            simp [reduceFirst, hs, hsi, hsa, hsr]
                          constructor
                          · rw [key stdin hS1' hS2' hS3' hS4', key [] hbase1 hbase2 hbase3 hbase4]; rfl
                          · intro o e s ns c hres
                            rw [key stdin hS1' hS2' hS3' hS4'] at hres
                            simp at hres
                        | ok e4 s4 nr c4 =>
                          have hS4' : reduceFirst fuel lazy e3 stdin rest = (o4, .ok e4 stdin nr c4) := by
                            rw [hS4]; rfl
                          obtain ⟨hB4e, hB4n, -⟩ := ihB4 o4 e4 stdin nr c4 hS4'
                          obtain ⟨-, -, hs4z⟩ := ihB4z o4 e4 s4 nr c4 hbase4
                          subst hs4z
                          have key : ∀ σ
                              (hs : reduceFirst fuel lazy env σ [Node.apply f2 a2]
                                = (o1, .ok e1 σ nf false))
                              (hsi : reduceFirst fuel lazy e1 σ [Node.apply f2 a2] = (o2, .ok e2 σ [] true))
                              (hsa : reduceFirst fuel lazy e2 σ a = (o3, .ok e3 σ na false))
                              (hsr : reduceFirst fuel lazy e3 σ rest = (o4, .ok e4 σ nr c4)),
                              reduceFirst (fuel+1) lazy env σ (Node.apply (.apply f2 a2) a :: rest)
                                = (o1 ++ o2 ++ o3 ++ o4, .ok e4 σ
                                    (Node.apply (.apply f2 a2) a :: nr) c4) := by
                            intro σ hs hsi hsa hsr
                            simp [reduceFirst, hs, hsi, hsa, hsr]
                          constructor
                          · rw [key stdin hS1' hS2' hS3' hS4', key [] hbase1 hbase2 hbase3 hbase4]; rfl
                          · intro o e s ns c hres
                            rw [key stdin hS1' hS2' hS3' hS4'] at hres
                            simp only [Prod.mk.injEq, StepTail.ok.injEq] at hres
                            obtain ⟨-, he, hs, hn, -⟩ := hres
                            subst he; subst hs; subst hn
                            have hf2 : noInputN f2 = true ∧ noInputL a2 = true := by
                              simpa [noInputN, Bool.and_eq_true] using hfa.1
                            exact ⟨hB4e, by simp [noInputL, noInputN, hf2.1, hf2.2, hfa.2, hB4n], rfl⟩
                | false =>
                  obtain ⟨ihA3, ihB3⟩ := ih lazy e2 stdin a hB2e hfa.2
                  obtain ⟨-, ihB3z⟩ := ih lazy e2 [] a hB2e hfa.2
                  rcases hbase3 : reduceFirst fuel lazy e2 [] a with ⟨o3, t3⟩
                  have hS3 : reduceFirst fuel lazy e2 stdin a = patchStdin stdin (o3, t3) := by
                    rw [ihA3, hbase3]
                  cases t3 with
                  | fatal m3 =>
                    have hS3' : reduceFirst fuel lazy e2 stdin a = (o3, .fatal m3) := by
                      rw [hS3]; rfl
                    have key : ∀ σ
                        (hs : reduceFirst fuel lazy env σ [Node.apply f2 a2]
                          = (o1, .ok e1 σ nf false))
                        (hsi : reduceFirst fuel lazy e1 σ [Node.apply f2 a2] = (o2, .ok e2 σ ni false))
                        (hsa : reduceFirst fuel lazy e2 σ a = (o3, .fatal m3)),
                        reduceFirst (fuel+1) lazy env σ (Node.apply (.apply f2 a2) a :: rest)
                          = (o1 ++ o2 ++ o3, .fatal m3) := by
                      intro σ hs hsi hsa
                      simp [reduceFirst, hs, hsi, hsa]
                    constructor
                    · rw [key stdin hS1' hS2' hS3', key [] hbase1 hbase2 hbase3]; rfl
                    · intro o e s ns c hres
                      rw [key stdin hS1' hS2' hS3'] at hres
                      simp at hres
                  | needInput =>
                    have hS3' : reduceFirst fuel lazy e2 stdin a = (o3, .needInput) := by
                      rw [hS3]; rfl
                    have key : ∀ σ
                        (hs : reduceFirst fuel lazy env σ [Node.apply f2 a2]
                          = (o1, .ok e1 σ nf false))
                        (hsi : reduceFirst fuel lazy e1 σ [Node.apply f2 a2] = (o2, .ok e2 σ ni false))
                        (hsa : reduceFirst fuel lazy e2 σ a = (o3, .needInput)),
                        reduceFirst (fuel+1) lazy env σ (Node.apply (.apply f2 a2) a :: rest)
                          = (o1 ++ o2 ++ o3, .needInput) := by
                      intro σ hs hsi hsa
                      simp [reduceFirst, hs, hsi, hsa]
                    constructor
                    · rw [key stdin hS1' hS2' hS3', key [] hbase1 hbase2 hbase3]; rfl
                    · intro o e s ns c hres
                      rw [key stdin hS1' hS2' hS3'] at hres
                      simp at hres
                  | fuelOut =>
                    have hS3' : reduceFirst fuel lazy e2 stdin a = (o3, .fuelOut) := by
                      rw [hS3]; rfl
                    have key : ∀ σ
                        (hs : reduceFirst fuel lazy env σ [Node.apply f2 a2]
                          = (o1, .ok e1 σ nf false))
                        (hsi : reduceFirst fuel lazy e1 σ [Node.apply f2 a2] = (o2, .ok e2 σ ni false))
                        (hsa : reduceFirst fuel lazy e2 σ a = (o3, .fuelOut)),
                        reduceFirst (fuel+1) lazy env σ (Node.apply (.apply f2 a2) a :: rest)
                          = (o1 ++ o2 ++ o3, .fuelOut) := by
                      intro σ hs hsi hsa
                      simp [reduceFirst, hs, hsi, hsa]
                    constructor
                    · rw [key stdin hS1' hS2' hS3', key [] hbase1 hbase2 hbase3]; rfl
                    · intro o e s ns c hres
                      rw [key stdin hS1' hS2' hS3'] at hres
                      simp at hres
                  | ok e3 s3 na c3 =>
                    have hS3' : reduceFirst fuel lazy e2 stdin a = (o3, .ok e3 stdin na c3) := by
                      rw [hS3]; rfl
                    obtain ⟨hB3e, hB3n, -⟩ := ihB3 o3 e3 stdin na c3 hS3'
                    obtain ⟨-, -, hs3z⟩ := ihB3z o3 e3 s3 na c3 hbase3
                    subst hs3z
                    cases c3 with
                    | true =>
                      have key : ∀ σ
                          (hs : reduceFirst fuel lazy env σ [Node.apply f2 a2]
                            = (o1, .ok e1 σ nf false))
                          (hsi : reduceFirst fuel lazy e1 σ [Node.apply f2 a2] = (o2, .ok e2 σ ni false))
                          (hsa : reduceFirst fuel lazy e2 σ a = (o3, .ok e3 σ na true)),
                          reduceFirst (fuel+1) lazy env σ (Node.apply (.apply f2 a2) a :: rest)
                            = (o1 ++ o2 ++ o3, .ok e3 σ
                                (Node.apply (.apply f2 a2) na :: rest) true) := by
                        intro σ hs hsi hsa
                        simp [reduceFirst, hs, hsi, hsa]
                      constructor
                      · rw [key stdin hS1' hS2' hS3', key [] hbase1 hbase2 hbase3]; rfl
                      · intro o e s ns c hres
                        rw [key stdin hS1' hS2' hS3'] at hres
                        simp only [Prod.mk.injEq, StepTail.ok.injEq] at hres
                        obtain ⟨-, he, hs, hn, -⟩ := hres
                        subst he; subst hs; subst hn
                        have hf2 : noInputN f2 = true ∧ noInputL a2 = true := by
                          simpa [noInputN, Bool.and_eq_true] using hfa.1
                        exact ⟨hB3e, by simp [noInputL, noInputN, hf2.1, hf2.2, hB3n, hrest], rfl⟩
                    | false =>
                      obtain ⟨ihA4, ihB4⟩ := ih lazy e3 stdin rest hB3e hrest
                      obtain ⟨-, ihB4z⟩ := ih lazy e3 [] rest hB3e hrest
                      rcases hbase4 : reduceFirst fuel lazy e3 [] rest with ⟨o4, t4⟩
                      have hS4 : reduceFirst fuel lazy e3 stdin rest = patchStdin stdin (o4, t4) := by
                        rw [ihA4, hbase4]
                      cases t4 with
                      | fatal m4 =>
                        have hS4' : reduceFirst fuel lazy e3 stdin rest = (o4, .fatal m4) := by
                          rw [hS4]; rfl
                        have key : ∀ σ
                            (hs : reduceFirst fuel lazy env σ [Node.apply f2 a2]
                              = (o1, .ok e1 σ nf false))
                            (hsi : reduceFirst fuel lazy e1 σ [Node.apply f2 a2] = (o2, .ok e2 σ ni false))
                            (hsa : reduceFirst fuel lazy e2 σ a = (o3, .ok e3 σ na false))
                            (hsr : reduceFirst fuel lazy e3 σ rest = (o4, .fatal m4)),
                            reduceFirst (fuel+1) lazy env σ (Node.apply (.apply f2 a2) a :: rest)
                              = (o1 ++ o2 ++ o3 ++ o4, .fatal m4) := by
                          intro σ hs hsi hsa hsr
                          simp [reduceFirst, hs, hsi, hsa, hsr]
                        constructor
                        · rw [key stdin hS1' hS2' hS3' hS4', key [] hbase1 hbase2 hbase3 hbase4]; rfl
                        · intro o e s ns c hres
                          rw [key stdin hS1' hS2' hS3' hS4'] at hres
                          simp at hres
                      | needInput =>
                        have hS4' : reduceFirst fuel lazy e3 stdin rest = (o4, .needInput) := by
                          rw [hS4]; rfl
                        have key : ∀ σ
                            (hs : reduceFirst fuel lazy env σ [Node.apply f2 a2]
                              = (o1, .ok e1 σ nf false))
                            (hsi : reduceFirst fuel lazy e1 σ [Node.apply f2 a2] = (o2, .ok e2 σ ni false))
                            (hsa : reduceFirst fuel lazy e2 σ a = (o3, .ok e3 σ na false))
                            (hsr : reduceFirst fuel lazy e3 σ rest = (o4, .needInput)),
                            reduceFirst (fuel+1) lazy env σ (Node.apply (.apply f2 a2) a :: rest)
                              = (o1 ++ o2 ++ o3 ++ o4, .needInput) := by
                          intro σ hs hsi hsa hsr
                          simp [reduceFirst, hs, hsi, hsa, hsr]
                        constructor
                        · rw [key stdin hS1' hS2' hS3' hS4', key [] hbase1 hbase2 hbase3 hbase4]; rfl
                        · intro o e s ns c hres
                          rw [key stdin hS1' hS2' hS3' hS4'] at hres
                          simp at hres
                      | fuelOut =>
                        have hS4' : reduceFirst fuel lazy e3 stdin rest = (o4, .fuelOut) := by
                          rw [hS4]; rfl
                        have key : ∀ σ
                            (hs : reduceFirst fuel lazy env σ [Node.apply f2 a2]
                              = (o1, .ok e1 σ nf false))
                            (hsi : reduceFirst fuel lazy e1 σ [Node.apply f2 a2] = (o2, .ok e2 σ ni false))
                            (hsa : reduceFirst fuel lazy e2 σ a = (o3, .ok e3 σ na false))
                            (hsr : reduceFirst fuel lazy e3 σ rest = (o4, .fuelOut)),
                            reduceFirst (fuel+1) lazy env σ (Node.apply (.apply f2 a2) a :: rest)
                              = (o1 ++ o2 ++ o3 ++ o4, .fuelOut) := by
                          intro σ hs hsi hsa hsr
                          simp [reduceFirst, hs, hsi, hsa, hsr]
                        constructor
                        · rw [key stdin hS1' hS2' hS3' hS4', key [] hbase1 hbase2 hbase3 hbase4]; rfl
                        · intro o e s ns c hres
                          rw [key stdin hS1' hS2' hS3' hS4'] at hres
                          simp at hres
                      | ok e4 s4 nr c4 =>
                        have hS4' : reduceFirst fuel lazy e3 stdin rest = (o4, .ok e4 stdin nr c4) := by
                          rw [hS4]; rfl
                        obtain ⟨hB4e, hB4n, -⟩ := ihB4 o4 e4 stdin nr c4 hS4'
                        obtain ⟨-, -, hs4z⟩ := ihB4z o4 e4 s4 nr c4 hbase4
                        subst hs4z
                        have key : ∀ σ
                            (hs : reduceFirst fuel lazy env σ [Node.apply f2 a2]
                              = (o1, .ok e1 σ nf false))
                            (hsi : reduceFirst fuel lazy e1 σ [Node.apply f2 a2] = (o2, .ok e2 σ ni false))
                            (hsa : reduceFirst fuel lazy e2 σ a = (o3, .ok e3 σ na false))
                            (hsr : reduceFirst fuel lazy e3 σ rest = (o4, .ok e4 σ nr c4)),
                            reduceFirst (fuel+1) lazy env σ (Node.apply (.apply f2 a2) a :: rest)
                              = (o1 ++ o2 ++ o3 ++ o4, .ok e4 σ
                                  (Node.apply (.apply f2 a2) a :: nr) c4) := by
                          intro σ hs hsi hsa hsr
                          simp [reduceFirst, hs, hsi, hsa, hsr]
                        constructor
                        · rw [key stdin hS1' hS2' hS3' hS4', key [] hbase1 hbase2 hbase3 hbase4]; rfl
                        · intro o e s ns c hres
                          rw [key stdin hS1' hS2' hS3' hS4'] at hres
                          simp only [Prod.mk.injEq, StepTail.ok.injEq] at hres
                          obtain ⟨-, he, hs, hn, -⟩ := hres
                          subst he; subst hs; subst hn
                          have hf2 : noInputN f2 = true ∧ noInputL a2 = true := by
                            simpa [noInputN, Bool.and_eq_true] using hfa.1
                          exact ⟨hB4e, by simp [noInputL, noInputN, hf2.1, hf2.2, hfa.2, hB4n], rfl⟩
            | literal l =>
              obtain ⟨ihA2, ihB2⟩ := ih lazy e1 stdin a hB1e hfa.2
              obtain ⟨-, ihB2z⟩ := ih lazy e1 [] a hB1e hfa.2
              rcases hbase2 : reduceFirst fuel lazy e1 [] a with ⟨o2, t2⟩
              have hS2 : reduceFirst fuel lazy e1 stdin a = patchStdin stdin (o2, t2) := by
                rw [ihA2, hbase2]
              cases t2 with
              | fatal m2 =>
                have hS2' : reduceFirst fuel lazy e1 stdin a = (o2, .fatal m2) := by
                  rw [hS2]; rfl
                have key : ∀ σ
                    (hs : reduceFirst fuel lazy env σ [Node.literal l]
                      = (o1, .ok e1 σ nf false))
                    (hsa : reduceFirst fuel lazy e1 σ a = (o2, .fatal m2)),
                    reduceFirst (fuel+1) lazy env σ (Node.apply (Node.literal l) a :: rest)
                      = (o1 ++ o2, .fatal m2) := by
                  intro σ hs hsa
                  simp [reduceFirst, hs, hsa]
                constructor
                · rw [key stdin hS1' hS2', key [] hbase1 hbase2]; rfl
                · intro o e s ns c hres
                  rw [key stdin hS1' hS2'] at hres
                  simp at hres
              | needInput =>
                have hS2' : reduceFirst fuel lazy e1 stdin a = (o2, .needInput) := by
                  rw [hS2]; rfl
                have key : ∀ σ
                    (hs : reduceFirst fuel lazy env σ [Node.literal l]
                      = (o1, .ok e1 σ nf false))
                    (hsa : reduceFirst fuel lazy e1 σ a = (o2, .needInput)),
                    reduceFirst (fuel+1) lazy env σ (Node.apply (Node.literal l) a :: rest)
                      = (o1 ++ o2, .needInput) := by
                  intro σ hs hsa
                  simp [reduceFirst, hs, hsa]
                constructor
                · rw [key stdin hS1' hS2', key [] hbase1 hbase2]; rfl
                · intro o e s ns c hres
                  rw [key stdin hS1' hS2'] at hres
                  simp at hres
              | fuelOut =>
                have hS2' : reduceFirst fuel lazy e1 stdin a = (o2, .fuelOut) := by
                  rw [hS2]; rfl
                have key : ∀ σ
                    (hs : reduceFirst fuel lazy env σ [Node.literal l]
                      = (o1, .ok e1 σ nf false))
                    (hsa : reduceFirst fuel lazy e1 σ a = (o2, .fuelOut)),
                    reduceFirst (fuel+1) lazy env σ (Node.apply (Node.literal l) a :: rest)
                      = (o1 ++ o2, .fuelOut) := by
                  intro σ hs hsa
                  simp [reduceFirst, hs, hsa]
                constructor
                · rw [key stdin hS1' hS2', key [] hbase1 hbase2]; rfl
                · intro o e s ns c hres
                  rw [key stdin hS1' hS2'] at hres
                  simp at hres
              | ok e2 s2 na c2 =>
                have hS2' : reduceFirst fuel lazy e1 stdin a = (o2, .ok e2 stdin na c2) := by
                  rw [hS2]; rfl
                obtain ⟨hB2e, hB2n, -⟩ := ihB2 o2 e2 stdin na c2 hS2'
                obtain ⟨-, -, hs2z⟩ := ihB2z o2 e2 s2 na c2 hbase2
                subst hs2z
                cases c2 with
                | true =>
                  have key : ∀ σ
                      (hs : reduceFirst fuel lazy env σ [Node.literal l]
                        = (o1, .ok e1 σ nf false))
                      (hsa : reduceFirst fuel lazy e1 σ a = (o2, .ok e2 σ na true)),
                      reduceFirst (fuel+1) lazy env σ (Node.apply (Node.literal l) a :: rest)
                        = (o1 ++ o2, .ok e2 σ (Node.apply (Node.literal l) na :: rest) true) := by
                    intro σ hs hsa
                    simp [reduceFirst, hs, hsa]
                  constructor
                  · rw [key stdin hS1' hS2', key [] hbase1 hbase2]; rfl
                  · intro o e s ns c hres
                    rw [key stdin hS1' hS2'] at hres
                    simp only [Prod.mk.injEq, StepTail.ok.injEq] at hres
                    obtain ⟨-, he, hs, hn, -⟩ := hres
                    subst he; subst hs; subst hn
                    exact ⟨hB2e, by simp [noInputL, noInputN, hfa.1, hB2n, hrest], rfl⟩
                | false =>
                  obtain ⟨ihA3, ihB3⟩ := ih lazy e2 stdin rest hB2e hrest
                  obtain ⟨-, ihB3z⟩ := ih lazy e2 [] rest hB2e hrest
                  rcases hbase3 : reduceFirst fuel lazy e2 [] rest with ⟨o3, t3⟩
                  have hS3 : reduceFirst fuel lazy e2 stdin rest = patchStdin stdin (o3, t3) := by
                    rw [ihA3, hbase3]
                  cases t3 with
                  | fatal m3 =>
                    have hS3' : reduceFirst fuel lazy e2 stdin rest = (o3, .fatal m3) := by
                      rw [hS3]; rfl
                    have key : ∀ σ
                        (hs : reduceFirst fuel lazy env σ [Node.literal l]
                          = (o1, .ok e1 σ nf false))
                        (hsa : reduceFirst fuel lazy e1 σ a = (o2, .ok e2 σ na false))
                        (hsr : reduceFirst fuel lazy e2 σ rest = (o3, .fatal m3)),
                        reduceFirst (fuel+1) lazy env σ (Node.apply (Node.literal l) a :: rest)
                          = (o1 ++ o2 ++ o3, .fatal m3) := by
                      intro σ hs hsa hsr
                      simp [reduceFirst, hs, hsa, hsr]
                    constructor
                    · rw [key stdin hS1' hS2' hS3', key [] hbase1 hbase2 hbase3]; rfl
                    · intro o e s ns c hres
                      rw [key stdin hS1' hS2' hS3'] at hres
                      simp at hres
                  | needInput =>
                    have hS3' : reduceFirst fuel lazy e2 stdin rest = (o3, .needInput) := by
                      rw [hS3]; rfl
                    have key : ∀ σ
                        (hs : reduceFirst fuel lazy env σ [Node.literal l]
                          = (o1, .ok e1 σ nf false))
                        (hsa : reduceFirst fuel lazy e1 σ a = (o2, .ok e2 σ na false))
                        (hsr : reduceFirst fuel lazy e2 σ rest = (o3, .needInput)),
                        reduceFirst (fuel+1) lazy env σ (Node.apply (Node.literal l) a :: rest)
                          = (o1 ++ o2 ++ o3, .needInput) := by
                      intro σ hs hsa hsr
                      simp [reduceFirst, hs, hsa, hsr]
                    constructor
                    · rw [key stdin hS1' hS2' hS3', key [] hbase1 hbase2 hbase3]; rfl
                    · intro o e s ns c hres
                      rw [key stdin hS1' hS2' hS3'] at hres
                      simp at hres
                  | fuelOut =>
                    have hS3' : reduceFirst fuel lazy e2 stdin rest = (o3, .fuelOut) := by
                      rw [hS3]; rfl
                    have key : ∀ σ
                        (hs : reduceFirst fuel lazy env σ [Node.literal l]
                          = (o1, .ok e1 σ nf false))
                        (hsa : reduceFirst fuel lazy e1 σ a = (o2, .ok e2 σ na false))
                        (hsr : reduceFirst fuel lazy e2 σ rest = (o3, .fuelOut)),
                        reduceFirst (fuel+1) lazy env σ (Node.apply (Node.literal l) a :: rest)
                          = (o1 ++ o2 ++ o3, .fuelOut) := by
                      intro σ hs hsa hsr
                      simp [reduceFirst, hs, hsa, hsr]
                    constructor
                    · rw [key stdin hS1' hS2' hS3', key [] hbase1 hbase2 hbase3]; rfl
                    · intro o e s ns c hres
                      rw [key stdin hS1' hS2' hS3'] at hres
                      simp at hres
                  | ok e3 s3 nr c3 =>
                    have hS3' : reduceFirst fuel lazy e2 stdin rest = (o3, .ok e3 stdin nr c3) := by
                      rw [hS3]; rfl
                    obtain ⟨hB3e, hB3n, -⟩ := ihB3 o3 e3 stdin nr c3 hS3'
                    obtain ⟨-, -, hs3z⟩ := ihB3z o3 e3 s3 nr c3 hbase3
                    subst hs3z
                    have key : ∀ σ
                        (hs : reduceFirst fuel lazy env σ [Node.literal l]
                          = (o1, .ok e1 σ nf false))
                        (hsa : reduceFirst fuel lazy e1 σ a = (o2, .ok e2 σ na false))
                        (hsr : reduceFirst fuel lazy e2 σ rest = (o3, .ok e3 σ nr c3)),
                        reduceFirst (fuel+1) lazy env σ (Node.apply (Node.literal l) a :: rest)
                          = (o1 ++ o2 ++ o3, .ok e3 σ (Node.apply (Node.literal l) a :: nr) c3) := by
                      intro σ hs hsa hsr
                      simp [reduceFirst, hs, hsa, hsr]
                    constructor
                    · rw [key stdin hS1' hS2' hS3', key [] hbase1 hbase2 hbase3]; rfl
                    · intro o e s ns c hres
                      rw [key stdin hS1' hS2' hS3'] at hres
                      simp only [Prod.mk.injEq, StepTail.ok.injEq] at hres
                      obtain ⟨-, he, hs, hn, -⟩ := hres
                      subst he; subst hs; subst hn
                      exact ⟨hB3e, by simp [noInputL, noInputN, hfa.1, hfa.2, hB3n], rfl⟩
            | macroDef nm mb =>
              obtain ⟨ihA2, ihB2⟩ := ih lazy e1 stdin a hB1e hfa.2
              obtain ⟨-, ihB2z⟩ := ih lazy e1 [] a hB1e hfa.2
              rcases hbase2 : reduceFirst fuel lazy e1 [] a with ⟨o2, t2⟩
              have hS2 : reduceFirst fuel lazy e1 stdin a = patchStdin stdin (o2, t2) := by
                rw [ihA2, hbase2]
              cases t2 with
              | fatal m2 =>
                have hS2' : reduceFirst fuel lazy e1 stdin a = (o2, .fatal m2) := by
                  rw [hS2]; rfl
                have key : ∀ σ
                    (hs : reduceFirst fuel lazy env σ [Node.macroDef nm mb]
                      = (o1, .ok e1 σ nf false))
                    (hsa : reduceFirst fuel lazy e1 σ a = (o2, .fatal m2)),
                    reduceFirst (fuel+1) lazy env σ (Node.apply (Node.macroDef nm mb) a :: rest)
                      = (o1 ++ o2, .fatal m2) := by
                  intro σ hs hsa
                  simp [reduceFirst, hs, hsa]
                constructor
                · rw [key stdin hS1' hS2', key [] hbase1 hbase2]; rfl
                · intro o e s ns c hres
                  rw [key stdin hS1' hS2'] at hres
                  simp at hres
              | needInput =>
                have hS2' : reduceFirst fuel lazy e1 stdin a = (o2, .needInput) := by
                  rw [hS2]; rfl
                have key : ∀ σ
                    (hs : reduceFirst fuel lazy env σ [Node.macroDef nm mb]
                      = (o1, .ok e1 σ nf false))
                    (hsa : reduceFirst fuel lazy e1 σ a = (o2, .needInput)),
                    reduceFirst (fuel+1) lazy env σ (Node.apply (Node.macroDef nm mb) a :: rest)
                      = (o1 ++ o2, .needInput) := by
                  intro σ hs hsa
                  simp [reduceFirst, hs, hsa]
                constructor
                · rw [key stdin hS1' hS2', key [] hbase1 hbase2]; rfl
                · intro o e s ns c hres
                  rw [key stdin hS1' hS2'] at hres
                  simp at hres
              | fuelOut =>
                have hS2' : reduceFirst fuel lazy e1 stdin a = (o2, .fuelOut) := by
                  rw [hS2]; rfl
                have key : ∀ σ
                    (hs : reduceFirst fuel lazy env σ [Node.macroDef nm mb]
                      = (o1, .ok e1 σ nf false))
                    (hsa : reduceFirst fuel lazy e1 σ a = (o2, .fuelOut)),
                    reduceFirst (fuel+1) lazy env σ (Node.apply (Node.macroDef nm mb) a :: rest)
                      = (o1 ++ o2, .fuelOut) := by
                  intro σ hs hsa
                  simp [reduceFirst, hs, hsa]
                constructor
                · rw [key stdin hS1' hS2', key [] hbase1 hbase2]; rfl
                · intro o e s ns c hres
                  rw [key stdin hS1' hS2'] at hres
                  simp at hres
              | ok e2 s2 na c2 =>
                have hS2' : reduceFirst fuel lazy e1 stdin a = (o2, .ok e2 stdin na c2) := by
                  rw [hS2]; rfl
                obtain ⟨hB2e, hB2n, -⟩ := ihB2 o2 e2 stdin na c2 hS2'
                obtain ⟨-, -, hs2z⟩ := ihB2z o2 e2 s2 na c2 hbase2
                subst hs2z
                cases c2 with
                | true =>
                  have key : ∀ σ
                      (hs : reduceFirst fuel lazy env σ [Node.macroDef nm mb]
                        = (o1, .ok e1 σ nf false))
                      (hsa : reduceFirst fuel lazy e1 σ a = (o2, .ok e2 σ na true)),
                      reduceFirst (fuel+1) lazy env σ (Node.apply (Node.macroDef nm mb) a :: rest)
                        = (o1 ++ o2, .ok e2 σ (Node.apply (Node.macroDef nm mb) na :: rest) true) := by
                    intro σ hs hsa
                    simp [reduceFirst, hs, hsa]
                  constructor
                  · rw [key stdin hS1' hS2', key [] hbase1 hbase2]; rfl
                  · intro o e s ns c hres
                    rw [key stdin hS1' hS2'] at hres
                    simp only [Prod.mk.injEq, StepTail.ok.injEq] at hres
                    obtain ⟨-, he, hs, hn, -⟩ := hres
                    subst he; subst hs; subst hn
                    have hmb : noInputL mb = true := by simpa [noInputN] using hfa.1
                    exact ⟨hB2e, by simp [noInputL, noInputN, hmb, hB2n, hrest], rfl⟩
                | false =>
                  obtain ⟨ihA3, ihB3⟩ := ih lazy e2 stdin rest hB2e hrest
                  obtain ⟨-, ihB3z⟩ := ih lazy e2 [] rest hB2e hrest
                  rcases hbase3 : reduceFirst fuel lazy e2 [] rest with ⟨o3, t3⟩
                  have hS3 : reduceFirst fuel lazy e2 stdin rest = patchStdin stdin (o3, t3) := by
                    rw [ihA3, hbase3]
                  cases t3 with
                  | fatal m3 =>
                    have hS3' : reduceFirst fuel lazy e2 stdin rest = (o3, .fatal m3) := by
                      rw [hS3]; rfl
                    have key : ∀ σ
                        (hs : reduceFirst fuel lazy env σ [Node.macroDef nm mb]
                          = (o1, .ok e1 σ nf false))
                        (hsa : reduceFirst fuel lazy e1 σ a = (o2, .ok e2 σ na false))
                        (hsr : reduceFirst fuel lazy e2 σ rest = (o3, .fatal m3)),
                        reduceFirst (fuel+1) lazy env σ (Node.apply (Node.macroDef nm mb) a :: rest)
                          = (o1 ++ o2 ++ o3, .fatal m3) := by
                      intro σ hs hsa hsr
                      simp [reduceFirst, hs, hsa, hsr]
                    constructor
                    · rw [key stdin hS1' hS2' hS3', key [] hbase1 hbase2 hbase3]; rfl
                    · intro o e s ns c hres
                      rw [key stdin hS1' hS2' hS3'] at hres
                      simp at hres
                  | needInput =>
                    have hS3' : reduceFirst fuel lazy e2 stdin rest = (o3, .needInput) := by
                      rw [hS3]; rfl
                    have key : ∀ σ
                        (hs : reduceFirst fuel lazy env σ [Node.macroDef nm mb]
                          = (o1, .ok e1 σ nf false))
                        (hsa : reduceFirst fuel lazy e1 σ a = (o2, .ok e2 σ na false))
                        (hsr : reduceFirst fuel lazy e2 σ rest = (o3, .needInput)),
                        reduceFirst (fuel+1) lazy env σ (Node.apply (Node.macroDef nm mb) a :: rest)
                          = (o1 ++ o2 ++ o3, .needInput) := by
                      intro σ hs hsa hsr
                      simp [reduceFirst, hs, hsa, hsr]
                    constructor
                    · rw [key stdin hS1' hS2' hS3', key [] hbase1 hbase2 hbase3]; rfl
                    · intro o e s ns c hres
                      rw [key stdin hS1' hS2' hS3'] at hres
                      simp at hres
                  | fuelOut =>
                    have hS3' : reduceFirst fuel lazy e2 stdin rest = (o3, .fuelOut) := by
                      rw [hS3]; rfl
                    have key : ∀ σ
                        (hs : reduceFirst fuel lazy env σ [Node.macroDef nm mb]
                          = (o1, .ok e1 σ nf false))
                        (hsa : reduceFirst fuel lazy e1 σ a = (o2, .ok e2 σ na false))
                        (hsr : reduceFirst fuel lazy e2 σ rest = (o3, .fuelOut)),
                        reduceFirst (fuel+1) lazy env σ (Node.apply (Node.macroDef nm mb) a :: rest)
                          = (o1 ++ o2 ++ o3, .fuelOut) := by
                      intro σ hs hsa hsr
                      simp [reduceFirst, hs, hsa, hsr]
                    constructor
                    · rw [key stdin hS1' hS2' hS3', key [] hbase1 hbase2 hbase3]; rfl
                    · intro o e s ns c hres
                      rw [key stdin hS1' hS2' hS3'] at hres
                      simp at hres
                  | ok e3 s3 nr c3 =>
                    have hS3' : reduceFirst fuel lazy e2 stdin rest = (o3, .ok e3 stdin nr c3) := by
                      rw [hS3]; rfl
                    obtain ⟨hB3e, hB3n, -⟩ := ihB3 o3 e3 stdin nr c3 hS3'
                    obtain ⟨-, -, hs3z⟩ := ihB3z o3 e3 s3 nr c3 hbase3
                    subst hs3z
                    have key : ∀ σ
                        (hs : reduceFirst fuel lazy env σ [Node.macroDef nm mb]
                          = (o1, .ok e1 σ nf false))
                        (hsa : reduceFirst fuel lazy e1 σ a = (o2, .ok e2 σ na false))
                        (hsr : reduceFirst fuel lazy e2 σ rest = (o3, .ok e3 σ nr c3)),
                        reduceFirst (fuel+1) lazy env σ (Node.apply (Node.macroDef nm mb) a :: rest)
                          = (o1 ++ o2 ++ o3, .ok e3 σ (Node.apply (Node.macroDef nm mb) a :: nr) c3) := by
                      intro σ hs hsa hsr
                      simp [reduceFirst, hs, hsa, hsr]
                    constructor
                    · rw [key stdin hS1' hS2' hS3', key [] hbase1 hbase2 hbase3]; rfl
                    · intro o e s ns c hres
                      rw [key stdin hS1' hS2' hS3'] at hres
                      simp only [Prod.mk.injEq, StepTail.ok.injEq] at hres
                      obtain ⟨-, he, hs, hn, -⟩ := hres
                      subst he; subst hs; subst hn
                      have hmb : noInputL mb = true := by simpa [noInputN] using hfa.1
                      exact ⟨hB3e, by simp [noInputL, noInputN, hmb, hfa.2, hB3n], rfl⟩

/-- Output of a bounded run of an `Input`-free state does not depend on the
standard-input stream (induction on the step budget over
`reduceFirst_noInput`). -/
theorem runEval_noInput (steps : Nat) : ∀ (fuel : Nat) (lazy : Bool) (env : Env)
    (stdin : List Str) (nodes : List Node),
    noInputEnv env = true → noInputL nodes = true →
    (runEval steps fuel lazy env stdin nodes).1
      = (runEval steps fuel lazy env [] nodes).1 := by
  induction steps with
  | zero => intro fuel lazy env stdin nodes _ _; rfl
  | succ steps ih =>
    intro fuel lazy env stdin nodes henv hns
    rcases hbase : reduceFirst fuel lazy env [] nodes with ⟨o, t⟩
    obtain ⟨hA, -⟩ := reduceFirst_noInput fuel lazy env stdin nodes henv hns
    obtain ⟨-, hBz⟩ := reduceFirst_noInput fuel lazy env [] nodes henv hns
    have hS : reduceFirst fuel lazy env stdin nodes = patchStdin stdin (o, t) := by
      rw [hA, hbase]
    cases t with
    | ok e s ns2 c =>
      obtain ⟨he, hns2, hsz⟩ := hBz o e s ns2 c hbase
      subst hsz
      have hS' : reduceFirst fuel lazy env stdin nodes = (o, .ok e stdin ns2 c) := by
        rw [hS]; rfl
      cases c with
      | true =>
        simp [runEval, hS', hbase, ih fuel lazy e stdin ns2 he hns2]
      | false =>
        simp [runEval, hS', hbase]
    | fatal m =>
      have hS' : reduceFirst fuel lazy env stdin nodes = (o, .fatal m) := by
        rw [hS]; rfl
      simp [runEval, hS', hbase]
    | needInput =>
      have hS' : reduceFirst fuel lazy env stdin nodes = (o, .needInput) := by
        rw [hS]; rfl
      simp [runEval, hS', hbase]
    | fuelOut =>
      have hS' : reduceFirst fuel lazy env stdin nodes = (o, .fuelOut) := by
        rw [hS]; rfl
      simp [runEval, hS', hbase]

/-- A successful parse of a token stream free of the token `Input` yields an
`Input`-free AST; the synthetic collapse token of `parsePooping` never spells
`Input` (it is empty or contains a space). -/
theorem parseAux_noInput (N : Nat) : ∀ (ts0 : List Str), ts0.length ≤ N →
    (∀ t ∈ ts0, ¬ t = inputT) →
    ((∀ ns r, parseExprsAux ts0 = .ok (ns, r) → noInputL ns = true)
    ∧ (∀ n r, parsePoopAux ts0 = .ok (n, r) → noInputN n = true)
    ∧ (∀ n r, parsePoopingAux ts0 = .ok (n, r) → noInputN n = true)) := by
  induction N with
  | zero =>
    intro ts0 hlen hin
    have h0 : ts0 = [] := List.length_eq_zero.mp (Nat.le_zero.mp hlen)
    subst h0
    refine ⟨?_, ?_, ?_⟩
    · intro ns r hp
      simp only [parseExprsAux, Except.ok.injEq, Prod.mk.injEq] at hp
      obtain ⟨h1, -⟩ := hp
      subst h1
      rfl
    · intro n r hp
      simp [parsePoopAux] at hp
    · intro n r hp
      simp [parsePoopingAux, parseExprsAux] at hp
  | succ N ih =>
    intro ts0 hlen hin
    have hE : ∀ ns r, parseExprsAux ts0 = .ok (ns, r) → noInputL ns = true := by
      intro ns r hp
      cases ts0 with
      | nil =>
        simp only [parseExprsAux, Except.ok.injEq, Prod.mk.injEq] at hp
        obtain ⟨h1, -⟩ := hp
        subst h1
        rfl
      | cons t ts =>
        rw [parseExprsAux.eq_def] at hp
        try simp only [] at hp
        by_cases h1 : (t = qooqT ∨ t = poopyT)
        · rw [if_pos (by simpa using h1)] at hp
          simp only [Except.ok.injEq, Prod.mk.injEq] at hp
          obtain ⟨h2, -⟩ := hp
          subst h2
          rfl
        · rw [if_neg (by simpa using h1)] at hp
          by_cases h2 : t = poopT
          · rw [if_pos (by simpa using h2)] at hp
            rcases hpp : parsePoopAux ts with e | ⟨node, rest, hr⟩
            · simp only [hpp] at hp
              simp at hp
            · simp only [hpp] at hp
              rcases hpe : parseExprsAux rest with e | ⟨sibs, fr, hf⟩
              · simp only [hpe] at hp
                simp at hp
              · simp only [hpe] at hp
                simp only [Except.ok.injEq, Prod.mk.injEq] at hp
                obtain ⟨h3, -⟩ := hp
                subst h3
                have hlts : ts.length ≤ N := by
                  simpa [Nat.succ_le_succ_iff] using hlen
                have hints : ∀ u ∈ ts, ¬ u = inputT := fun u hu =>
                  hin u (List.mem_cons_of_mem t hu)
                have hinrest : ∀ u ∈ rest, ¬ u = inputT := fun u hu =>
                  hints u (hr.subset hu)
                have hlrest : rest.length ≤ N :=
                  le_trans hr.length_le hlts
                have hN := (ih ts hlts hints).2.1 node ⟨rest, hr⟩ hpp
                have hS := (ih rest hlrest hinrest).1 sibs ⟨fr, hf⟩ hpe
                simp [noInputL, hN, hS]
          · rw [if_neg (by simpa using h2)] at hp
            by_cases h3 : t = poopingT
            · rw [if_pos (by simpa using h3)] at hp
              rcases hpp : parsePoopingAux ts with e | ⟨node, rest, hr⟩
              · simp only [hpp] at hp
                simp at hp
              · simp only [hpp] at hp
                rcases hpe : parseExprsAux rest with e | ⟨sibs, fr, hf⟩
                · simp only [hpe] at hp
                  simp at hp
                · simp only [hpe] at hp
                  simp only [Except.ok.injEq, Prod.mk.injEq] at hp
                  obtain ⟨h4, -⟩ := hp
                  subst h4
                  have hlts : ts.length ≤ N := by
                    simpa [Nat.succ_le_succ_iff] using hlen
                  have hints : ∀ u ∈ ts, ¬ u = inputT := fun u hu =>
                    hin u (List.mem_cons_of_mem t hu)
                  have hinrest : ∀ u ∈ rest, ¬ u = inputT := fun u hu =>
                    hints u (hr.subset hu)
                  have hlrest : rest.length ≤ N :=
                    le_trans hr.length_le hlts
                  have hN := (ih ts hlts hints).2.2 node ⟨rest, hr⟩ hpp
                  have hS := (ih rest hlrest hinrest).1 sibs ⟨fr, hf⟩ hpe
                  simp [noInputL, hN, hS]
            · rw [if_neg (by simpa using h3)] at hp
              rcases hpe : parseExprsAux ts with e | ⟨sibs, fr, hf⟩
              · simp only [hpe] at hp
                simp at hp
              · simp only [hpe] at hp
                simp only [Except.ok.injEq, Prod.mk.injEq] at hp
                obtain ⟨h4, -⟩ := hp
                subst h4
                have hlts : ts.length ≤ N := by
                  simpa [Nat.succ_le_succ_iff] using hlen
                have hints : ∀ u ∈ ts, ¬ u = inputT := fun u hu =>
                  hin u (List.mem_cons_of_mem t hu)
                have hS := (ih ts hlts hints).1 sibs ⟨fr, hf⟩ hpe
                have hT : noInputN (if isLiteral t then Node.literal t
                    else Node.token t) = true := by
                  split
                  · rfl
                  · simp [noInputN, hin t (List.mem_cons_self t ts)]
                simp [noInputL, hT, hS]
    have hP : ∀ n r, parsePoopAux ts0 = .ok (n, r) → noInputN n = true := by
      intro n r hp
      cases ts0 with
      | nil => simp [parsePoopAux] at hp
      | cons name ts =>
        rw [parsePoopAux.eq_def] at hp
        try simp only [] at hp
        cases ts with
        | nil => simp at hp
        | cons t0 rest =>
          try simp only [] at hp
          by_cases h1 : t0 = isT
          · rw [if_pos (by simpa using h1)] at hp
            by_cases h2 : (isVarName name = true ∨ name ∈ escapeNames)
            · rw [if_pos (by simpa using h2)] at hp
              simp at hp
            · rw [if_neg (by simpa using h2)] at hp
              rcases hpe : parseExprsAux rest with e | ⟨body, after, hb⟩
              · simp only [hpe] at hp
                simp at hp
              · simp only [hpe] at hp
                cases after with
                | nil => simp at hp
                | cons q rem =>
                  try simp only [] at hp
                  by_cases h3 : q = qooqT
                  · rw [if_pos (by simpa using h3)] at hp
                    simp only [Except.ok.injEq, Prod.mk.injEq] at hp
                    obtain ⟨h4, -⟩ := hp
                    subst h4
                    have hlrest : rest.length ≤ N := by
                      have := hlen
                      simp only [List.length_cons] at this
                      omega
                    have hinrest : ∀ u ∈ rest, ¬ u = inputT := fun u hu =>
                      hin u (List.mem_cons_of_mem name (List.mem_cons_of_mem t0 hu))
                    have hB := (ih rest hlrest hinrest).1 body ⟨q :: rem, hb⟩ hpe
                    simpa [noInputN] using hB
                  · rw [if_neg (by simpa using h3)] at hp
                    simp at hp
          · rw [if_neg (by simpa using h1)] at hp
            by_cases h2 : t0 = poopsT
            · rw [if_pos (by simpa using h2)] at hp
              by_cases h3 : isVarName name = true
              · rw [if_neg (by simpa using h3)] at hp
                rcases hpe : parseExprsAux rest with e | ⟨body, after, hb⟩
                · simp only [hpe] at hp
                  simp at hp
                · simp only [hpe] at hp
                  cases after with
                  | nil => simp at hp
                  | cons q rem =>
                    try simp only [] at hp
                    by_cases h4 : q = qooqT
                    · rw [if_pos (by simpa using h4)] at hp
                      simp only [Except.ok.injEq, Prod.mk.injEq] at hp
                      obtain ⟨h5, -⟩ := hp
                      subst h5
                      have hlrest : rest.length ≤ N := by
                        have := hlen
                        simp only [List.length_cons] at this
                        omega
                      have hinrest : ∀ u ∈ rest, ¬ u = inputT := fun u hu =>
                        hin u (List.mem_cons_of_mem name (List.mem_cons_of_mem t0 hu))
                      have hB := (ih rest hlrest hinrest).1 body ⟨q :: rem, hb⟩ hpe
                      simpa [noInputN] using hB
                    · rw [if_neg (by simpa using h4)] at hp
                      simp at hp
              · rw [if_pos (by simpa using h3)] at hp
                simp at hp
            · rw [if_neg (by simpa using h2)] at hp
              simp at hp
    have hPg : ∀ n r, parsePoopingAux ts0 = .ok (n, r) → noInputN n = true := by
      intro n r hp
      rw [parsePoopingAux.eq_def] at hp
      rcases hpe : parseExprsAux ts0 with e | ⟨funcNodes, afterFunc, h1⟩
      · simp only [hpe] at hp
        simp at hp
      · simp only [hpe] at hp
        cases afterFunc with
        | nil => simp at hp
        | cons ptok rest =>
          try simp only [] at hp
          by_cases hpt : ptok = poopyT
          · rw [if_pos (by simpa using hpt)] at hp
            rcases hpa : parseExprsAux rest with e | ⟨argNodes, afterArg, h2⟩
            · simp only [hpa] at hp
              simp at hp
            · simp only [hpa] at hp
              cases afterArg with
              | nil => simp at hp
              | cons q rem =>
                try simp only [] at hp
                by_cases hq : q = qooqT
                · rw [if_pos (by simpa using hq)] at hp
                  simp only [Except.ok.injEq, Prod.mk.injEq] at hp
                  obtain ⟨h3, -⟩ := hp
                  subst h3
                  have hF := hE funcNodes ⟨ptok :: rest, h1⟩ hpe
                  have hinrest : ∀ u ∈ rest, ¬ u = inputT := fun u hu =>
                    hin u (h1.subset (List.mem_cons_of_mem ptok hu))
                  have hlrest : rest.length ≤ N := by
                    have h1l := h1.length_le
                    simp only [List.length_cons] at h1l
                    omega
                  have hA := (ih rest hlrest hinrest).1 argNodes ⟨q :: rem, h2⟩ hpa
                  rcases funcNodes with - | ⟨x, - | ⟨y, zs⟩⟩
                  · simp [noInputN, hA, nodesToCodeString, inputT]
                  · have hx : noInputN x = true := by simpa [noInputL] using hF
                    simp [noInputN, hx, hA]
                  · have h2i : ¬ nodesToCodeString (x :: y :: zs) = inputT :=
                      codeStr_two_ne_input x y zs
                    simp [noInputN, hA, h2i]
                · rw [if_neg (by simpa using hq)] at hp
                  simp at hp
          · rw [if_neg (by simpa using hpt)] at hp
            simp at hp
    exact ⟨hE, hP, hPg⟩

/-- `parseProgram` on a source whose token stream avoids `Input` returns an
`Input`-free AST. -/
theorem parseProgram_noInput (P : Str) (ast : List Node)
    (hin : ∀ t ∈ tokenize P, ¬ t = inputT)
    (hp : parseProgram P = .ok ast) : noInputL ast = true := by
  rcases hpe : parseExprsAux (tokenize P) with e | ⟨ns, rest, hr⟩
  · rw [parseProgram, parseExprs, hpe] at hp
    simp [Except.map] at hp
  · rw [parseProgram, parseExprs, hpe] at hp
    by_cases hre : rest = []
    · subst hre
      simp [Except.map] at hp
      rcases hp with rfl
      exact (parseAux_noInput (tokenize P).length (tokenize P) le_rfl hin).1
        ns ⟨[], hr⟩ hpe
    · simp [Except.map, hre] at hp

/-! ## Claim C8: determinism of `Input`-free programs -/

/-- **C8.** A program text whose token stream contains no occurrence of the
token `Input` is deterministic: complete runs under the same strategy flag
and the same budgets, but with arbitrary (distinct) standard-input streams,
pass byte-identical sequences of strings to the write sink. -/
theorem input_free_deterministic (steps fuel : Nat) (lazy : Bool) (P : Str)
    (stdin1 stdin2 : List Str) (hin : inputT ∉ tokenize P) :
    (run steps fuel lazy stdin1 P).1 = (run steps fuel lazy stdin2 P).1 := by
  have hin' : ∀ t ∈ tokenize P, ¬ t = inputT := fun t ht heq => hin (heq ▸ ht)
  rcases hP : parseProgram P with e | ast
  · simp [run, hP]
  · have hast := parseProgram_noInput P ast hin' hP
    have henv : noInputEnv ([] : Env) = true := rfl
    simp only [run, hP]
    calc (runEval steps fuel lazy [] stdin1 ast).1
        = (runEval steps fuel lazy [] [] ast).1 :=
          runEval_noInput steps fuel lazy [] stdin1 ast henv hast
      _ = (runEval steps fuel lazy [] stdin2 ast).1 :=
          (runEval_noInput steps fuel lazy [] stdin2 ast henv hast).symm

/-- Witness for C8: the one-literal program `PoHiop` run against two
different input streams produces the same output. -/
theorem input_free_deterministic_witness :
    inputT ∉ tokenize ['P','o','H','i','o','p']
    ∧ (run 3 3 false [['x']] ['P','o','H','i','o','p']).1
        = (run 3 3 false [['y'],['z']] ['P','o','H','i','o','p']).1 :=
  ⟨by decide, input_free_deterministic 3 3 false ['P','o','H','i','o','p']
      [['x']] [['y'],['z']] (by decide)⟩

/-! ## Lexing lemmas for the round trip (claim C2) -/

/-- Prepending a whitespace-free run to the splitter input moves it into the
accumulator. -/
theorem splitWsAux_nonWs (r : List Char) : ∀ (s acc : List Char),
    (∀ c ∈ s, isWs c = false) →
    splitWsAux (s ++ r) acc = splitWsAux r (s.reverse ++ acc) := by
  intro s
  induction s with
  | nil => intro acc h; simp
  | cons c s ih =>
    intro acc h
    have hc : isWs c = false := h c (List.mem_cons_self c s)
    simp only [List.cons_append]
    rw [show splitWsAux (c :: (s ++ r)) acc = splitWsAux (s ++ r) (c :: acc) by
      simp [splitWsAux, hc]]
    rw [ih (c :: acc) (fun d hd => h d (List.mem_cons_of_mem c hd))]
    simp

/-- The whitespace splitter distributes over a single separating space. -/
theorem splitWsAux_space (y : List Char) : ∀ (x acc : List Char),
    splitWsAux (x ++ ' ' :: y) acc = splitWsAux x acc ++ splitWsAux y [] := by
  intro x
  induction x with
  | nil =>
    intro acc
    by_cases ha : acc = []
    · subst ha; simp [splitWsAux, isWs]
    · simp [splitWsAux, isWs, ha]
  | cons c x ih =>
    intro acc
    by_cases hc : isWs c = true
    · by_cases ha : acc = []
      · subst ha; simp [splitWsAux, hc, ih]
      · simp [splitWsAux, hc, ha, ih]
    · simp only [List.cons_append]
      rw [show splitWsAux (c :: (x ++ ' ' :: y)) acc
            = splitWsAux (x ++ ' ' :: y) (c :: acc) by
          simp [splitWsAux, hc]]
      rw [show splitWsAux (c :: x) acc = splitWsAux x (c :: acc) by
          simp [splitWsAux, hc]]
      exact ih (c :: acc)

/-- `splitWs` splits at a separating space. -/
theorem splitWs_space (x y : List Char) :
    splitWs (x ++ ' ' :: y) = splitWs x ++ splitWs y := by
  rw [splitWs, splitWs, splitWs, splitWsAux_space]

/-- A non-empty whitespace-free string is a single fragment. -/
theorem splitWs_clean (s : List Char) (hne : ¬ s = [])
    (hws : ∀ c ∈ s, isWs c = false) : splitWs s = [s] := by
  have h := splitWsAux_nonWs [] s [] hws
  simp only [List.append_nil] at h
  rw [splitWs, h]
  simp [splitWsAux, hne]

/-- `noCommentStart` descends through a cons. -/
theorem noCS_tail (a : Char) (l : List Char)
    (h : noCommentStart (a :: l) = true) : noCommentStart l = true := by
  cases l with
  | nil => rfl
  | cons b r =>
    simp only [noCommentStart, Bool.and_eq_true] at h
    exact h.2

/-- Joining two comment-free strings with a space keeps them comment-free. -/
theorem noCS_append_space (y : List Char) (hy : noCommentStart y = true) :
    ∀ x, noCommentStart x = true → noCommentStart (x ++ ' ' :: y) = true := by
  intro x
  induction x with
  | nil =>
    intro _
    cases y with
    | nil => simp [noCommentStart]
    | cons b r => simp [noCommentStart, hy]
  | cons a x ih =>
    intro hax
    cases x with
    | nil =>
      have h0 := ih rfl
      simp only [List.nil_append] at h0
      simp [noCommentStart, h0]
    | cons b x2 =>
      have hx : noCommentStart (b :: x2) = true := noCS_tail a _ hax
      have hpair : (!(a = '/' && (b = '/' || b = '*'))) = true := by
        simp only [noCommentStart, Bool.and_eq_true] at hax
        exact hax.1
      have h0 := ih hx
      simp only [List.cons_append] at h0 ⊢
      simp only [noCommentStart, Bool.and_eq_true] at h0 ⊢
      exact ⟨by simpa using hpair, h0⟩

/-- `noCommentStart` restricts to a left factor. -/
theorem noCS_append_left : ∀ x y : List Char,
    noCommentStart (x ++ y) = true → noCommentStart x = true
  | [], _, _ => rfl
  | [a], _, _ => rfl
  | a :: b :: x, y, h => by
    simp only [List.cons_append, noCommentStart, Bool.and_eq_true] at h ⊢
    exact ⟨h.1, noCS_append_left (b :: x) y h.2⟩

/-- `noCommentStart` restricts to a right factor. -/
theorem noCS_append_right : ∀ x y : List Char,
    noCommentStart (x ++ y) = true → noCommentStart y = true
  | [], _, h => h
  | a :: x, y, h => noCS_append_right x y (noCS_tail a (x ++ y) h)

/-- `noCommentStart` restricts to an infix. -/
theorem noCS_infix (t X : List Char) (hinf : t <:+: X)
    (h : noCommentStart X = true) : noCommentStart t = true := by
  obtain ⟨pre, suf, hX⟩ := hinf
  subst hX
  exact noCS_append_right pre t
    (noCS_append_left (pre ++ t) suf (by simpa [List.append_assoc] using h))

/-- A string with no slash at all starts no comment. -/
theorem noCS_of_noSlash : ∀ s : List Char, (∀ c ∈ s, ¬ c = '/') →
    noCommentStart s = true
  | [], _ => rfl
  | [_], _ => rfl
  | a :: b :: r, h => by
    simp only [noCommentStart, Bool.and_eq_true]
    refine ⟨?_, noCS_of_noSlash (b :: r) (fun c hc => h c (List.mem_cons_of_mem a hc))⟩
    simp [h a (List.mem_cons_self a (b :: r))]

/-- `unescapeStr` is the identity on backslash-free strings. -/
theorem unescapeStr_id : ∀ s : List Char, (∀ c ∈ s, ¬ c = '\\') →
    unescapeStr s = s
  | [], _ => rfl
  | c :: rest, h => by
    have hc : ¬ c = '\\' := h c (List.mem_cons_self c rest)
    have hstep : unescapeStr (c :: rest) = c :: unescapeStr rest := by
      cases rest with
      | nil => simp [unescapeStr]
      | cons d r => simp [unescapeStr, hc]
    rw [hstep, unescapeStr_id rest (fun d hd => h d (List.mem_cons_of_mem c hd))]

/-- Fragments of the splitter are infixes of the accumulated input. -/
theorem splitWsAux_infix : ∀ (s acc t : List Char), t ∈ splitWsAux s acc →
    t <:+: (acc.reverse ++ s)
  | [], acc, t, h => by
    by_cases ha : acc = []
    · simp [splitWsAux, ha] at h
    · simp only [splitWsAux, if_neg ha, List.mem_singleton] at h
      subst h
      exact ⟨[], [], by simp⟩
  | c :: s, acc, t, h => by
    by_cases hc : isWs c = true
    · simp only [splitWsAux, hc, if_pos rfl] at h
      by_cases ha : acc = []
      · rw [if_pos ha] at h
        have hrec := splitWsAux_infix s [] t h
        simp only [List.reverse_nil, List.nil_append] at hrec
        exact hrec.trans ((List.suffix_cons c s).trans
          (List.suffix_append acc.reverse (c :: s))).isInfix
      · rw [if_neg ha] at h
        rcases List.mem_cons.mp h with rfl | h2
        · exact ⟨[], c :: s, by simp⟩
        · have hrec := splitWsAux_infix s [] t h2
          simp only [List.reverse_nil, List.nil_append] at hrec
          exact hrec.trans ((List.suffix_cons c s).trans
            (List.suffix_append acc.reverse (c :: s))).isInfix
    · simp only [splitWsAux, hc] at h
      have hrec := splitWsAux_infix s (c :: acc) t h
      simpa [List.append_assoc] using hrec
  termination_by s _ _ _ => s.length
  decreasing_by all_goals (simp [List.length_cons]; try omega)

/-- Fragments of the splitter are never empty. -/
theorem splitWsAux_ne_nil : ∀ (s acc t : List Char), t ∈ splitWsAux s acc →
    ¬ t = []
  | [], acc, t, h => by
    by_cases ha : acc = []
    · simp [splitWsAux, ha] at h
    · simp only [splitWsAux, if_neg ha, List.mem_singleton] at h
      subst h
      simpa using ha
  | c :: s, acc, t, h => by
    by_cases hc : isWs c = true
    · simp only [splitWsAux, hc, if_pos rfl] at h
      by_cases ha : acc = []
      · rw [if_pos ha] at h
        exact splitWsAux_ne_nil s [] t h
      · rw [if_neg ha] at h
        rcases List.mem_cons.mp h with rfl | h2
        · simpa using ha
        · exact splitWsAux_ne_nil s [] t h2
    · simp only [splitWsAux, hc] at h
      exact splitWsAux_ne_nil s (c :: acc) t h
  termination_by s _ _ _ => s.length
  decreasing_by all_goals (simp [List.length_cons]; try omega)

/-- Fragments of the splitter hold no whitespace (given the accumulator
holds none). -/
theorem splitWsAux_nonWsMem : ∀ (s acc t : List Char),
    (∀ c ∈ acc, isWs c = false) → t ∈ splitWsAux s acc →
    ∀ c ∈ t, isWs c = false
  | [], acc, t, hacc, h => by
    by_cases ha : acc = []
    · simp [splitWsAux, ha] at h
    · simp only [splitWsAux, if_neg ha, List.mem_singleton] at h
      subst h
      intro c hc
      exact hacc c (List.mem_reverse.mp hc)
  | c :: s, acc, t, hacc, h => by
    by_cases hc : isWs c = true
    · simp only [splitWsAux, hc, if_pos rfl] at h
      by_cases ha : acc = []
      · rw [if_pos ha] at h
        exact splitWsAux_nonWsMem s [] t (by simp) h
      · rw [if_neg ha] at h
        rcases List.mem_cons.mp h with rfl | h2
        · intro d hd
          exact hacc d (List.mem_reverse.mp hd)
        · exact splitWsAux_nonWsMem s [] t (by simp) h2
    · simp only [splitWsAux, hc] at h
      refine splitWsAux_nonWsMem s (c :: acc) t ?_ h
      intro d hd
      rcases List.mem_cons.mp hd with rfl | hd2
      · simpa using hc
      · exact hacc d hd2
  termination_by s _ _ _ _ => s.length
  decreasing_by all_goals (simp [List.length_cons]; try omega)

/-- The output of the comment stripper never starts a comment: every `//` or
`/*` of the input is consumed. -/
theorem removeComments_noCS_all (N : Nat) : ∀ cs : List Char, cs.length ≤ N →
    noCommentStart (removeComments cs) = true
    ∧ noCommentStart (skipLine cs) = true
    ∧ noCommentStart (removeBlock cs) = true := by
  induction N with
  | zero =>
    intro cs hl
    have h0 : cs = [] := List.length_eq_zero.mp (Nat.le_zero.mp hl)
    subst h0
    exact ⟨rfl, rfl, rfl⟩
  | succ N ih =>
    intro cs hl
    cases cs with
    | nil => exact ⟨rfl, rfl, rfl⟩
    | cons c rest =>
      have hr : rest.length ≤ N := by
        simp only [List.length_cons] at hl
        omega
      refine ⟨?_, ?_, ?_⟩
      · by_cases hc : c = '/'
        · subst hc
          cases rest with
          | nil => decide
          | cons d rest2 =>
            have hr2 : rest2.length ≤ N := by
              simp only [List.length_cons] at hr
              omega
            by_cases hd : d = '/'
            · subst hd
              have hstep : removeComments ('/' :: '/' :: rest2) = skipLine rest2 := by
                simp [removeComments]
              rw [hstep]
              exact (ih rest2 hr2).2.1
            · by_cases hs : d = '*'
              · subst hs
                have hstep : removeComments ('/' :: '*' :: rest2)
                    = removeBlock rest2 := by
                  simp [removeComments]
                rw [hstep]
                exact (ih rest2 hr2).2.2
              · have hstep : removeComments ('/' :: d :: rest2)
                    = '/' :: removeComments (d :: rest2) := by
                  simp [removeComments, hd, hs]
                have hstep2 : removeComments (d :: rest2)
                    = d :: removeComments rest2 := by
                  cases rest2 with
                  | nil => simp [removeComments, hd]
                  | cons e r3 => simp [removeComments, hd]
                have htail := (ih (d :: rest2) hr).1
                rw [hstep2] at htail
                rw [hstep, hstep2]
                simp only [noCommentStart, Bool.and_eq_true]
                exact ⟨by simp [hd, hs], htail⟩
        · have hstep : removeComments (c :: rest) = c :: removeComments rest := by
            cases rest with
            | nil => simp [removeComments, hc]
            | cons d r => simp [removeComments, hc]
          rw [hstep]
          have htail := (ih rest hr).1
          cases hX : removeComments rest with
          | nil => simp [noCommentStart]
          | cons x xs =>
            rw [hX] at htail
            simp only [noCommentStart, Bool.and_eq_true]
            exact ⟨by simp [hc], htail⟩
      · by_cases hc : c = '\n'
        · subst hc
          have hstep : skipLine ('\n' :: rest) = '\n' :: removeComments rest := by
            simp [skipLine]
          rw [hstep]
          have htail := (ih rest hr).1
          cases hX : removeComments rest with
          | nil => simp [noCommentStart]
          | cons x xs =>
            rw [hX] at htail
            simp only [noCommentStart, Bool.and_eq_true]
            exact ⟨by simp, htail⟩
        · have hstep : skipLine (c :: rest) = skipLine rest := by
            simp [skipLine, hc]
          rw [hstep]
          exact (ih rest hr).2.1
      · by_cases hc : c = '*'
        · subst hc
          cases rest with
          | nil => decide
          | cons d rest2 =>
            have hr2 : rest2.length ≤ N := by
              simp only [List.length_cons] at hr
              omega
            by_cases hd : d = '/'
            · subst hd
              have hstep : removeBlock ('*' :: '/' :: rest2)
                  = ' ' :: removeComments rest2 := by
                simp [removeBlock]
              rw [hstep]
              have htail := (ih rest2 hr2).1
              cases hX : removeComments rest2 with
              | nil => simp [noCommentStart]
              | cons x xs =>
                rw [hX] at htail
                simp only [noCommentStart, Bool.and_eq_true]
                exact ⟨by simp, htail⟩
            · have hstep : removeBlock ('*' :: d :: rest2)
                  = removeBlock (d :: rest2) := by
                simp [removeBlock, hd]
              rw [hstep]
              exact (ih (d :: rest2) hr).2.2
        · have hstep : removeBlock (c :: rest) = removeBlock rest := by
            cases rest with
            | nil => simp [removeBlock]
            | cons d r => simp [removeBlock, hc]
          rw [hstep]
          exact (ih rest hr).2.2

/-- On comment-free input, the comment stripper is the identity. -/
theorem removeComments_id_all (N : Nat) : ∀ cs : List Char, cs.length ≤ N →
    noCommentStart cs = true → removeComments cs = cs := by
  induction N with
  | zero =>
    intro cs hl _
    have h0 : cs = [] := List.length_eq_zero.mp (Nat.le_zero.mp hl)
    subst h0
    rfl
  | succ N ih =>
    intro cs hl h
    cases cs with
    | nil => rfl
    | cons c rest =>
      have hr : rest.length ≤ N := by
        simp only [List.length_cons] at hl
        omega
      by_cases hc : c = '/'
      · subst hc
        cases rest with
        | nil => decide
        | cons d rest2 =>
          simp only [noCommentStart, Bool.and_eq_true] at h
          obtain ⟨hp, htl⟩ := h
          have hd : ¬ d = '/' ∧ ¬ d = '*' := by simpa using hp
          have hstep : removeComments ('/' :: d :: rest2)
              = '/' :: removeComments (d :: rest2) := by
            simp [removeComments, hd.1, hd.2]
          rw [hstep, ih (d :: rest2) hr htl]
      · have hstep : removeComments (c :: rest) = c :: removeComments rest := by
          cases rest with
          | nil => simp [removeComments, hc]
          | cons d r => simp [removeComments, hc]
        rw [hstep, ih rest hr (noCS_tail c rest h)]

/-- A character property holding on the input, on space and on newline is
preserved by the comment stripper. -/
theorem removeComments_pres (pr : Char → Prop) (hsp : pr ' ') (hnl : pr '\n')
    (N : Nat) : ∀ cs : List Char, cs.length ≤ N → (∀ c ∈ cs, pr c) →
    (∀ c ∈ removeComments cs, pr c)
    ∧ (∀ c ∈ skipLine cs, pr c)
    ∧ (∀ c ∈ removeBlock cs, pr c) := by
  induction N with
  | zero =>
    intro cs hl _
    have h0 : cs = [] := List.length_eq_zero.mp (Nat.le_zero.mp hl)
    subst h0
    refine ⟨?_, ?_, ?_⟩ <;> (intro c hc; simp [removeComments, skipLine, removeBlock] at hc)
  | succ N ih =>
    intro cs hl hcs
    cases cs with
    | nil =>
      refine ⟨?_, ?_, ?_⟩ <;> (intro c hc; simp [removeComments, skipLine, removeBlock] at hc)
    | cons c rest =>
      have hr : rest.length ≤ N := by
        simp only [List.length_cons] at hl
        omega
      have hrest : ∀ x ∈ rest, pr x := fun x hx => hcs x (List.mem_cons_of_mem c hx)
      refine ⟨?_, ?_, ?_⟩
      · by_cases hc : c = '/'
        · subst hc
          cases rest with
          | nil =>
            intro x hx
            simp only [show removeComments ['/'] = ['/'] by decide,
              List.mem_singleton] at hx
            subst hx
            exact hcs '/' (List.mem_cons_self _ _)
          | cons d rest2 =>
            have hr2 : rest2.length ≤ N := by
              simp only [List.length_cons] at hr
              omega
            have hrest2 : ∀ x ∈ rest2, pr x := fun x hx =>
              hrest x (List.mem_cons_of_mem d hx)
            by_cases hd : d = '/'
            · subst hd
              intro x hx
              rw [show removeComments ('/' :: '/' :: rest2) = skipLine rest2 by
                simp [removeComments]] at hx
              exact (ih rest2 hr2 hrest2).2.1 x hx
            · by_cases hs : d = '*'
              · subst hs
                intro x hx
                rw [show removeComments ('/' :: '*' :: rest2) = removeBlock rest2 by
                  simp [removeComments]] at hx
                exact (ih rest2 hr2 hrest2).2.2 x hx
              · intro x hx
                rw [show removeComments ('/' :: d :: rest2)
                    = '/' :: removeComments (d :: rest2) by
                  simp [removeComments, hd, hs]] at hx
                rcases List.mem_cons.mp hx with rfl | hx2
                · exact hcs _ (List.mem_cons_self _ _)
                · exact (ih (d :: rest2) hr hrest).1 x hx2
        · intro x hx
          rw [show removeComments (c :: rest) = c :: removeComments rest by
            cases rest with
            | nil => simp [removeComments, hc]
            | cons d r => simp [removeComments, hc]] at hx
          rcases List.mem_cons.mp hx with rfl | hx2
          · exact hcs _ (List.mem_cons_self _ _)
          · exact (ih rest hr hrest).1 x hx2
      · by_cases hc : c = '\n'
        · subst hc
          intro x hx
          rw [show skipLine ('\n' :: rest) = '\n' :: removeComments rest by
            simp [skipLine]] at hx
          rcases List.mem_cons.mp hx with rfl | hx2
          · exact hnl
          · exact (ih rest hr hrest).1 x hx2
        · intro x hx
          rw [show skipLine (c :: rest) = skipLine rest by simp [skipLine, hc]] at hx
          exact (ih rest hr hrest).2.1 x hx
      · by_cases hc : c = '*'
        · subst hc
          cases rest with
          | nil =>
            intro x hx
            simp [show removeBlock ['*'] = [] by decide] at hx
          | cons d rest2 =>
            have hr2 : rest2.length ≤ N := by
              simp only [List.length_cons] at hr
              omega
            have hrest2 : ∀ x ∈ rest2, pr x := fun x hx =>
              hrest x (List.mem_cons_of_mem d hx)
            by_cases hd : d = '/'
            · subst hd
              intro x hx
              rw [show removeBlock ('*' :: '/' :: rest2)
                  = ' ' :: removeComments rest2 by simp [removeBlock]] at hx
              rcases List.mem_cons.mp hx with rfl | hx2
              · exact hsp
              · exact (ih rest2 hr2 hrest2).1 x hx2
            · intro x hx
              rw [show removeBlock ('*' :: d :: rest2) = removeBlock (d :: rest2) by
                simp [removeBlock, hd]] at hx
              exact (ih (d :: rest2) hr hrest).2.2 x hx
        · intro x hx
          rw [show removeBlock (c :: rest) = removeBlock rest by
            cases rest with
            | nil => simp [removeBlock]
            | cons d r => simp [removeBlock, hc]] at hx
          exact (ih rest hr hrest).2.2 x hx

/-- Tokens of a backslash-free source are clean: non-empty, free of
whitespace and backslashes, and free of comment starts. -/
theorem tokenize_clean (P : Str) (hbs : ∀ c ∈ P, ¬ c = '\\') :
    ∀ t ∈ tokenize P, cleanTok t = true := by
  intro t ht
  rw [tokenize] at ht
  simp only [List.mem_map] at ht
  obtain ⟨frag, hfrag, rfl⟩ := ht
  rw [splitWs] at hfrag
  have hne : ¬ frag = [] := splitWsAux_ne_nil _ [] frag hfrag
  have hws : ∀ c ∈ frag, isWs c = false :=
    splitWsAux_nonWsMem _ [] frag (by simp) hfrag
  have hinf : frag <:+: removeComments P := by
    simpa using splitWsAux_infix (removeComments P) [] frag hfrag
  have hRC := (removeComments_pres (fun c => ¬ c = '\\') (by decide) (by decide)
    P.length P le_rfl hbs).1
  have hbsf : ∀ c ∈ frag, ¬ c = '\\' := fun c hc => hRC c (hinf.subset hc)
  have hid : unescapeStr frag = frag := unescapeStr_id frag hbsf
  rw [hid]
  have hnoCS : noCommentStart frag = true :=
    noCS_infix frag _ hinf
      (removeComments_noCS_all P.length P le_rfl).1
  rw [cleanTok]
  simp only [Bool.and_eq_true, List.all_eq_true]
  refine ⟨⟨by simpa using hne, ?_⟩, hnoCS⟩
  intro c hc
  simp only [Bool.and_eq_true, Bool.not_eq_true']
  exact ⟨hws c hc, by simpa using hbsf c hc⟩

/-- A character admissible in a variable name is neither whitespace, nor a
backslash, nor a slash. -/
theorem varName_char (c : Char) (h : (('a' ≤ c && c ≤ 'z') || c = '_') = true) :
    (isWs c = false ∧ ¬ c = '\\') ∧ ¬ c = '/' := by
  simp only [Bool.or_eq_true, Bool.and_eq_true] at h
  rcases h with ⟨h1, h2⟩ | hu
  · have h1' : 'a' ≤ c := by simpa using h1
    refine ⟨⟨?_, ?_⟩, ?_⟩
    · cases hw : isWs c with
      | false => rfl
      | true =>
        rw [isWs] at hw
        simp only [Bool.or_eq_true, decide_eq_true_eq] at hw
        rcases hw with ((rfl | rfl) | rfl) | rfl
        · exact absurd h1' (by decide)
        · exact absurd h1' (by decide)
        · exact absurd h1' (by decide)
        · exact absurd h1' (by decide)
    · rintro rfl
      exact absurd h1' (by decide)
    · rintro rfl
      exact absurd h1' (by decide)
  · have hu' : c = '_' := by simpa using hu
    subst hu'
    exact ⟨⟨by decide, by decide⟩, by decide⟩

/-- A variable name (lowercase letters and underscores) is a clean token. -/
theorem varName_clean (p : Str) (h : isVarName p = true) : cleanTok p = true := by
  rw [isVarName] at h
  simp only [Bool.and_eq_true, List.all_eq_true] at h
  obtain ⟨hne, hch⟩ := h
  have hns : ∀ c ∈ p, ¬ c = '/' := fun c hc => (varName_char c (hch c hc)).2
  rw [cleanTok]
  simp only [Bool.and_eq_true, List.all_eq_true]
  refine ⟨⟨by simpa using hne, ?_⟩, noCS_of_noSlash p hns⟩
  intro c hc
  obtain ⟨⟨hw, hb⟩, -⟩ := varName_char c (hch c hc)
  simp only [Bool.and_eq_true, Bool.not_eq_true']
  exact ⟨hw, by simpa using hb⟩

/-- Unpacking of `cleanTok`. -/
theorem cleanTok_spec (s : Str) (h : cleanTok s = true) :
    ¬ s = [] ∧ (∀ c ∈ s, isWs c = false ∧ ¬ c = '\\')
    ∧ noCommentStart s = true := by
  rw [cleanTok] at h
  simp only [Bool.and_eq_true, List.all_eq_true] at h
  obtain ⟨⟨h1, h2⟩, h3⟩ := h
  refine ⟨by simpa using h1, fun c hc => ?_, h3⟩
  have hcc := h2 c hc
  simp only [Bool.and_eq_true, Bool.not_eq_true'] at hcc
  exact ⟨hcc.1, by simpa using hcc.2⟩

/-- A character property holding on space distributes over a space join. -/
theorem mem_sep (P : Char → Prop) (hsp : P ' ') (x y : List Char)
    (hx : ∀ c ∈ x, P c) (hy : ∀ c ∈ y, P c) : ∀ c ∈ x ++ ' ' :: y, P c := by
  intro c hc
  rcases List.mem_append.mp hc with h | h
  · exact hx c h
  · rcases List.mem_cons.mp h with rfl | h2
    · exact hsp
    · exact hy c h2

/-- The token stream of a well-formed node is non-empty. -/
theorem nodeToks_ne_nil (n : Node) (h : WFN n) : ¬ nodeToks n = [] := by
  cases h with
  | token s hclean hlit hq hpy hp hpg =>
    obtain ⟨hne, hchars, -⟩ := cleanTok_spec s hclean
    rw [show nodeToks (.token s) = splitWs s from rfl,
      splitWs_clean s hne (fun c hc => (hchars c hc).1)]
    simp
  | literal s hclean hlit => simp [nodeToks]
  | func p b hp hb => simp [nodeToks]
  | macroDef nm b h1 h2 h3 hb => simp [nodeToks]
  | apply f a hf ha => simp [nodeToks]

/-- The rendering of a well-formed AST is backslash-free, comment-free, and
re-splits into exactly its token stream. -/
theorem render_clean (N : Nat) :
    (∀ n, WFN n → (toCodeString n).length ≤ N →
      (∀ c ∈ toCodeString n, ¬ c = '\\')
      ∧ noCommentStart (toCodeString n) = true
      ∧ splitWs (toCodeString n) = nodeToks n)
    ∧ (∀ ns, WFL ns → (nodesToCodeString ns).length ≤ N →
      (∀ c ∈ nodesToCodeString ns, ¬ c = '\\')
      ∧ noCommentStart (nodesToCodeString ns) = true
      ∧ splitWs (nodesToCodeString ns) = listToks ns) := by
  induction N with
  | zero =>
    constructor
    · intro n hwf hlen
      exfalso
      cases hwf with
      | token s hclean hlit hq hpy hp hpg =>
        obtain ⟨hne, -, -⟩ := cleanTok_spec s hclean
        exact hne (List.length_eq_zero.mp (Nat.le_zero.mp hlen))
      | literal s hclean hlit =>
        obtain ⟨hne, -, -⟩ := cleanTok_spec s hclean
        exact hne (List.length_eq_zero.mp (Nat.le_zero.mp hlen))
      | func p b hp hb => simp [toCodeString] at hlen
      | macroDef nm b h1 h2 h3 hb => simp [toCodeString] at hlen
      | apply f a hf ha => simp [toCodeString] at hlen
    · intro ns hwl hlen
      cases hwl with
      | nil =>
        refine ⟨?_, rfl, ?_⟩
        · intro c hc
          simp [nodesToCodeString] at hc
        · rfl
      | cons n ns2 hn hns2 =>
        exfalso
        cases hns2 with
        | nil =>
          cases hn with
          | token s hclean hlit hq hpy hp hpg =>
            obtain ⟨hne, -, -⟩ := cleanTok_spec s hclean
            exact hne (List.length_eq_zero.mp (Nat.le_zero.mp hlen))
          | literal s hclean hlit =>
            obtain ⟨hne, -, -⟩ := cleanTok_spec s hclean
            exact hne (List.length_eq_zero.mp (Nat.le_zero.mp hlen))
          | func p b hp hb => simp [nodesToCodeString, toCodeString] at hlen
          | macroDef nm b h1 h2 h3 hb =>
            simp [nodesToCodeString, toCodeString] at hlen
          | apply f a hf ha => simp [nodesToCodeString, toCodeString] at hlen
        | cons m ns3 hm hns3 =>
          rw [show nodesToCodeString (n :: m :: ns3)
              = toCodeString n ++ ' ' :: nodesToCodeString (m :: ns3) from rfl] at hlen
          simp only [List.length_append, List.length_cons] at hlen
          omega
  | succ N ih =>
    have hNode : ∀ n, WFN n → (toCodeString n).length ≤ N + 1 →
        (∀ c ∈ toCodeString n, ¬ c = '\\')
        ∧ noCommentStart (toCodeString n) = true
        ∧ splitWs (toCodeString n) = nodeToks n := by
      intro n hwf hlen
      cases hwf with
      | token s hclean hlit hq hpy hp hpg =>
        obtain ⟨hne, hchars, hnoCS⟩ := cleanTok_spec s hclean
        exact ⟨fun c hc => (hchars c hc).2, hnoCS, rfl⟩
      | literal s hclean hlit =>
        obtain ⟨hne, hchars, hnoCS⟩ := cleanTok_spec s hclean
        exact ⟨fun c hc => (hchars c hc).2, hnoCS,
          splitWs_clean s hne (fun c hc => (hchars c hc).1)⟩
      | func p b hp hb =>
        have heq : toCodeString (.func p b)
            = poopT ++ ' ' :: (p ++ ' ' :: (poopsT ++ ' '
                :: (nodesToCodeString b ++ ' ' :: qooqT))) := by
          simp [toCodeString, poopT, poopsT, qooqT]
        have hlb : (nodesToCodeString b).length ≤ N := by
          rw [heq] at hlen
          simp only [List.length_append, List.length_cons, poopT, poopsT, qooqT,
            List.length_nil] at hlen
          omega
        obtain ⟨hbs, hcs, hsp⟩ := ih.2 b hb hlb
        obtain ⟨hpne, hpchars, hpnoCS⟩ := cleanTok_spec p (varName_clean p hp)
        rw [heq]
        refine ⟨?_, ?_, ?_⟩
        · exact mem_sep _ (by decide) _ _ (by decide)
            (mem_sep _ (by decide) _ _ (fun c hc => (hpchars c hc).2)
              (mem_sep _ (by decide) _ _ (by decide)
                (mem_sep _ (by decide) _ _ hbs (by decide))))
        · exact noCS_append_space _
            (noCS_append_space _
              (noCS_append_space _
                (noCS_append_space _ (by decide) _ hcs) _ (by decide)) _ hpnoCS)
            _ (by decide)
        · rw [splitWs_space, splitWs_space, splitWs_space, splitWs_space]
          rw [splitWs_clean p hpne (fun c hc => (hpchars c hc).1), hsp]
          rw [show splitWs poopT = [poopT] from by decide,
            show splitWs poopsT = [poopsT] from by decide,
            show splitWs qooqT = [qooqT] from by decide]
          simp [nodeToks]
      | macroDef nm b hclean hnv hesc hb =>
        have heq : toCodeString (.macroDef nm b)
            = poopT ++ ' ' :: (nm ++ ' ' :: (isT ++ ' '
                :: (nodesToCodeString b ++ ' ' :: qooqT))) := by
          simp [toCodeString, poopT, isT, qooqT]
        have hlb : (nodesToCodeString b).length ≤ N := by
          rw [heq] at hlen
          simp only [List.length_append, List.length_cons, poopT, isT, qooqT,
            List.length_nil] at hlen
          omega
        obtain ⟨hbs, hcs, hsp⟩ := ih.2 b hb hlb
        obtain ⟨hpne, hpchars, hpnoCS⟩ := cleanTok_spec nm hclean
        rw [heq]
        refine ⟨?_, ?_, ?_⟩
        · exact mem_sep _ (by decide) _ _ (by decide)
            (mem_sep _ (by decide) _ _ (fun c hc => (hpchars c hc).2)
              (mem_sep _ (by decide) _ _ (by decide)
                (mem_sep _ (by decide) _ _ hbs (by decide))))
        · exact noCS_append_space _
            (noCS_append_space _
              (noCS_append_space _
                (noCS_append_space _ (by decide) _ hcs) _ (by decide)) _ hpnoCS)
            _ (by decide)
        · rw [splitWs_space, splitWs_space, splitWs_space, splitWs_space]
          rw [splitWs_clean nm hpne (fun c hc => (hpchars c hc).1), hsp]
          rw [show splitWs poopT = [poopT] from by decide,
            show splitWs isT = [isT] from by decide,
            show splitWs qooqT = [qooqT] from by decide]
          simp [nodeToks]
      | apply f a hf ha =>
        have heq : toCodeString (.apply f a)
            = poopingT ++ ' ' :: (toCodeString f ++ ' ' :: (poopyT ++ ' '
                :: (nodesToCodeString a ++ ' ' :: qooqT))) := by
          simp [toCodeString, poopingT, poopyT, qooqT]
        have hla : (nodesToCodeString a).length ≤ N := by
          rw [heq] at hlen
          simp only [List.length_append, List.length_cons, poopingT, poopyT, qooqT,
            List.length_nil] at hlen
          omega
        have hlf : (toCodeString f).length ≤ N := by
          rw [heq] at hlen
          simp only [List.length_append, List.length_cons, poopingT, poopyT, qooqT,
            List.length_nil] at hlen
          omega
        obtain ⟨habs, hacs, hasp⟩ := ih.2 a ha hla
        have hfFacts : (∀ c ∈ toCodeString f, ¬ c = '\\')
            ∧ noCommentStart (toCodeString f) = true
            ∧ splitWs (toCodeString f) = nodeToks f := by
          cases hf with
          | single f hfw => exact ih.1 f hfw hlf
          | collapse inner hinner hone =>
            have hlfi : (nodesToCodeString inner).length ≤ N := hlf
            obtain ⟨h1, h2, h3⟩ := ih.2 inner hinner hlfi
            exact ⟨h1, h2, rfl⟩
        obtain ⟨hfbs, hfcs, hfsp⟩ := hfFacts
        rw [heq]
        refine ⟨?_, ?_, ?_⟩
        · exact mem_sep _ (by decide) _ _ (by decide)
            (mem_sep _ (by decide) _ _ hfbs
              (mem_sep _ (by decide) _ _ (by decide)
                (mem_sep _ (by decide) _ _ habs (by decide))))
        · exact noCS_append_space _
            (noCS_append_space _
              (noCS_append_space _
                (noCS_append_space _ (by decide) _ hacs) _ (by decide)) _ hfcs)
            _ (by decide)
        · rw [splitWs_space, splitWs_space, splitWs_space, splitWs_space]
          rw [hfsp, hasp]
          rw [show splitWs poopingT = [poopingT] from by decide,
            show splitWs poopyT = [poopyT] from by decide,
            show splitWs qooqT = [qooqT] from by decide]
          simp [nodeToks]
    refine ⟨hNode, ?_⟩
    intro ns hwl hlen
    cases hwl with
    | nil =>
      refine ⟨?_, rfl, ?_⟩
      · intro c hc
        simp [nodesToCodeString] at hc
      · rfl
    | cons n ns2 hn hns2 =>
      cases hns2 with
      | nil =>
        have heq : nodesToCodeString [n] = toCodeString n := rfl
        obtain ⟨h1, h2, h3⟩ := hNode n hn (by rw [heq] at hlen; exact hlen)
        rw [heq]
        refine ⟨h1, h2, ?_⟩
        rw [h3]
        simp [listToks]
      | cons m ns3 hm hns3 =>
        have heq : nodesToCodeString (n :: m :: ns3)
            = toCodeString n ++ ' ' :: nodesToCodeString (m :: ns3) := rfl
        have hln : (toCodeString n).length ≤ N := by
          rw [heq] at hlen
          simp only [List.length_append, List.length_cons] at hlen
          omega
        have hlt : (nodesToCodeString (m :: ns3)).length ≤ N := by
          rw [heq] at hlen
          simp only [List.length_append, List.length_cons] at hlen
          omega
        obtain ⟨h1, h2, h3⟩ := hNode n hn (le_trans hln (Nat.le_succ N))
        obtain ⟨g1, g2, g3⟩ := ih.2 (m :: ns3) (WFL.cons m ns3 hm hns3) hlt
        rw [heq]
        refine ⟨mem_sep _ (by decide) _ _ h1 g1,
          noCS_append_space _ g2 _ h2, ?_⟩
        rw [splitWs_space, h3, g3]
        simp [listToks]

/-- Parsing the token stream of a well-formed AST, followed by an admissible
continuation, reproduces exactly that AST and leaves the continuation. -/
theorem parse_render (N : Nat) : ∀ ns : List Node, WFL ns →
    (listToks ns).length ≤ N → ∀ ts : List Str, termOK ts →
    parseExprs (listToks ns ++ ts) = .ok (ns, ts) := by
  induction N with
  | zero =>
    intro ns hwl hlen ts hts
    cases hwl with
    | cons n ns2 hn hns2 =>
      exfalso
      have hne := nodeToks_ne_nil n hn
      have h0 : (listToks (n :: ns2)).length
          = (nodeToks n).length + (listToks ns2).length := by
        simp [listToks]
      rw [h0] at hlen
      simp only [Nat.le_zero] at hlen
      exact hne (List.length_eq_zero.mp (by omega))
    | nil =>
      rcases hts with rfl | ⟨t, ts2, rfl, hterm⟩
      · have h0 : listToks ([] : List Node) = [] := by simp [listToks]
        rw [h0, show ([] : List Str) ++ [] = [] from rfl, parseExprs,
          parseExprsAux.eq_def]
        rfl
      · have h0 : listToks ([] : List Node) = [] := by simp [listToks]
        rw [h0, List.nil_append, parseExprs, parseExprsAux.eq_def]
        try dsimp only
        rw [if_pos (by rcases hterm with rfl | rfl <;> simp)]
        simp [Except.map]
  | succ N ih =>
    intro ns hwl hlen ts hts
    cases hwl with
    | nil =>
      rcases hts with rfl | ⟨t, ts2, rfl, hterm⟩
      · have h0 : listToks ([] : List Node) = [] := by simp [listToks]
        rw [h0, show ([] : List Str) ++ [] = [] from rfl, parseExprs,
          parseExprsAux.eq_def]
        rfl
      · have h0 : listToks ([] : List Node) = [] := by simp [listToks]
        rw [h0, List.nil_append, parseExprs, parseExprsAux.eq_def]
        try dsimp only
        rw [if_pos (by rcases hterm with rfl | rfl <;> simp)]
        simp [Except.map]
    | cons n ns2 hn hns2 =>
      cases hn with
      | token s hclean hlit hq hpy hpt hpg =>
        obtain ⟨hne, hchars, -⟩ := cleanTok_spec s hclean
        have hsplit : splitWs s = [s] :=
          splitWs_clean s hne (fun c hc => (hchars c hc).1)
        have hstream : listToks (Node.token s :: ns2) ++ ts
            = s :: (listToks ns2 ++ ts) := by
          simp [listToks, nodeToks, hsplit, List.append_assoc]
        have hl2 : (listToks ns2).length ≤ N := by
          simp only [listToks, nodeToks, hsplit, List.length_append,
            List.length_cons, List.length_nil] at hlen ⊢
          omega
        have hAux2 : parseExprsAux (listToks ns2 ++ ts)
            = .ok (ns2, ⟨ts, ⟨listToks ns2, by simp⟩⟩) := by
          have hIHx := ih ns2 hns2 hl2 ts hts
          rw [parseExprs] at hIHx
          rcases hx0 : parseExprsAux (listToks ns2 ++ ts) with e0 | ⟨got0, r0, hr0⟩
          · rw [hx0] at hIHx
            simp [Except.map] at hIHx
          · rw [hx0] at hIHx
            simp only [Except.map, Except.ok.injEq, Prod.mk.injEq] at hIHx
            obtain ⟨rfl, rfl⟩ := hIHx
            rfl
        rw [hstream, parseExprs, parseExprsAux.eq_def]
        try dsimp only
        rw [if_neg (by simp [hq, hpy]), if_neg hpt, if_neg hpg]
        simp only [hAux2]
        simp [Except.map, hlit]
      | literal s hclean hlit =>
        obtain ⟨hne, hchars, -⟩ := cleanTok_spec s hclean
        have hsplit : splitWs s = [s] :=
          splitWs_clean s hne (fun c hc => (hchars c hc).1)
        have hres : s ∉ reservedWords := by
          rw [isLiteral] at hlit
          by_contra hmem
          rw [if_pos hmem] at hlit
          simp at hlit
        have hq : ¬ s = qooqT := fun h => hres (by rw [h]; simp [reservedWords, qooqT])
        have hpy : ¬ s = poopyT := fun h => hres (by rw [h]; simp [reservedWords, poopyT])
        have hpt : ¬ s = poopT := fun h => hres (by rw [h]; simp [reservedWords, poopT])
        have hpg : ¬ s = poopingT := fun h =>
          hres (by rw [h]; simp [reservedWords, poopingT])
        have hstream : listToks (Node.literal s :: ns2) ++ ts
            = s :: (listToks ns2 ++ ts) := by
          simp [listToks, nodeToks, hsplit, List.append_assoc]
        have hl2 : (listToks ns2).length ≤ N := by
          simp only [listToks, nodeToks, hsplit, List.length_append,
            List.length_cons, List.length_nil] at hlen ⊢
          omega
        have hAux2 : parseExprsAux (listToks ns2 ++ ts)
            = .ok (ns2, ⟨ts, ⟨listToks ns2, by simp⟩⟩) := by
          have hIHx := ih ns2 hns2 hl2 ts hts
          rw [parseExprs] at hIHx
          rcases hx0 : parseExprsAux (listToks ns2 ++ ts) with e0 | ⟨got0, r0, hr0⟩
          · rw [hx0] at hIHx
            simp [Except.map] at hIHx
          · rw [hx0] at hIHx
            simp only [Except.map, Except.ok.injEq, Prod.mk.injEq] at hIHx
            obtain ⟨rfl, rfl⟩ := hIHx
            rfl
        rw [hstream, parseExprs, parseExprsAux.eq_def]
        try dsimp only
        rw [if_neg (by simp [hq, hpy]), if_neg hpt, if_neg hpg]
        simp only [hAux2]
        simp [Except.map, hlit]
      | func p b hp hb =>
        have hstream : listToks (Node.func p b :: ns2) ++ ts
            = poopT :: p :: poopsT :: (listToks b ++ (qooqT :: (listToks ns2 ++ ts))) := by
          simp [listToks, nodeToks, List.append_assoc]
        have hlb : (listToks b).length ≤ N := by
          simp only [listToks, nodeToks, List.length_append,
            List.length_cons, List.length_nil] at hlen ⊢
          omega
        have hl2 : (listToks ns2).length ≤ N := by
          simp only [listToks, nodeToks, List.length_append,
            List.length_cons, List.length_nil] at hlen ⊢
          omega
        have hAuxB : parseExprsAux (listToks b ++ (qooqT :: (listToks ns2 ++ ts)))
            = .ok (b, ⟨qooqT :: (listToks ns2 ++ ts), ⟨listToks b, by simp⟩⟩) := by
          have hIHx := ih b hb hlb (qooqT :: (listToks ns2 ++ ts)) (Or.inr ⟨qooqT, listToks ns2 ++ ts, rfl, Or.inl rfl⟩)
          rw [parseExprs] at hIHx
          rcases hx0 : parseExprsAux (listToks b ++ (qooqT :: (listToks ns2 ++ ts))) with e0 | ⟨got0, r0, hr0⟩
          · rw [hx0] at hIHx
            simp [Except.map] at hIHx
          · rw [hx0] at hIHx
            simp only [Except.map, Except.ok.injEq, Prod.mk.injEq] at hIHx
            obtain ⟨rfl, rfl⟩ := hIHx
            rfl
        have hAux2 : parseExprsAux (listToks ns2 ++ ts)
            = .ok (ns2, ⟨ts, ⟨listToks ns2, by simp⟩⟩) := by
          have hIHx := ih ns2 hns2 hl2 ts hts
          rw [parseExprs] at hIHx
          rcases hx0 : parseExprsAux (listToks ns2 ++ ts) with e0 | ⟨got0, r0, hr0⟩
          · rw [hx0] at hIHx
            simp [Except.map] at hIHx
          · rw [hx0] at hIHx
            simp only [Except.map, Except.ok.injEq, Prod.mk.injEq] at hIHx
            obtain ⟨rfl, rfl⟩ := hIHx
            rfl
        have heval : parsePoopAux (p :: poopsT :: (listToks b ++ (qooqT :: (listToks ns2 ++ ts))))
            = .ok (Node.func p b,
                ⟨listToks ns2 ++ ts, ⟨p :: poopsT :: (listToks b ++ [qooqT]), by simp⟩⟩) := by
          rw [parsePoopAux.eq_def]
          try dsimp only
          rw [if_neg (by decide)]
          rw [if_pos rfl]
          rw [if_neg (by simp [hp])]
          simp only [hAuxB]
          try dsimp only
          rfl
        rw [hstream, parseExprs, parseExprsAux.eq_def]
        try dsimp only
        rw [if_neg (by decide), if_pos rfl]
        simp only [heval]
        simp only [hAux2]
        simp [Except.map]
      | macroDef nm b hclean hnv hesc hb =>
        have hstream : listToks (Node.macroDef nm b :: ns2) ++ ts
            = poopT :: nm :: isT :: (listToks b ++ (qooqT :: (listToks ns2 ++ ts))) := by
          simp [listToks, nodeToks, List.append_assoc]
        have hlb : (listToks b).length ≤ N := by
          simp only [listToks, nodeToks, List.length_append,
            List.length_cons, List.length_nil] at hlen ⊢
          omega
        have hl2 : (listToks ns2).length ≤ N := by
          simp only [listToks, nodeToks, List.length_append,
            List.length_cons, List.length_nil] at hlen ⊢
          omega
        have hAuxB : parseExprsAux (listToks b ++ (qooqT :: (listToks ns2 ++ ts)))
            = .ok (b, ⟨qooqT :: (listToks ns2 ++ ts), ⟨listToks b, by simp⟩⟩) := by
          have hIHx := ih b hb hlb (qooqT :: (listToks ns2 ++ ts)) (Or.inr ⟨qooqT, listToks ns2 ++ ts, rfl, Or.inl rfl⟩)
          rw [parseExprs] at hIHx
          rcases hx0 : parseExprsAux (listToks b ++ (qooqT :: (listToks ns2 ++ ts))) with e0 | ⟨got0, r0, hr0⟩
          · rw [hx0] at hIHx
            simp [Except.map] at hIHx
          · rw [hx0] at hIHx
            simp only [Except.map, Except.ok.injEq, Prod.mk.injEq] at hIHx
            obtain ⟨rfl, rfl⟩ := hIHx
            rfl
        have hAux2 : parseExprsAux (listToks ns2 ++ ts)
            = .ok (ns2, ⟨ts, ⟨listToks ns2, by simp⟩⟩) := by
          have hIHx := ih ns2 hns2 hl2 ts hts
          rw [parseExprs] at hIHx
          rcases hx0 : parseExprsAux (listToks ns2 ++ ts) with e0 | ⟨got0, r0, hr0⟩
          · rw [hx0] at hIHx
            simp [Except.map] at hIHx
          · rw [hx0] at hIHx
            simp only [Except.map, Except.ok.injEq, Prod.mk.injEq] at hIHx
            obtain ⟨rfl, rfl⟩ := hIHx
            rfl
        have heval : parsePoopAux (nm :: isT :: (listToks b ++ (qooqT :: (listToks ns2 ++ ts))))
            = .ok (Node.macroDef nm b,
                ⟨listToks ns2 ++ ts, ⟨nm :: isT :: (listToks b ++ [qooqT]), by simp⟩⟩) := by
          rw [parsePoopAux.eq_def]
          try dsimp only
          rw [if_pos rfl]
          rw [if_neg (by simp [hnv, hesc])]
          simp only [hAuxB]
          try dsimp only
          rfl
        rw [hstream, parseExprs, parseExprsAux.eq_def]
        try dsimp only
        rw [if_neg (by decide), if_pos rfl]
        simp only [heval]
        simp only [hAux2]
        simp [Except.map]
      | apply f a hf ha =>
        cases hf with
        | single f hfw =>
          have htoksS : True := trivial
          have hstream : listToks (Node.apply (f) a :: ns2) ++ ts
              = poopingT :: (listToks ([f]) ++ (poopyT :: (listToks a ++ (qooqT :: (listToks ns2 ++ ts))))) := by
            simp only [listToks, nodeToks, htoksS, List.append_assoc, List.cons_append,
              List.nil_append, List.append_nil]
          have hlf : (listToks ([f])).length ≤ N := by
            simp only [listToks, nodeToks, htoksS, List.length_append,
              List.length_cons, List.length_nil] at hlen ⊢
            omega
          have hla : (listToks a).length ≤ N := by
            simp only [listToks, nodeToks, htoksS, List.length_append,
              List.length_cons, List.length_nil] at hlen ⊢
            omega
          have hl2 : (listToks ns2).length ≤ N := by
            simp only [listToks, nodeToks, htoksS, List.length_append,
              List.length_cons, List.length_nil] at hlen ⊢
            omega
          have hAuxF : parseExprsAux (listToks ([f]) ++ (poopyT :: (listToks a ++ (qooqT :: (listToks ns2 ++ ts)))))
              = .ok ([f], ⟨poopyT :: (listToks a ++ (qooqT :: (listToks ns2 ++ ts))), ⟨listToks ([f]), by simp⟩⟩) := by
            have hIHx := ih ([f]) (WFL.cons f [] hfw WFL.nil) hlf (poopyT :: (listToks a ++ (qooqT :: (listToks ns2 ++ ts)))) (Or.inr ⟨poopyT, _, rfl, Or.inr rfl⟩)
            rw [parseExprs] at hIHx
            rcases hx0 : parseExprsAux (listToks ([f]) ++ (poopyT :: (listToks a ++ (qooqT :: (listToks ns2 ++ ts))))) with e0 | ⟨got0, r0, hr0⟩
            · rw [hx0] at hIHx
              simp [Except.map] at hIHx
            · rw [hx0] at hIHx
              simp only [Except.map, Except.ok.injEq, Prod.mk.injEq] at hIHx
              obtain ⟨rfl, rfl⟩ := hIHx
              rfl
          have hAuxA : parseExprsAux (listToks a ++ (qooqT :: (listToks ns2 ++ ts)))
              = .ok (a, ⟨qooqT :: (listToks ns2 ++ ts), ⟨listToks a, by simp⟩⟩) := by
            have hIHx := ih a ha hla (qooqT :: (listToks ns2 ++ ts)) (Or.inr ⟨qooqT, listToks ns2 ++ ts, rfl, Or.inl rfl⟩)
            rw [parseExprs] at hIHx
            rcases hx0 : parseExprsAux (listToks a ++ (qooqT :: (listToks ns2 ++ ts))) with e0 | ⟨got0, r0, hr0⟩
            · rw [hx0] at hIHx
              simp [Except.map] at hIHx
            · rw [hx0] at hIHx
              simp only [Except.map, Except.ok.injEq, Prod.mk.injEq] at hIHx
              obtain ⟨rfl, rfl⟩ := hIHx
              rfl
          have hAux2 : parseExprsAux (listToks ns2 ++ ts)
              = .ok (ns2, ⟨ts, ⟨listToks ns2, by simp⟩⟩) := by
            have hIHx := ih ns2 hns2 hl2 ts hts
            rw [parseExprs] at hIHx
            rcases hx0 : parseExprsAux (listToks ns2 ++ ts) with e0 | ⟨got0, r0, hr0⟩
            · rw [hx0] at hIHx
              simp [Except.map] at hIHx
            · rw [hx0] at hIHx
              simp only [Except.map, Except.ok.injEq, Prod.mk.injEq] at hIHx
              obtain ⟨rfl, rfl⟩ := hIHx
              rfl
          have heval : parsePoopingAux (listToks ([f]) ++ (poopyT :: (listToks a ++ (qooqT :: (listToks ns2 ++ ts)))))
              = .ok (Node.apply (f) a,
                  ⟨listToks ns2 ++ ts, ⟨listToks ([f]) ++ (poopyT :: (listToks a ++ [qooqT])), by simp⟩⟩) := by
            rw [parsePoopingAux.eq_def]
            simp only [hAuxF]
            try dsimp only
            simp only [if_true]
            simp only [hAuxA]
            try dsimp only
            rfl
          rw [hstream, parseExprs, parseExprsAux.eq_def]
          try dsimp only
          rw [if_neg (by decide), if_neg (by decide), if_pos rfl]
          simp only [heval]
          simp only [hAux2]
          simp [Except.map]
        | collapse inner hinner hone =>
          rcases inner with - | ⟨x, - | ⟨y, zs⟩⟩
          · have htoksS : splitWs (nodesToCodeString ([] : List Node))
                = listToks ([] : List Node) := by decide
            have hstream : listToks (Node.apply (Node.token (nodesToCodeString ([] : List Node))) a :: ns2) ++ ts
                = poopingT :: (listToks (([] : List Node)) ++ (poopyT :: (listToks a ++ (qooqT :: (listToks ns2 ++ ts))))) := by
              simp only [listToks, nodeToks, htoksS, List.append_assoc, List.cons_append,
                List.nil_append, List.append_nil]
            have hlf : (listToks (([] : List Node))).length ≤ N := by
              simp only [listToks, nodeToks, htoksS, List.length_append,
                List.length_cons, List.length_nil] at hlen ⊢
              omega
            have hla : (listToks a).length ≤ N := by
              simp only [listToks, nodeToks, htoksS, List.length_append,
                List.length_cons, List.length_nil] at hlen ⊢
              omega
            have hl2 : (listToks ns2).length ≤ N := by
              simp only [listToks, nodeToks, htoksS, List.length_append,
                List.length_cons, List.length_nil] at hlen ⊢
              omega
            have hAuxF : parseExprsAux (listToks (([] : List Node)) ++ (poopyT :: (listToks a ++ (qooqT :: (listToks ns2 ++ ts)))))
                = .ok (([] : List Node), ⟨poopyT :: (listToks a ++ (qooqT :: (listToks ns2 ++ ts))), ⟨listToks (([] : List Node)), by simp⟩⟩) := by
              have hIHx := ih (([] : List Node)) (WFL.nil) hlf (poopyT :: (listToks a ++ (qooqT :: (listToks ns2 ++ ts)))) (Or.inr ⟨poopyT, _, rfl, Or.inr rfl⟩)
              rw [parseExprs] at hIHx
              rcases hx0 : parseExprsAux (listToks (([] : List Node)) ++ (poopyT :: (listToks a ++ (qooqT :: (listToks ns2 ++ ts))))) with e0 | ⟨got0, r0, hr0⟩
              · rw [hx0] at hIHx
                simp [Except.map] at hIHx
              · rw [hx0] at hIHx
                simp only [Except.map, Except.ok.injEq, Prod.mk.injEq] at hIHx
                obtain ⟨rfl, rfl⟩ := hIHx
                rfl
            have hAuxA : parseExprsAux (listToks a ++ (qooqT :: (listToks ns2 ++ ts)))
                = .ok (a, ⟨qooqT :: (listToks ns2 ++ ts), ⟨listToks a, by simp⟩⟩) := by
              have hIHx := ih a ha hla (qooqT :: (listToks ns2 ++ ts)) (Or.inr ⟨qooqT, listToks ns2 ++ ts, rfl, Or.inl rfl⟩)
              rw [parseExprs] at hIHx
              rcases hx0 : parseExprsAux (listToks a ++ (qooqT :: (listToks ns2 ++ ts))) with e0 | ⟨got0, r0, hr0⟩
              · rw [hx0] at hIHx
                simp [Except.map] at hIHx
              · rw [hx0] at hIHx
                simp only [Except.map, Except.ok.injEq, Prod.mk.injEq] at hIHx
                obtain ⟨rfl, rfl⟩ := hIHx
                rfl
            have hAux2 : parseExprsAux (listToks ns2 ++ ts)
                = .ok (ns2, ⟨ts, ⟨listToks ns2, by simp⟩⟩) := by
              have hIHx := ih ns2 hns2 hl2 ts hts
              rw [parseExprs] at hIHx
              rcases hx0 : parseExprsAux (listToks ns2 ++ ts) with e0 | ⟨got0, r0, hr0⟩
              · rw [hx0] at hIHx
                simp [Except.map] at hIHx
              · rw [hx0] at hIHx
                simp only [Except.map, Except.ok.injEq, Prod.mk.injEq] at hIHx
                obtain ⟨rfl, rfl⟩ := hIHx
                rfl
            have heval : parsePoopingAux (listToks (([] : List Node)) ++ (poopyT :: (listToks a ++ (qooqT :: (listToks ns2 ++ ts)))))
                = .ok (Node.apply (Node.token (nodesToCodeString ([] : List Node))) a,
                    ⟨listToks ns2 ++ ts, ⟨listToks (([] : List Node)) ++ (poopyT :: (listToks a ++ [qooqT])), by simp⟩⟩) := by
              rw [parsePoopingAux.eq_def]
              simp only [hAuxF]
              try dsimp only
              simp only [if_true]
              simp only [hAuxA]
              try dsimp only
              rfl
            rw [hstream, parseExprs, parseExprsAux.eq_def]
            try dsimp only
            rw [if_neg (by decide), if_neg (by decide), if_pos rfl]
            simp only [heval]
            simp only [hAux2]
            simp [Except.map]
          · exact absurd rfl hone
          · have htoksS : splitWs (nodesToCodeString (x :: y :: zs))
                = listToks (x :: y :: zs) :=
              ((render_clean (nodesToCodeString (x :: y :: zs)).length).2
                (x :: y :: zs) hinner le_rfl).2.2
            have hstream : listToks (Node.apply (Node.token (nodesToCodeString (x :: y :: zs))) a :: ns2) ++ ts
                = poopingT :: (listToks (x :: y :: zs) ++ (poopyT :: (listToks a ++ (qooqT :: (listToks ns2 ++ ts))))) := by
              simp only [listToks, nodeToks, htoksS, List.append_assoc, List.cons_append,
                List.nil_append, List.append_nil]
            have hlf : (listToks (x :: y :: zs)).length ≤ N := by
              simp only [listToks, nodeToks, htoksS, List.length_append,
                List.length_cons, List.length_nil] at hlen ⊢
              omega
            have hla : (listToks a).length ≤ N := by
              simp only [listToks, nodeToks, htoksS, List.length_append,
                List.length_cons, List.length_nil] at hlen ⊢
              omega
            have hl2 : (listToks ns2).length ≤ N := by
              simp only [listToks, nodeToks, htoksS, List.length_append,
                List.length_cons, List.length_nil] at hlen ⊢
              omega
            have hAuxF : parseExprsAux (listToks (x :: y :: zs) ++ (poopyT :: (listToks a ++ (qooqT :: (listToks ns2 ++ ts)))))
                = .ok (x :: y :: zs, ⟨poopyT :: (listToks a ++ (qooqT :: (listToks ns2 ++ ts))), ⟨listToks (x :: y :: zs), by simp⟩⟩) := by
              have hIHx := ih (x :: y :: zs) (hinner) hlf (poopyT :: (listToks a ++ (qooqT :: (listToks ns2 ++ ts)))) (Or.inr ⟨poopyT, _, rfl, Or.inr rfl⟩)
              rw [parseExprs] at hIHx
              rcases hx0 : parseExprsAux (listToks (x :: y :: zs) ++ (poopyT :: (listToks a ++ (qooqT :: (listToks ns2 ++ ts))))) with e0 | ⟨got0, r0, hr0⟩
              · rw [hx0] at hIHx
                simp [Except.map] at hIHx
              · rw [hx0] at hIHx
                simp only [Except.map, Except.ok.injEq, Prod.mk.injEq] at hIHx
                obtain ⟨rfl, rfl⟩ := hIHx
                rfl
            have hAuxA : parseExprsAux (listToks a ++ (qooqT :: (listToks ns2 ++ ts)))
                = .ok (a, ⟨qooqT :: (listToks ns2 ++ ts), ⟨listToks a, by simp⟩⟩) := by
              have hIHx := ih a ha hla (qooqT :: (listToks ns2 ++ ts)) (Or.inr ⟨qooqT, listToks ns2 ++ ts, rfl, Or.inl rfl⟩)
              rw [parseExprs] at hIHx
              rcases hx0 : parseExprsAux (listToks a ++ (qooqT :: (listToks ns2 ++ ts))) with e0 | ⟨got0, r0, hr0⟩
              · rw [hx0] at hIHx
                simp [Except.map] at hIHx
              · rw [hx0] at hIHx
                simp only [Except.map, Except.ok.injEq, Prod.mk.injEq] at hIHx
                obtain ⟨rfl, rfl⟩ := hIHx
                rfl
            have hAux2 : parseExprsAux (listToks ns2 ++ ts)
                = .ok (ns2, ⟨ts, ⟨listToks ns2, by simp⟩⟩) := by
              have hIHx := ih ns2 hns2 hl2 ts hts
              rw [parseExprs] at hIHx
              rcases hx0 : parseExprsAux (listToks ns2 ++ ts) with e0 | ⟨got0, r0, hr0⟩
              · rw [hx0] at hIHx
                simp [Except.map] at hIHx
              · rw [hx0] at hIHx
                simp only [Except.map, Except.ok.injEq, Prod.mk.injEq] at hIHx
                obtain ⟨rfl, rfl⟩ := hIHx
                rfl
            have heval : parsePoopingAux (listToks (x :: y :: zs) ++ (poopyT :: (listToks a ++ (qooqT :: (listToks ns2 ++ ts)))))
                = .ok (Node.apply (Node.token (nodesToCodeString (x :: y :: zs))) a,
                    ⟨listToks ns2 ++ ts, ⟨listToks (x :: y :: zs) ++ (poopyT :: (listToks a ++ [qooqT])), by simp⟩⟩) := by
              rw [parsePoopingAux.eq_def]
              simp only [hAuxF]
              try dsimp only
              simp only [if_true]
              simp only [hAuxA]
              try dsimp only
              rfl
            rw [hstream, parseExprs, parseExprsAux.eq_def]
            try dsimp only
            rw [if_neg (by decide), if_neg (by decide), if_pos rfl]
            simp only [heval]
            simp only [hAux2]
            simp [Except.map]

/-- A successful parse of a clean token stream yields a well-formed AST. -/
theorem parseAux_wf (N : Nat) : ∀ (ts0 : List Str), ts0.length ≤ N →
    (∀ t ∈ ts0, cleanTok t = true) →
    ((∀ ns r, parseExprsAux ts0 = .ok (ns, r) → WFL ns)
    ∧ (∀ n r, parsePoopAux ts0 = .ok (n, r) → WFN n)
    ∧ (∀ n r, parsePoopingAux ts0 = .ok (n, r) → WFN n)) := by
  induction N with
  | zero =>
    intro ts0 hlen hin
    have h0 : ts0 = [] := List.length_eq_zero.mp (Nat.le_zero.mp hlen)
    subst h0
    refine ⟨?_, ?_, ?_⟩
    · intro ns r hp
      simp only [parseExprsAux, Except.ok.injEq, Prod.mk.injEq] at hp
      obtain ⟨h1, -⟩ := hp
      subst h1
      exact WFL.nil
    · intro n r hp
      simp [parsePoopAux] at hp
    · intro n r hp
      simp [parsePoopingAux, parseExprsAux] at hp
  | succ N ih =>
    intro ts0 hlen hin
    have hE : ∀ ns r, parseExprsAux ts0 = .ok (ns, r) → WFL ns := by
      intro ns r hp
      cases ts0 with
      | nil =>
        simp only [parseExprsAux, Except.ok.injEq, Prod.mk.injEq] at hp
        obtain ⟨h1, -⟩ := hp
        subst h1
        exact WFL.nil
      | cons t ts =>
        rw [parseExprsAux.eq_def] at hp
        try simp only [] at hp
        by_cases h1 : (t = qooqT ∨ t = poopyT)
        · rw [if_pos (by simpa using h1)] at hp
          simp only [Except.ok.injEq, Prod.mk.injEq] at hp
          obtain ⟨h2, -⟩ := hp
          subst h2
          exact WFL.nil
        · rw [if_neg (by simpa using h1)] at hp
          by_cases h2 : t = poopT
          · rw [if_pos (by simpa using h2)] at hp
            rcases hpp : parsePoopAux ts with e | ⟨node, rest, hr⟩
            · simp only [hpp] at hp
              simp at hp
            · simp only [hpp] at hp
              rcases hpe : parseExprsAux rest with e | ⟨sibs, fr, hf⟩
              · simp only [hpe] at hp
                simp at hp
              · simp only [hpe] at hp
                simp only [Except.ok.injEq, Prod.mk.injEq] at hp
                obtain ⟨h3, -⟩ := hp
                subst h3
                have hlts : ts.length ≤ N := by
                  simpa [Nat.succ_le_succ_iff] using hlen
                have hints : ∀ u ∈ ts, cleanTok u = true := fun u hu =>
                  hin u (List.mem_cons_of_mem t hu)
                have hinrest : ∀ u ∈ rest, cleanTok u = true := fun u hu =>
                  hints u (hr.subset hu)
                have hlrest : rest.length ≤ N :=
                  le_trans hr.length_le hlts
                have hN := (ih ts hlts hints).2.1 node ⟨rest, hr⟩ hpp
                have hS := (ih rest hlrest hinrest).1 sibs ⟨fr, hf⟩ hpe
                exact WFL.cons node sibs hN hS
          · rw [if_neg (by simpa using h2)] at hp
            by_cases h3 : t = poopingT
            · rw [if_pos (by simpa using h3)] at hp
              rcases hpp : parsePoopingAux ts with e | ⟨node, rest, hr⟩
              · simp only [hpp] at hp
                simp at hp
              · simp only [hpp] at hp
                rcases hpe : parseExprsAux rest with e | ⟨sibs, fr, hf⟩
                · simp only [hpe] at hp
                  simp at hp
                · simp only [hpe] at hp
                  simp only [Except.ok.injEq, Prod.mk.injEq] at hp
                  obtain ⟨h4, -⟩ := hp
                  subst h4
                  have hlts : ts.length ≤ N := by
                    simpa [Nat.succ_le_succ_iff] using hlen
                  have hints : ∀ u ∈ ts, cleanTok u = true := fun u hu =>
                    hin u (List.mem_cons_of_mem t hu)
                  have hinrest : ∀ u ∈ rest, cleanTok u = true := fun u hu =>
                    hints u (hr.subset hu)
                  have hlrest : rest.length ≤ N :=
                    le_trans hr.length_le hlts
                  have hN := (ih ts hlts hints).2.2 node ⟨rest, hr⟩ hpp
                  have hS := (ih rest hlrest hinrest).1 sibs ⟨fr, hf⟩ hpe
                  exact WFL.cons node sibs hN hS
            · rw [if_neg (by simpa using h3)] at hp
              rcases hpe : parseExprsAux ts with e | ⟨sibs, fr, hf⟩
              · simp only [hpe] at hp
                simp at hp
              · simp only [hpe] at hp
                simp only [Except.ok.injEq, Prod.mk.injEq] at hp
                obtain ⟨h4, -⟩ := hp
                subst h4
                have hlts : ts.length ≤ N := by
                  simpa [Nat.succ_le_succ_iff] using hlen
                have hints : ∀ u ∈ ts, cleanTok u = true := fun u hu =>
                  hin u (List.mem_cons_of_mem t hu)
                have hS := (ih ts hlts hints).1 sibs ⟨fr, hf⟩ hpe
                have hclean := hin t (List.mem_cons_self t ts)
                have hT : WFN (if isLiteral t = true then Node.literal t
                    else Node.token t) := by
                  by_cases hl : isLiteral t = true
                  · rw [if_pos hl]
                    exact WFN.literal t hclean hl
                  · rw [if_neg hl]
                    push_neg at h1
                    exact WFN.token t hclean (by simpa using hl)
                      h1.1 h1.2 h2 h3
                exact WFL.cons _ sibs hT hS
    have hP : ∀ n r, parsePoopAux ts0 = .ok (n, r) → WFN n := by
      intro n r hp
      cases ts0 with
      | nil => simp [parsePoopAux] at hp
      | cons name ts =>
        rw [parsePoopAux.eq_def] at hp
        try simp only [] at hp
        cases ts with
        | nil => simp at hp
        | cons t0 rest =>
          try simp only [] at hp
          by_cases h1 : t0 = isT
          · rw [if_pos (by simpa using h1)] at hp
            by_cases h2 : (isVarName name = true ∨ name ∈ escapeNames)
            · rw [if_pos (by simpa using h2)] at hp
              simp at hp
            · rw [if_neg (by simpa using h2)] at hp
              rcases hpe : parseExprsAux rest with e | ⟨body, after, hb⟩
              · simp only [hpe] at hp
                simp at hp
              · simp only [hpe] at hp
                cases after with
                | nil => simp at hp
                | cons q rem =>
                  try simp only [] at hp
                  by_cases h3 : q = qooqT
                  · rw [if_pos (by simpa using h3)] at hp
                    simp only [Except.ok.injEq, Prod.mk.injEq] at hp
                    obtain ⟨h4, -⟩ := hp
                    subst h4
                    have hlrest : rest.length ≤ N := by
                      have := hlen
                      simp only [List.length_cons] at this
                      omega
                    have hinrest : ∀ u ∈ rest, cleanTok u = true := fun u hu =>
                      hin u (List.mem_cons_of_mem name (List.mem_cons_of_mem t0 hu))
                    have hB := (ih rest hlrest hinrest).1 body ⟨q :: rem, hb⟩ hpe
                    push_neg at h2
                    exact WFN.macroDef name body
                      (hin name (List.mem_cons_self name _))
                      (by simpa using h2.1) h2.2 hB
                  · rw [if_neg (by simpa using h3)] at hp
                    simp at hp
          · rw [if_neg (by simpa using h1)] at hp
            by_cases h2 : t0 = poopsT
            · rw [if_pos (by simpa using h2)] at hp
              by_cases h3 : isVarName name = true
              · rw [if_neg (by simpa using h3)] at hp
                rcases hpe : parseExprsAux rest with e | ⟨body, after, hb⟩
                · simp only [hpe] at hp
                  simp at hp
                · simp only [hpe] at hp
                  cases after with
                  | nil => simp at hp
                  | cons q rem =>
                    try simp only [] at hp
                    by_cases h4 : q = qooqT
                    · rw [if_pos (by simpa using h4)] at hp
                      simp only [Except.ok.injEq, Prod.mk.injEq] at hp
                      obtain ⟨h5, -⟩ := hp
                      subst h5
                      have hlrest : rest.length ≤ N := by
                        have := hlen
                        simp only [List.length_cons] at this
                        omega
                      have hinrest : ∀ u ∈ rest, cleanTok u = true := fun u hu =>
                        hin u (List.mem_cons_of_mem name (List.mem_cons_of_mem t0 hu))
                      have hB := (ih rest hlrest hinrest).1 body ⟨q :: rem, hb⟩ hpe
                      exact WFN.func name body h3 hB
                    · rw [if_neg (by simpa using h4)] at hp
                      simp at hp
              · rw [if_pos (by simpa using h3)] at hp
                simp at hp
            · rw [if_neg (by simpa using h2)] at hp
              simp at hp
    have hPg : ∀ n r, parsePoopingAux ts0 = .ok (n, r) → WFN n := by
      intro n r hp
      rw [parsePoopingAux.eq_def] at hp
      rcases hpe : parseExprsAux ts0 with e | ⟨funcNodes, afterFunc, h1⟩
      · simp only [hpe] at hp
        simp at hp
      · simp only [hpe] at hp
        cases afterFunc with
        | nil => simp at hp
        | cons ptok rest =>
          try simp only [] at hp
          by_cases hpt : ptok = poopyT
          · rw [if_pos (by simpa using hpt)] at hp
            rcases hpa : parseExprsAux rest with e | ⟨argNodes, afterArg, h2⟩
            · simp only [hpa] at hp
              simp at hp
            · simp only [hpa] at hp
              cases afterArg with
              | nil => simp at hp
              | cons q rem =>
                try simp only [] at hp
                by_cases hq : q = qooqT
                · rw [if_pos (by simpa using hq)] at hp
                  simp only [Except.ok.injEq, Prod.mk.injEq] at hp
                  obtain ⟨h3, -⟩ := hp
                  subst h3
                  have hF := hE funcNodes ⟨ptok :: rest, h1⟩ hpe
                  have hinrest : ∀ u ∈ rest, cleanTok u = true := fun u hu =>
                    hin u (h1.subset (List.mem_cons_of_mem ptok hu))
                  have hlrest : rest.length ≤ N := by
                    have h1l := h1.length_le
                    simp only [List.length_cons] at h1l
                    omega
                  have hA := (ih rest hlrest hinrest).1 argNodes ⟨q :: rem, h2⟩ hpa
                  rcases funcNodes with - | ⟨x, - | ⟨y, zs⟩⟩
                  · exact WFN.apply _ argNodes
                      (WFC.collapse [] WFL.nil (by simp)) hA
                  · cases hF with
                    | cons x0 l0 hx hl =>
                      exact WFN.apply _ argNodes (WFC.single x hx) hA
                  · exact WFN.apply _ argNodes
                      (WFC.collapse (x :: y :: zs) hF (by simp)) hA
                · rw [if_neg (by simpa using hq)] at hp
                  simp at hp
          · rw [if_neg (by simpa using hpt)] at hp
            simp at hp
    exact ⟨hE, hP, hPg⟩

/-! ## Claim C2: parse/render round trip -/

/-- Mapping a function that fixes every member of a list is the identity. -/
theorem map_fix_id (f : Str → Str) : ∀ (l : List Str),
    (∀ t ∈ l, f t = t) → l.map f = l
  | [], _ => rfl
  | x :: xs, hl => by
    rw [List.map_cons, hl x (List.mem_cons_self _ _),
      map_fix_id f xs (fun u hu => hl u (List.mem_cons_of_mem x hu))]

/-- **C2 (amended).** For every backslash-free program text `P` on which
`parseProgram` succeeds, re-parsing the source stringification of the parse
returns an AST equal to the original parse.  (For programs with escape
sequences this fails, see the counterexample.) -/
theorem parse_roundtrip_no_backslash (P : Str) (ast : List Node)
    (hbs : ∀ c ∈ P, ¬ c = '\\')
    (hp : parseProgram P = .ok ast) :
    parseProgram (nodesToCodeString ast) = .ok ast := by
  rcases hpe : parseExprsAux (tokenize P) with e | ⟨ns, rest, hr⟩
  · rw [parseProgram, parseExprs, hpe] at hp
    simp [Except.map] at hp
  · rw [parseProgram, parseExprs, hpe] at hp
    by_cases hre : rest = []
    · subst hre
      simp [Except.map] at hp
      rcases hp with rfl
      have hclean : ∀ u ∈ tokenize P, cleanTok u = true := tokenize_clean P hbs
      have hwf : WFL ns :=
        (parseAux_wf (tokenize P).length (tokenize P) le_rfl hclean).1
          ns ⟨[], hr⟩ hpe
      obtain ⟨hbsR, hcsR, hspR⟩ :=
        (render_clean (nodesToCodeString ns).length).2 ns hwf le_rfl
      have hfr : ∀ u ∈ splitWs (nodesToCodeString ns), unescapeStr u = u := by
        intro u hu
        rw [splitWs] at hu
        have hinf : u <:+: nodesToCodeString ns := by
          simpa using splitWsAux_infix (nodesToCodeString ns) [] u hu
        exact unescapeStr_id u (fun c hc => hbsR c (hinf.subset hc))
      have htok : tokenize (nodesToCodeString ns) = listToks ns := by
        rw [tokenize,
          removeComments_id_all (nodesToCodeString ns).length _ le_rfl hcsR,
          map_fix_id _ _ hfr, hspR]
      have hparse := parse_render (listToks ns).length ns hwf le_rfl [] (Or.inl rfl)
      rw [List.append_nil] at hparse
      rw [parseProgram, htok, hparse]
      simp
    · simp [Except.map, hre] at hp

/-- Witness for the amended C2: the one-token program `a` round-trips. -/
theorem parse_roundtrip_no_backslash_witness :
    (∀ c ∈ (['a'] : Str), ¬ c = '\\')
    ∧ parseProgram ['a'] = .ok [Node.token ['a']]
    ∧ parseProgram (nodesToCodeString [Node.token ['a']])
        = .ok [Node.token ['a']] := by
  have hpa : parseProgram ['a'] = .ok [Node.token ['a']] := by
    simp +decide [parseProgram, parseExprs, parseExprsAux, tokenize,
      removeComments, splitWs, splitWsAux, unescapeStr, isWs, isLiteral,
      reservedWords, qooqT, poopyT, poopT, poopingT, Except.map]
  exact ⟨by decide, hpa,
    parse_roundtrip_no_backslash ['a'] [Node.token ['a']] (by decide) hpa⟩

/-- Counterexample to the literal C2: the program `a\sb` (whose single token
unescapes to `a b`, a token with an embedded space) parses successfully, but
re-parsing its source stringification yields two tokens, a different AST. -/
theorem parse_roundtrip_counterexample :
    parseProgram ['a', '\\', 's', 'b'] = .ok [Node.token ['a', ' ', 'b']]
    ∧ nodesToCodeString [Node.token ['a', ' ', 'b']] = ['a', ' ', 'b']
    ∧ parseProgram ['a', ' ', 'b'] = .ok [Node.token ['a'], Node.token ['b']]
    ∧ ¬ ([Node.token ['a'], Node.token ['b']] = [Node.token ['a', ' ', 'b']]) := by
  refine ⟨?_, ?_, ?_, by decide⟩
  · simp +decide [parseProgram, parseExprs, parseExprsAux, tokenize,
      removeComments, splitWs, splitWsAux, unescapeStr, decodeEsc, isWs,
      isLiteral, reservedWords, qooqT, poopyT, poopT, poopingT, Except.map]
  · simp [nodesToCodeString, toCodeString]
  · simp +decide [parseProgram, parseExprs, parseExprsAux, tokenize,
      removeComments, splitWs, splitWsAux, unescapeStr, decodeEsc, isWs,
      isLiteral, reservedWords, qooqT, poopyT, poopT, poopingT, Except.map]

end Poop
